import Mathlib

/-!
# Verification of the fast-skiplist data structure

Shallow embedding of the skip list implementation (skiplist.go, type.go):
a probabilistic multi-level ordered linked structure with
`Set` / `Get` / `Remove`, a predecessor-cache traversal
(`getPrevElementNodes`), a precomputed probability table with a
single-draw height generator (`randLevel`), and reconfiguration
(`SetMaxLevel`, `SetProbability`).

Modelling conventions:
* Keys are `float64` in the source and are only ever compared with `>` and
  `<=`; they are modelled by an arbitrary `LinearOrder` (faithful for every
  NaN-free `float64`).  Probabilities are `float64` and are modelled by `ℚ`
  with exact arithmetic.
* The heap of `Element` nodes is a list `nodes`; a `*Element` pointer is
  `Option Nat` (`none` = Go `nil`, `some id` = the node `nodes[id]`).
  A `*elementNode` position (receiver of a `next[i]` read or write) is also
  `Option Nat`, with `none` = the sentinel `&list.elementNode` (the head).
  Go's garbage collector reclaims unlinked nodes; the model simply leaves
  them in `nodes` as unreachable entries, so allocation of a fresh node is
  `nodes ++ [·]` with id `nodes.length`.
* The `sync.RWMutex` field and the `rand.Source` field are not part of the
  model: the claims under verification are about the sequential semantics,
  and the single random draw of `randLevel` (resp. the height it produces)
  is passed in as an explicit argument `r` (resp. `lvl`).
* Go slice reads out of bounds panic; the primary embedding totalises them
  (`getD` / no-op writes), and separate `..Chk` variants return `none`
  exactly when some slice index is out of bounds, to state the memory
  safety claim.
* The `while` loops of the traversal terminate in Go because keys strictly
  increase along every chain; the embedded loops take explicit fuel and are
  always called with fuel `s.nodes.length + 1`, which is proven sufficient
  under the structural invariant.
-/

set_option autoImplicit false
set_option linter.unusedSectionVars false

namespace FastSkiplist

/-- `Element`: a node of the skip list (type.go).  `next` is the embedded
`elementNode`'s forward-pointer array, one entry per level the node
participates in (its length is the node's height). -/
structure Element (K V : Type) where
  next : List (Option Nat)
  key : K
  value : V
  deriving Repr, DecidableEq

/-- `SkipList` (type.go).  `next` is the embedded head `elementNode`'s
forward array (entry points of every level), `prevNodesCache` the reusable
traversal buffer, `nodes` the heap of allocated elements. -/
structure SkipList (K V : Type) where
  next : List (Option Nat)
  maxLevel : Nat
  length : Nat
  probability : ℚ
  probTable : List ℚ
  prevNodesCache : List (Option Nat)
  nodes : List (Element K V)
  deriving Repr, DecidableEq

variable {K V : Type} [LinearOrder K]

/-- The read `p.next[i]` at a position `p` (`none` = the head sentinel,
`some id` = element `id`).  Out-of-bounds reads yield `none` (Go panics;
`nextAtChk` detects them). -/
def SkipList.nextAt (s : SkipList K V) (p : Option Nat) (i : Nat) : Option Nat :=
  match p with
  | none => (s.next[i]?).join
  | some id =>
    match s.nodes[id]? with
    | none => none
    | some nd => (nd.next[i]?).join

/-- The key of element `id`, when `id` is allocated. -/
def SkipList.keyAt? (s : SkipList K V) (id : Nat) : Option K :=
  (s.nodes[id]?).map Element.key

/-- The value of element `id`, when `id` is allocated. -/
def SkipList.valueAt? (s : SkipList K V) (id : Nat) : Option V :=
  (s.nodes[id]?).map Element.value

/-- The height (length of the forward array) of element `id`. -/
def SkipList.heightAt (s : SkipList K V) (id : Nat) : Nat :=
  ((s.nodes[id]?).map (fun nd => nd.next.length)).getD 0

/-- The write `p.next[i] = v`.  Out-of-bounds writes are modelled as no-ops
(Go panics; `writeNextChk` detects them). -/
def SkipList.writeNext (s : SkipList K V) (p : Option Nat) (i : Nat) (v : Option Nat) :
    SkipList K V :=
  match p with
  | none => { s with next := s.next.set i v }
  | some id =>
    match s.nodes[id]? with
    | none => s
    | some nd => { s with nodes := s.nodes.set id { nd with next := nd.next.set i v } }

/-- The shared inner loop of `Get`, `getPrevElementNodes`:
`for next != nil && key > next.key { prev = &next.elementNode; next = next.next[i] }`,
returning the final `prev`.  `fuel` bounds the number of iterations; every
caller passes `s.nodes.length + 1`. -/
def SkipList.walkLevel (s : SkipList K V) (key : K) (i : Nat) :
    Option Nat → Nat → Option Nat
  | p, 0 => p
  | p, fuel+1 =>
    match s.nextAt p i with
    | none => p
    | some nid =>
      match s.keyAt? nid with
      | none => p
      | some kn => if kn < key then s.walkLevel key i (some nid) fuel else p

/-- The level loop of `Get` (skiplist.go, `for i := list.maxLevel - 1; i >= 0; i--`),
which keeps no cache.  The counter `c` means levels `c-1, …, 0` remain. -/
def SkipList.descendLoop (s : SkipList K V) (key : K) : Option Nat → Nat → Option Nat
  | p, 0 => p
  | p, c+1 => s.descendLoop key (s.walkLevel key c p (s.nodes.length + 1)) c

/-- The candidate `next` left by `Get`'s descent: after the final level-0
inner loop, `next = prev.next[0]`.  If `maxLevel = 0` the loop body never
runs and `next` stays `nil`. -/
def SkipList.getCandidate (s : SkipList K V) (key : K) : Option Nat :=
  if s.maxLevel = 0 then none
  else s.nextAt (s.descendLoop key none s.maxLevel) 0

/-- `Get(key)` (skiplist.go): unsynchronised descent, then
`if next != nil && next.key <= key { return next }; return nil`.
Returns the id of the found element. -/
def SkipList.get (s : SkipList K V) (key : K) : Option Nat :=
  match s.getCandidate key with
  | none => none
  | some nid =>
    match s.keyAt? nid with
    | none => none
    | some kn => if kn ≤ key then some nid else none

/-- `Get` with the list state threaded through: the body of `Get` performs
no write to any list or node field, so the state component is returned
unchanged. -/
def SkipList.getSt (s : SkipList K V) (key : K) : Option Nat × SkipList K V :=
  (s.get key, s)

/-- The level loop of `getPrevElementNodes` (skiplist.go): the shared inner
walk per level, recording the final `prev` of each level `i` into
`prevs[i]` (the reusable `prevNodesCache` array). -/
def SkipList.gpenLoop (s : SkipList K V) (key : K) :
    Option Nat → Nat → List (Option Nat) → List (Option Nat)
  | _, 0, cache => cache
  | p, c+1, cache =>
    let q := s.walkLevel key c p (s.nodes.length + 1)
    s.gpenLoop key q c (cache.set c q)

/-- `getPrevElementNodes(key)` (skiplist.go): returns the filled cache and
the state whose `prevNodesCache` holds it (the Go code fills the buffer in
place and returns the same slice). -/
def SkipList.getPrevElementNodes (s : SkipList K V) (key : K) :
    List (Option Nat) × SkipList K V :=
  let cache := s.gpenLoop key none s.maxLevel s.prevNodesCache
  (cache, { s with prevNodesCache := cache })

/-- The splice loop of `Set` (skiplist.go):
`for i := range element.next { element.next[i] = prevs[i].next[i]; prevs[i].next[i] = element }`.
`rem` counts the remaining iterations, `i` is the current level. -/
def spliceLoop (nid : Nat) (prevs : List (Option Nat)) :
    SkipList K V → Nat → Nat → SkipList K V
  | s, _, 0 => s
  | s, i, rem+1 =>
    let p := prevs.getD i none
    let s1 := s.writeNext (some nid) i (s.nextAt p i)
    let s2 := s1.writeNext p i (some nid)
    spliceLoop nid prevs s2 (i+1) rem

/-- The insert path of `Set`: allocate a fresh element whose forward array
has `lvl` slots (`make([]*Element, list.randLevel())`), splice it in at
every level `i < lvl`, and increment `length`. -/
def SkipList.insertNew (s : SkipList K V) (key : K) (value : V) (lvl : Nat)
    (prevs : List (Option Nat)) : Nat × SkipList K V :=
  let nid := s.nodes.length
  let s1 : SkipList K V := { s with nodes := s.nodes ++ [⟨List.replicate lvl none, key, value⟩] }
  let s2 := spliceLoop nid prevs s1 0 lvl
  (nid, { s2 with length := s2.length + 1 })

/-- `Set(key, value)` (skiplist.go).  The height the code draws from
`randLevel` on the insert path is passed in as `lvl`.  Returns the id of
the updated or inserted element together with the new state.  The
`nodes[nid]? = none` fallthrough is a dangling pointer, impossible in Go
and unreachable under the structural invariant. -/
def SkipList.set (s0 : SkipList K V) (key : K) (value : V) (lvl : Nat) :
    Nat × SkipList K V :=
  let pr := s0.getPrevElementNodes key
  let prevs := pr.1
  let s := pr.2
  match s.nextAt (prevs.getD 0 none) 0 with
  | some nid =>
    match s.nodes[nid]? with
    | some nd =>
      if nd.key ≤ key then
        (nid, { s with nodes := s.nodes.set nid { nd with value := value } })
      else s.insertNew key value lvl prevs
    | none => s.insertNew key value lvl prevs
  | none => s.insertNew key value lvl prevs

/-- The unlink loop of `Remove` (skiplist.go):
`for k, v := range element.next { prevs[k].next[k] = v }`.
`vs` is the removed element's forward array (evaluated once by `range`),
`k` the current level. -/
def unlinkLoop (prevs : List (Option Nat)) :
    SkipList K V → Nat → List (Option Nat) → SkipList K V
  | s, _, [] => s
  | s, k, v :: vs => unlinkLoop prevs (s.writeNext (prevs.getD k none) k v) (k+1) vs

/-- `Remove(key)` (skiplist.go): traversal, then if the level-0 successor of
`prevs[0]` matches (`element != nil && element.key <= key`), unlink it at
every level up to its height and decrement `length`; otherwise return `nil`
and change nothing. -/
def SkipList.remove (s0 : SkipList K V) (key : K) : Option Nat × SkipList K V :=
  let pr := s0.getPrevElementNodes key
  let prevs := pr.1
  let s := pr.2
  match s.nextAt (prevs.getD 0 none) 0 with
  | some nid =>
    match s.nodes[nid]? with
    | some nd =>
      if nd.key ≤ key then
        let s2 := unlinkLoop prevs s 0 nd.next
        (some nid, { s2 with length := s2.length - 1 })
      else (none, s)
    | none => (none, s)
  | none => (none, s)

/-- `probabilityTable(probability, maxLevel)` (skiplist.go): the table with
entry `i` (0-based) equal to `probability^i`, i.e. `math.Pow(probability, i-1)`
for 1-based `i = 1, …, maxLevel`. -/
def probabilityTable (probability : ℚ) (maxLevel : Nat) : List ℚ :=
  (List.range maxLevel).map (fun i => probability ^ i)

/-- `DefaultProbability = 1 / math.E`: the exact value of the `float64`
nearest to 1/e. -/
def defaultProbability : ℚ := 828390857088487 / 2251799813685248

/-- `DefaultMaxLevel`. -/
def defaultMaxLevel : Nat := 21

/-- `New()` (skiplist.go).  The fresh `prevNodesCache` holds nil pointers in
Go; they are modelled as `none` (= head), which is indistinguishable because
`getPrevElementNodes` overwrites every entry it ever exposes before use. -/
def newList (K V : Type) : SkipList K V where
  next := List.replicate defaultMaxLevel none
  maxLevel := defaultMaxLevel
  length := 0
  probability := defaultProbability
  probTable := probabilityTable defaultProbability defaultMaxLevel
  prevNodesCache := List.replicate defaultMaxLevel none
  nodes := []

/-- The loop of `randLevel` (skiplist.go):
`level = 1; for level < list.maxLevel && r < list.probTable[level] { level++ }`. -/
def randLevelLoop (maxLevel : Nat) (table : List ℚ) (r : ℚ) (level : Nat) : Nat :=
  if level < maxLevel ∧ r < table.getD level 0 then
    randLevelLoop maxLevel table r (level + 1)
  else level
termination_by maxLevel - level

/-- `randLevel()` (skiplist.go), with the single uniform draw
`r = float64(list.randSource.Int63()) / (1 << 63) ∈ [0,1)` passed in
explicitly. -/
def SkipList.randLevel (s : SkipList K V) (r : ℚ) : Nat :=
  randLevelLoop s.maxLevel s.probTable r 1

/-- Go's `next := make([]*Element, n); copy(next, old)`: `n` slots, the
first `min n old.length` copied from `old`, the rest nil. -/
def copyResize (old : List (Option Nat)) (n : Nat) : List (Option Nat) :=
  old.take n ++ List.replicate (n - old.length) none

/-- `SetMaxLevel(newLevel)` (skiplist.go): rejects `newLevel` outside
`1..64` and `newLevel == maxLevel` (returns `false`, no change); shrinking
truncates `next` and `prevNodesCache` and regenerates the table; growing
reallocates both (`prevNodesCache` fresh, i.e. all nil, modelled `none`)
and regenerates the table. -/
def SkipList.setMaxLevel (s : SkipList K V) (newLevel : Int) : Bool × SkipList K V :=
  if newLevel < 1 ∨ 64 < newLevel ∨ newLevel = (s.maxLevel : Int) then (false, s)
  else if newLevel < (s.maxLevel : Int) then
    (true, { s with next := s.next.take newLevel.toNat,
                    prevNodesCache := s.prevNodesCache.take newLevel.toNat,
                    probTable := probabilityTable s.probability newLevel.toNat,
                    maxLevel := newLevel.toNat })
  else
    (true, { s with next := copyResize s.next newLevel.toNat,
                    prevNodesCache := List.replicate newLevel.toNat none,
                    probTable := probabilityTable s.probability newLevel.toNat,
                    maxLevel := newLevel.toNat })

/-- `SetProbability(newProbability)` (skiplist.go): unconditionally stores
the new probability and regenerates the table; there is no validation and
no failure result. -/
def SkipList.setProbability (s : SkipList K V) (newProbability : ℚ) : SkipList K V :=
  { s with probability := newProbability,
           probTable := probabilityTable newProbability s.maxLevel }

/-! ## Checked variants

The `..Chk` functions perform exactly the same computation, but every slice
index (`head.next[i]`, `element.next[i]`, `prevs[i]`) is checked, and the
whole operation returns `none` as soon as one is out of bounds — the point
where the Go code would panic.  (They also return `none` on a dangling node
id, which models nothing in Go — pointers are always valid — and never
occurs under the structural invariant.) -/

/-- Checked `p.next[i]` read. -/
def SkipList.nextAtChk (s : SkipList K V) (p : Option Nat) (i : Nat) :
    Option (Option Nat) :=
  match p with
  | none => s.next[i]?
  | some id => (s.nodes[id]?).bind (fun nd => nd.next[i]?)

/-- Checked `p.next[i] = v` write. -/
def SkipList.writeNextChk (s : SkipList K V) (p : Option Nat) (i : Nat) (v : Option Nat) :
    Option (SkipList K V) :=
  match p with
  | none =>
    if i < s.next.length then some { s with next := s.next.set i v } else none
  | some id =>
    match s.nodes[id]? with
    | none => none
    | some nd =>
      if i < nd.next.length then
        some { s with nodes := s.nodes.set id { nd with next := nd.next.set i v } }
      else none

/-- Checked inner walk. -/
def SkipList.walkLevelChk (s : SkipList K V) (key : K) (i : Nat) :
    Option Nat → Nat → Option (Option Nat)
  | p, 0 => some p
  | p, fuel+1 =>
    match s.nextAtChk p i with
    | none => none
    | some none => some p
    | some (some nid) =>
      match s.keyAt? nid with
      | none => none
      | some kn => if kn < key then s.walkLevelChk key i (some nid) fuel else some p

/-- Checked descent of `Get`. -/
def SkipList.descendChk (s : SkipList K V) (key : K) :
    Option Nat → Nat → Option (Option Nat)
  | p, 0 => some p
  | p, c+1 =>
    match s.walkLevelChk key c p (s.nodes.length + 1) with
    | none => none
    | some q => s.descendChk key q c

/-- Checked `Get`. -/
def SkipList.getChk (s : SkipList K V) (key : K) : Option (Option Nat) :=
  if s.maxLevel = 0 then some none
  else
    match s.descendChk key none s.maxLevel with
    | none => none
    | some p =>
      match s.nextAtChk p 0 with
      | none => none
      | some none => some none
      | some (some nid) =>
        match s.keyAt? nid with
        | none => none
        | some kn => some (if kn ≤ key then some nid else none)

/-- Checked `getPrevElementNodes` loop (also checks the cache write index). -/
def SkipList.gpenChk (s : SkipList K V) (key : K) :
    Option Nat → Nat → List (Option Nat) → Option (List (Option Nat))
  | _, 0, cache => some cache
  | p, c+1, cache =>
    match s.walkLevelChk key c p (s.nodes.length + 1) with
    | none => none
    | some q =>
      if c < cache.length then s.gpenChk key q c (cache.set c q) else none

/-- Checked splice loop of `Set`. -/
def spliceChk (nid : Nat) (prevs : List (Option Nat)) :
    SkipList K V → Nat → Nat → Option (SkipList K V)
  | s, _, 0 => some s
  | s, i, rem+1 =>
    match prevs[i]? with
    | none => none
    | some p =>
      match s.nextAtChk p i with
      | none => none
      | some v =>
        match s.writeNextChk (some nid) i v with
        | none => none
        | some s1 =>
          match s1.writeNextChk p i (some nid) with
          | none => none
          | some s2 => spliceChk nid prevs s2 (i+1) rem

/-- Checked insert path of `Set`. -/
def SkipList.insertChk (s : SkipList K V) (key : K) (value : V) (lvl : Nat)
    (prevs : List (Option Nat)) : Option (Nat × SkipList K V) :=
  let nid := s.nodes.length
  let s1 : SkipList K V := { s with nodes := s.nodes ++ [⟨List.replicate lvl none, key, value⟩] }
  match spliceChk nid prevs s1 0 lvl with
  | none => none
  | some s2 => some (nid, { s2 with length := s2.length + 1 })

/-- Checked `Set`. -/
def SkipList.setChk (s0 : SkipList K V) (key : K) (value : V) (lvl : Nat) :
    Option (Nat × SkipList K V) :=
  match s0.gpenChk key none s0.maxLevel s0.prevNodesCache with
  | none => none
  | some prevs =>
    let s : SkipList K V := { s0 with prevNodesCache := prevs }
    match prevs[0]? with
    | none => none
    | some p0 =>
      match s.nextAtChk p0 0 with
      | none => none
      | some none => s.insertChk key value lvl prevs
      | some (some nid) =>
        match s.nodes[nid]? with
        | none => none
        | some nd =>
          if nd.key ≤ key then
            some (nid, { s with nodes := s.nodes.set nid { nd with value := value } })
          else s.insertChk key value lvl prevs

/-- Checked unlink loop of `Remove`. -/
def unlinkChk (prevs : List (Option Nat)) :
    SkipList K V → Nat → List (Option Nat) → Option (SkipList K V)
  | s, _, [] => some s
  | s, k, v :: vs =>
    match prevs[k]? with
    | none => none
    | some p =>
      match s.writeNextChk p k v with
      | none => none
      | some s1 => unlinkChk prevs s1 (k+1) vs

/-- Checked `Remove`. -/
def SkipList.removeChk (s0 : SkipList K V) (key : K) :
    Option (Option Nat × SkipList K V) :=
  match s0.gpenChk key none s0.maxLevel s0.prevNodesCache with
  | none => none
  | some prevs =>
    let s : SkipList K V := { s0 with prevNodesCache := prevs }
    match prevs[0]? with
    | none => none
    | some p0 =>
      match s.nextAtChk p0 0 with
      | none => none
      | some none => some (none, s)
      | some (some nid) =>
        match s.nodes[nid]? with
        | none => none
        | some nd =>
          if nd.key ≤ key then
            match unlinkChk prevs s 0 nd.next with
            | none => none
            | some s2 => some (some nid, { s2 with length := s2.length - 1 })
          else some (none, s)

/-! ## Chains and the structural invariant -/

/-- `Seg s i p l q`: starting at position `p`, following `next[·][i]` links
passes exactly through the elements of `l` (with their keys) and ends at
position `q` (whose own level-`i` link is not constrained). -/
inductive Seg (s : SkipList K V) (i : Nat) : Option Nat → List (Nat × K) → Option Nat → Prop
  | nil (p : Option Nat) : Seg s i p [] p
  | cons {p : Option Nat} {nid : Nat} {k : K} {l : List (Nat × K)} {q : Option Nat} :
      s.nextAt p i = some nid → s.keyAt? nid = some k →
      Seg s i (some nid) l q → Seg s i p ((nid, k) :: l) q

/-- `Lseg s i p l`: the complete level-`i` chain from position `p` is `l`
(it reaches a `nil` link after `l`). -/
def Lseg (s : SkipList K V) (i : Nat) (p : Option Nat) (l : List (Nat × K)) : Prop :=
  ∃ q, Seg s i p l q ∧ s.nextAt q i = none

/-- The last element of `l` with key strictly below `key`, as a position
(`none` = no such element, i.e. the head). -/
def lastLt (key : K) (l : List (Nat × K)) : Option Nat :=
  ((l.filter (fun e => decide (e.2 < key))).getLast?).map Prod.fst

/-- The keys of a chain, in chain order. -/
def chainKeys (l : List (Nat × K)) : List K := l.map Prod.snd

/-- Where the inner walk starting at `p` over the chain `l` ends up:
at the last element of `l` with key `< key`, or at `p` when there is none. -/
def walkEnd (key : K) (p : Option Nat) (l : List (Nat × K)) : Option Nat :=
  match lastLt key l with
  | none => p
  | some m => some m

/-- The prefix of a chain with keys strictly below `key`. -/
def ltPart (key : K) (l : List (Nat × K)) : List (Nat × K) :=
  l.takeWhile (fun e => decide (e.2 < key))

/-- The rest of a chain after `ltPart`: for a sorted chain, the elements
with keys `≥ key`. -/
def gePart (key : K) (l : List (Nat × K)) : List (Nat × K) :=
  l.dropWhile (fun e => decide (e.2 < key))

/-- The pointer to the first element of a chain (`none` = empty chain). -/
def headPtr (l : List (Nat × K)) : Option Nat := (l.head?).map Prod.fst

/-- The level-`i` chain after splicing a fresh node `(nid, key)` into the
sorted chain `l`: between the `< key` prefix and the `≥ key` suffix. -/
def splicedChain (key : K) (nid : Nat) (l : List (Nat × K)) : List (Nat × K) :=
  ltPart key l ++ (nid, key) :: gePart key l

/-- The level-`i` chain after unlinking the (unique, first `≥ key`) node
with key `key` from the sorted chain `l`. -/
def removedChain (key : K) (l : List (Nat × K)) : List (Nat × K) :=
  ltPart key l ++ (gePart key l).tail

/-- The structural invariant of a skip list state.  `Lseg`-quantified
fields hold for the (unique) chain of each level. -/
structure Inv (s : SkipList K V) : Prop where
  max_pos : 1 ≤ s.maxLevel
  head_len : s.next.length = s.maxLevel
  cache_len : s.prevNodesCache.length = s.maxLevel
  height_le : ∀ nd ∈ s.nodes, nd.next.length ≤ s.maxLevel
  chain_ex : ∀ i, ∃ l, Lseg s i none l
  chain_sorted : ∀ i l, Lseg s i none l → (chainKeys l).Sorted (· < ·)
  mem_height : ∀ i l, Lseg s i none l → ∀ e ∈ l, i < s.heightAt e.1
  mem_zero : ∀ i l, Lseg s i none l → ∀ e ∈ l, ∀ l0, Lseg s 0 none l0 → e ∈ l0
  full_height : ∀ l0, Lseg s 0 none l0 → ∀ e ∈ l0, ∀ i, i < s.heightAt e.1 →
    i < s.maxLevel → ∀ l, Lseg s i none l → e ∈ l
  len_eq : ∀ l0, Lseg s 0 none l0 → s.length = l0.length

/-- The structural invariant exactly as the specification states it: at
every level the chain from the head terminates and its keys strictly
increase (hence no duplicate keys at any level), and the level-0 chain
visits exactly `length` nodes, in ascending key order, with `length` the
number of distinct keys present. -/
def StructuralInv (s : SkipList K V) : Prop :=
  (∀ i, ∃ l, Lseg s i none l ∧ (chainKeys l).Sorted (· < ·) ∧ (chainKeys l).Nodup) ∧
  (∃ l0, Lseg s 0 none l0 ∧ (chainKeys l0).Sorted (· < ·) ∧
    (chainKeys l0).Nodup ∧ s.length = l0.length)

/-- Bookkeeping relation between a reference state and the current state of
a mutation loop: everything except the placement of `next` links agrees. -/
structure LoopCtx (s₁ scur : SkipList K V) : Prop where
  key_eq : ∀ id, scur.keyAt? id = s₁.keyAt? id
  val_eq : ∀ id, scur.valueAt? id = s₁.valueAt? id
  height_eq : ∀ id, scur.heightAt id = s₁.heightAt id
  nodes_len : scur.nodes.length = s₁.nodes.length
  next_len : scur.next.length = s₁.next.length
  len_eq : scur.length = s₁.length
  cache_eq : scur.prevNodesCache = s₁.prevNodesCache
  max_eq : scur.maxLevel = s₁.maxLevel
  prob_eq : scur.probability = s₁.probability
  ptab_eq : scur.probTable = s₁.probTable

/-! ## Operation sequences (for the all-runs invariant claim) -/

/-- One mutating call: `Set` (with the height `randLevel` drew) or `Remove`. -/
inductive SLOp (K V : Type) where
  | set (key : K) (value : V) (lvl : Nat)
  | remove (key : K)

/-- Apply one call to a state. -/
def applyOp (s : SkipList K V) : SLOp K V → SkipList K V
  | .set k v lvl => (s.set k v lvl).2
  | .remove k => (s.remove k).2

/-- Run a sequence of calls. -/
def runOps (s : SkipList K V) : List (SLOp K V) → SkipList K V
  | [] => s
  | op :: ops => runOps (applyOp s op) ops

/-- The height recorded for a `Set` call is one `randLevel` could have
produced: `1 ≤ lvl ≤ maxLevel`. -/
def opValid (maxLevel : Nat) : SLOp K V → Bool
  | .set _ _ lvl => decide (1 ≤ lvl ∧ lvl ≤ maxLevel)
  | .remove _ => true

/-- The position `p` can be read/written at level `i` without an
out-of-bounds index: the precise in-bounds condition of `p.next[i]`. -/
def SkipList.writable (s : SkipList K V) (p : Option Nat) (i : Nat) : Prop :=
  match p with
  | none => i < s.next.length
  | some id => i < s.heightAt id

/-- The precondition exactly as the memory-safety claim states it: head
forward array and `prevNodesCache` of length `maxLevel`, and every
element's height at most `maxLevel`. -/
def BoundsPre (s : SkipList K V) : Prop :=
  s.next.length = s.maxLevel ∧ s.prevNodesCache.length = s.maxLevel ∧
  ∀ nd ∈ s.nodes, nd.next.length ≤ s.maxLevel

/-- A state satisfying `BoundsPre` whose level-1 head pointer reaches a
node of height 1: `Get`'s inner walk then reads `node.next[1]` out of
bounds. -/
def badBounds : SkipList Int Int where
  next := [some 0, some 0]
  maxLevel := 2
  length := 1
  probability := 1 / 2
  probTable := [1, 1 / 2]
  prevNodesCache := [none, none]
  nodes := [⟨[none], 5, 0⟩]

/-- `SetProbability` as the specification describes it: probabilities
outside the open interval `(0,1)` are rejected with an explicit failure
(`none` = InvalidArgument). -/
def setProbabilitySpec (s : SkipList K V) (newProbability : ℚ) :
    Option (SkipList K V) :=
  if 0 < newProbability ∧ newProbability < 1 then
    some { s with probability := newProbability,
                  probTable := probabilityTable newProbability s.maxLevel }
  else none

/-! ## Basic chain lemmas -/

theorem Seg.append_seg {s : SkipList K V} {i : Nat} {p q r : Option Nat}
    {l₁ l₂ : List (Nat × K)} (h₁ : Seg s i p l₁ q) (h₂ : Seg s i q l₂ r) :
    Seg s i p (l₁ ++ l₂) r := by
  induction h₁ with
  | nil _ => simpa using h₂
  | cons hn hk _ ih => exact Seg.cons hn hk (ih h₂)

theorem Seg.append_split {s : SkipList K V} {i : Nat} {p r : Option Nat}
    {l₁ l₂ : List (Nat × K)} (h : Seg s i p (l₁ ++ l₂) r) :
    ∃ q, Seg s i p l₁ q ∧ Seg s i q l₂ r := by
  induction l₁ generalizing p with
  | nil => exact ⟨p, Seg.nil p, by simpa using h⟩
  | cons e l₁ ih =>
    obtain ⟨nid, k⟩ := e
    cases h with
    | cons hn hk ht =>
      obtain ⟨q, hq1, hq2⟩ := ih ht
      exact ⟨q, Seg.cons hn hk hq1, hq2⟩

theorem Seg.endpoint {s : SkipList K V} {i : Nat} {p q : Option Nat} {l : List (Nat × K)}
    (h : Seg s i p l q) :
    q = match l.getLast? with | none => p | some e => some e.1 := by
  induction h with
  | nil _ => simp
  | cons hn hk ht ih =>
    rename_i p' nid k l' q'
    cases l' with
    | nil => cases ht; simp
    | cons e2 t2 => simpa [List.getLast?_cons_cons] using ih

theorem Seg.det {s : SkipList K V} {i : Nat} {p q q' : Option Nat} {l l' : List (Nat × K)}
    (hs : Seg s i p l q) (hq : s.nextAt q i = none)
    (hs' : Seg s i p l' q') (hq' : s.nextAt q' i = none) : l = l' := by
  induction hs generalizing l' q' with
  | nil pp =>
    cases hs' with
    | nil => rfl
    | cons hn hk ht => rw [hq] at hn; cases hn
  | cons hn hk ht ih =>
    cases hs' with
    | nil => rw [hq'] at hn; cases hn
    | cons hn' hk' ht' =>
      rename_i nid k l₀ nid' k' l₀'
      rw [hn] at hn'
      cases hn'
      rw [hk] at hk'
      cases hk'
      exact congrArg _ (ih hq ht' hq')

theorem lseg_unique {s : SkipList K V} {i : Nat} {p : Option Nat} {l l' : List (Nat × K)}
    (h : Lseg s i p l) (h' : Lseg s i p l') : l = l' := by
  obtain ⟨q, hs, hq⟩ := h
  obtain ⟨q', hs', hq'⟩ := h'
  exact hs.det hq hs' hq'

theorem Seg.keyAt_mem {s : SkipList K V} {i : Nat} {p q : Option Nat}
    {l : List (Nat × K)} (h : Seg s i p l q) : ∀ e ∈ l, s.keyAt? e.1 = some e.2 := by
  induction h with
  | nil _ => simp
  | cons hn hk ht ih =>
    intro e he
    rcases List.mem_cons.mp he with h1 | h2
    · subst h1; exact hk
    · exact ih e h2

theorem Lseg.keyAt_of_mem {s : SkipList K V} {i : Nat} {p : Option Nat}
    {l : List (Nat × K)} (h : Lseg s i p l) : ∀ e ∈ l, s.keyAt? e.1 = some e.2 := by
  obtain ⟨q, hs, _⟩ := h
  exact hs.keyAt_mem

theorem SkipList.lt_length_of_keyAt? {s : SkipList K V} {id : Nat} {k : K}
    (h : s.keyAt? id = some k) : id < s.nodes.length := by
  by_contra hlt
  rw [SkipList.keyAt?, List.getElem?_eq_none (le_of_not_lt hlt)] at h
  cases h

/-- Keys determine chain entries: within one segment, entries with the same
id have the same key. -/
theorem Seg.nodup_fst {s : SkipList K V} {i : Nat} {p q : Option Nat}
    {l : List (Nat × K)} (h : Seg s i p l q)
    (hsorted : (chainKeys l).Sorted (· < ·)) : (l.map Prod.fst).Nodup := by
  induction h with
  | nil _ => simp
  | cons hn hk ht ih =>
    rename_i p' nid k l' q'
    rw [List.map_cons, List.nodup_cons]
    have hsorted' : (chainKeys l').Sorted (· < ·) := by
      simpa [chainKeys] using hsorted.of_cons
    refine ⟨?_, ih hsorted'⟩
    intro hmem
    obtain ⟨e, he, hid⟩ := List.mem_map.mp hmem
    have hke : s.keyAt? e.1 = some e.2 := ht.keyAt_mem e he
    rw [hid, hk] at hke
    have : k < e.2 := by
      have := (List.pairwise_cons.mp hsorted).1
      exact this e.2 (List.mem_map.mpr ⟨e, he, rfl⟩)
    rw [Option.some_inj.mp hke] at this
    exact lt_irrefl _ this

theorem Seg.length_le_nodes {s : SkipList K V} {i : Nat} {p q : Option Nat}
    {l : List (Nat × K)} (h : Seg s i p l q)
    (hsorted : (chainKeys l).Sorted (· < ·)) : l.length ≤ s.nodes.length := by
  have hnd := h.nodup_fst hsorted
  have hsub : (l.map Prod.fst) ⊆ List.range s.nodes.length := by
    intro x hx
    obtain ⟨e, he, rfl⟩ := List.mem_map.mp hx
    exact List.mem_range.mpr (SkipList.lt_length_of_keyAt? (h.keyAt_mem e he))
  have := (hnd.subperm hsub).length_le
  simpa using this

theorem Lseg.split_at_mem {s : SkipList K V} {i : Nat} {p : Option Nat}
    {l : List (Nat × K)} (h : Lseg s i p l) {e : Nat × K} (he : e ∈ l) :
    ∃ l₁ l₂ q₁, l = l₁ ++ e :: l₂ ∧ Seg s i p l₁ q₁ ∧
      s.nextAt q₁ i = some e.1 ∧ Lseg s i (some e.1) l₂ := by
  obtain ⟨l₁, l₂, rfl⟩ := List.append_of_mem he
  obtain ⟨q, hs, hq⟩ := h
  obtain ⟨q₁, hq1, hq2⟩ := hs.append_split
  obtain ⟨nid, k⟩ := e
  cases hq2 with
  | cons hn hk ht => exact ⟨l₁, l₂, q₁, rfl, hq1, hn, q, ht, hq⟩

/-- A segment is unaffected by a state change that preserves the level-`i`
links at its start and at all its elements but the last, and the keys of
its elements. -/
theorem Seg.congr {s s' : SkipList K V} {i : Nat} {l : List (Nat × K)} :
    ∀ {p q : Option Nat}, Seg s i p l q →
    (∀ r, r = p ∨ (∃ e ∈ l.dropLast, r = some e.1) → s'.nextAt r i = s.nextAt r i) →
    (∀ e ∈ l, s'.keyAt? e.1 = s.keyAt? e.1) →
    Seg s' i p l q := by
  induction l with
  | nil =>
    intro p q h _ _
    cases h
    exact Seg.nil _
  | cons e tail ih =>
    intro p q h hnext hkey
    obtain ⟨nid, k⟩ := e
    cases h with
    | cons hn hk ht =>
      have hn' : s'.nextAt p i = some nid := by rw [hnext p (Or.inl rfl)]; exact hn
      have hk' : s'.keyAt? nid = some k := by
        rw [hkey (nid, k) (List.mem_cons_self _ _)]; exact hk
      cases tail with
      | nil =>
        cases ht
        exact Seg.cons hn' hk' (Seg.nil _)
      | cons e2 t2 =>
        refine Seg.cons hn' hk' (ih ht ?_ ?_)
        · intro r hr
          apply hnext
          rcases hr with rfl | ⟨e', he', rfl⟩
          · exact Or.inr ⟨(nid, k), by simp, rfl⟩
          · exact Or.inr ⟨e', by simp [List.dropLast_cons₂] at he' ⊢; tauto, rfl⟩
        · intro e' he'
          exact hkey e' (List.mem_cons_of_mem _ he')

/-- A whole level is unaffected by a state change that does not touch its
links or keys. -/
theorem Lseg.of_untouched {s s' : SkipList K V} {i : Nat} {p : Option Nat}
    {l : List (Nat × K)} (h : Lseg s i p l)
    (hnext : ∀ r, s'.nextAt r i = s.nextAt r i)
    (hkey : ∀ id, s'.keyAt? id = s.keyAt? id) : Lseg s' i p l := by
  obtain ⟨q, hs, hq⟩ := h
  exact ⟨q, hs.congr (fun r _ => hnext r) (fun e _ => hkey e.1), by rw [hnext q]; exact hq⟩

/-! ## Sorted-chain decomposition and walk correctness -/

theorem chainKeys_cons {e : Nat × K} {t : List (Nat × K)} :
    chainKeys (e :: t) = e.2 :: chainKeys t := rfl

theorem chainKeys_append {l₁ l₂ : List (Nat × K)} :
    chainKeys (l₁ ++ l₂) = chainKeys l₁ ++ chainKeys l₂ := by
  simp [chainKeys]

theorem sorted_chain_append {l₁ l₂ : List (Nat × K)} :
    (chainKeys (l₁ ++ l₂)).Sorted (· < ·) ↔
      (chainKeys l₁).Sorted (· < ·) ∧ (chainKeys l₂).Sorted (· < ·) ∧
      ∀ a ∈ l₁, ∀ b ∈ l₂, a.2 < b.2 := by
  rw [chainKeys_append]
  constructor
  · intro h
    obtain ⟨h1, h2, h3⟩ := List.pairwise_append.mp h
    refine ⟨h1, h2, fun a ha b hb => ?_⟩
    exact h3 a.2 (List.mem_map_of_mem _ ha) b.2 (List.mem_map_of_mem _ hb)
  · intro ⟨h1, h2, h3⟩
    refine List.pairwise_append.mpr ⟨h1, h2, fun x hx y hy => ?_⟩
    obtain ⟨a, ha, rfl⟩ := List.mem_map.mp hx
    obtain ⟨b, hb, rfl⟩ := List.mem_map.mp hy
    exact h3 a ha b hb

theorem sorted_chain_cons {e : Nat × K} {t : List (Nat × K)} :
    (chainKeys (e :: t)).Sorted (· < ·) ↔
      (∀ b ∈ t, e.2 < b.2) ∧ (chainKeys t).Sorted (· < ·) := by
  rw [chainKeys_cons, List.sorted_cons]
  constructor
  · intro ⟨h1, h2⟩
    exact ⟨fun b hb => h1 b.2 (List.mem_map_of_mem _ hb), h2⟩
  · intro ⟨h1, h2⟩
    refine ⟨fun x hx => ?_, h2⟩
    obtain ⟨b, hb, rfl⟩ := List.mem_map.mp hx
    exact h1 b hb

/-- On a sorted chain, filtering for keys `< key` is the same as taking the
initial `< key` prefix. -/
theorem filter_lt_eq_ltPart (key : K) :
    ∀ {l : List (Nat × K)}, (chainKeys l).Sorted (· < ·) →
      l.filter (fun e => decide (e.2 < key)) = ltPart key l := by
  intro l
  induction l with
  | nil => intro _; simp [ltPart]
  | cons e t ih =>
    intro hs
    obtain ⟨hhead, htail⟩ := sorted_chain_cons.mp hs
    by_cases hlt : e.2 < key
    · simp only [ltPart, List.filter_cons, List.takeWhile_cons, decide_eq_true hlt]
      simpa [ltPart] using ih htail
    · have hnone : ∀ x ∈ t, ¬ (x.2 < key) := by
        intro x hx hxk
        exact hlt (lt_trans (hhead x hx) hxk)
      simp only [ltPart, List.filter_cons, List.takeWhile_cons, decide_eq_false hlt]
      simp only [Bool.false_eq_true, if_false, cond_false]
      exact List.filter_eq_nil_iff.mpr (fun x hx => by simpa using hnone x hx)

theorem lastLt_eq_ltPart_getLast (key : K) {l : List (Nat × K)}
    (hs : (chainKeys l).Sorted (· < ·)) :
    lastLt key l = ((ltPart key l).getLast?).map Prod.fst := by
  rw [lastLt, filter_lt_eq_ltPart key hs]

theorem walkEnd_nil (key : K) (p : Option Nat) : walkEnd key p [] = p := by
  simp [walkEnd, lastLt]

theorem walkEnd_cons_lt {key : K} (p : Option Nat) {nid : Nat} {k : K}
    {t : List (Nat × K)} (hlt : k < key) :
    walkEnd key p ((nid, k) :: t) = walkEnd key (some nid) t := by
  unfold walkEnd lastLt
  rw [show ((nid, k) :: t) = [(nid, k)] ++ t by simp, List.filter_append]
  simp only [List.filter_cons, List.filter_nil, decide_eq_true hlt, List.getLast?_append]
  cases h : (t.filter fun e => decide (e.2 < key)).getLast? with
  | none => simp [h]
  | some m => simp [h]

theorem walkEnd_cons_ge {key : K} (p : Option Nat) {nid : Nat} {k : K}
    {t : List (Nat × K)} (hge : ¬ k < key)
    (hs : (chainKeys ((nid, k) :: t)).Sorted (· < ·)) :
    walkEnd key p ((nid, k) :: t) = p := by
  obtain ⟨hhead, _⟩ := sorted_chain_cons.mp hs
  have hfil : ((nid, k) :: t).filter (fun e => decide (e.2 < key)) = [] := by
    refine List.filter_eq_nil_iff.mpr ?_
    intro x hx
    rcases List.mem_cons.mp hx with rfl | hxt
    · simpa using hge
    · have : k < x.2 := hhead x hxt
      simp only [decide_eq_true_eq]
      intro hxk
      exact hge (lt_trans this hxk)
  unfold walkEnd lastLt
  rw [hfil]
  rfl

/-- Correctness of the inner walk: with enough fuel, starting at `p` over
the sorted chain `l`, the walk ends at the last element with key `< key`
(or stays at `p`). -/
theorem walkLevel_spec {s : SkipList K V} (key : K) (i : Nat) :
    ∀ {l : List (Nat × K)} {p : Option Nat} {fuel : Nat},
      Lseg s i p l → (chainKeys l).Sorted (· < ·) → l.length < fuel →
      s.walkLevel key i p fuel = walkEnd key p l := by
  intro l
  induction l with
  | nil =>
    intro p fuel h _ hfuel
    obtain ⟨q, hs, hq⟩ := h
    cases hs
    cases fuel with
    | zero => omega
    | succ f => simp [SkipList.walkLevel, hq, walkEnd_nil]
  | cons e t ih =>
    intro p fuel h hsorted hfuel
    obtain ⟨q, hs, hq⟩ := h
    obtain ⟨nid, k⟩ := e
    cases hs with
    | cons hn hk ht =>
      cases fuel with
      | zero => omega
      | succ f =>
        have hts : (chainKeys t).Sorted (· < ·) := (sorted_chain_cons.mp hsorted).2
        by_cases hlt : k < key
        · have hrec := ih ⟨q, ht, hq⟩ hts (by simpa using Nat.lt_of_succ_lt_succ hfuel)
          simp only [SkipList.walkLevel, hn, hk]
          rw [if_pos hlt, hrec, walkEnd_cons_lt p hlt]
        · simp only [SkipList.walkLevel, hn, hk]
          rw [if_neg hlt, walkEnd_cons_ge p hlt hsorted]

/-- Decomposition of a full sorted level chain around a target key:
the walk target `lastLt` is the endpoint of the `< key` prefix, the
rest of the chain hangs off it, and its immediate successor is the first
`≥ key` element. -/
theorem Lseg.decompose {s : SkipList K V} {i : Nat} (key : K) {l : List (Nat × K)}
    (h : Lseg s i none l) (hsorted : (chainKeys l).Sorted (· < ·)) :
    Seg s i none (ltPart key l) (lastLt key l) ∧
    Lseg s i (lastLt key l) (gePart key l) ∧
    s.nextAt (lastLt key l) i = headPtr (gePart key l) := by
  obtain ⟨q, hs, hq⟩ := h
  have hsplit : ltPart key l ++ gePart key l = l := List.takeWhile_append_dropWhile ..
  rw [← hsplit] at hs
  obtain ⟨q₁, hq1, hq2⟩ := hs.append_split
  have hend : q₁ = lastLt key l := by
    have := hq1.endpoint
    rw [lastLt_eq_ltPart_getLast key hsorted]
    rw [this]
    cases hgl : (ltPart key l).getLast? <;> simp
  subst hend
  refine ⟨hq1, ⟨q, hq2, hq⟩, ?_⟩
  cases hge : gePart key l with
  | nil =>
    rw [hge] at hq2
    cases hq2
    simp [headPtr, hge, hq]
  | cons e t =>
    rw [hge] at hq2
    obtain ⟨nid, k⟩ := e
    cases hq2 with
    | cons hn hk ht => simp [headPtr, hge, hn]

theorem mem_ltPart_lt {key : K} {l : List (Nat × K)} {e : Nat × K}
    (he : e ∈ ltPart key l) : e.2 < key := by
  have := List.mem_takeWhile_imp he
  simpa using this

theorem gePart_head_ge {key : K} {l : List (Nat × K)} {e : Nat × K} {t : List (Nat × K)}
    (h : gePart key l = e :: t) : key ≤ e.2 := by
  have := List.head?_dropWhile_not (fun e : Nat × K => decide (e.2 < key)) l
  rw [gePart] at h
  rw [h] at this
  simpa using this

/-! ## Descent correctness -/

theorem walkEnd_none (key : K) (l : List (Nat × K)) : walkEnd key none l = lastLt key l := by
  unfold walkEnd
  cases h : lastLt key l <;> simp

theorem lastLt_cases (key : K) (l : List (Nat × K)) :
    lastLt key l = none ∨ ∃ e ∈ l, lastLt key l = some e.1 ∧ e.2 < key := by
  unfold lastLt
  cases h : (l.filter fun e => decide (e.2 < key)).getLast? with
  | none => exact Or.inl rfl
  | some e =>
    have he := List.mem_of_getLast?_eq_some h
    rw [List.mem_filter] at he
    exact Or.inr ⟨e, he.1, by simp [h], by simpa using he.2⟩

/-- One level of the descent: starting from the head or from any chain
element with key `< key`, the walk with fuel `nodes.length + 1` lands on
the last level-`i` element with key `< key`. -/
theorem walk_step {s : SkipList K V} (hInv : Inv s) (key : K) {i : Nat}
    {li : List (Nat × K)} (hLi : Lseg s i none li) {p : Option Nat}
    (hp : p = none ∨ ∃ e ∈ li, p = some e.1 ∧ e.2 < key) :
    s.walkLevel key i p (s.nodes.length + 1) = lastLt key li := by
  have hsorted := hInv.chain_sorted i li hLi
  rcases hp with rfl | ⟨e, he, rfl, hek⟩
  · have hlen : li.length < s.nodes.length + 1 := by
      obtain ⟨q, hs, _⟩ := hLi
      exact Nat.lt_succ_of_le (hs.length_le_nodes hsorted)
    rw [walkLevel_spec key i hLi hsorted hlen, walkEnd_none]
  · obtain ⟨l₁, l₂, q₁, rfl, hseg1, hn1, hl2⟩ := hLi.split_at_mem he
    have hs2 : (chainKeys l₂).Sorted (· < ·) := by
      have := (sorted_chain_append.mp hsorted).2.1
      exact (sorted_chain_cons.mp this).2
    have hlen2 : l₂.length < s.nodes.length + 1 := by
      obtain ⟨q, hs, _⟩ := hl2
      exact Nat.lt_succ_of_le (hs.length_le_nodes hs2)
    rw [walkLevel_spec key i hl2 hs2 hlen2]
    -- walkEnd key (some e.1) l₂ = lastLt key (l₁ ++ e :: l₂)
    have hl₁lt : ∀ x ∈ l₁, x.2 < key := by
      intro x hx
      have hx2 : x.2 < e.2 := (sorted_chain_append.mp hsorted).2.2 x hx e (by simp)
      exact lt_trans hx2 hek
    have hfil : (l₁ ++ e :: l₂).filter (fun x => decide (x.2 < key)) =
        l₁ ++ e :: l₂.filter (fun x => decide (x.2 < key)) := by
      rw [List.filter_append, List.filter_cons]
      simp only [decide_eq_true hek]
      rw [List.filter_eq_self.mpr (fun x hx => decide_eq_true (hl₁lt x hx))]
      rfl
    unfold walkEnd lastLt
    rw [hfil]
    rw [show l₁ ++ e :: l₂.filter (fun x => decide (x.2 < key)) =
        l₁ ++ ([e] ++ l₂.filter (fun x => decide (x.2 < key))) by simp]
    rw [List.getLast?_append, List.getLast?_append]
    cases h2 : (l₂.filter fun x => decide (x.2 < key)).getLast? with
    | none => simp [h2]
    | some m => simp [h2]

/-- Correctness of the `getPrevElementNodes` level loop: processing levels
`c-1, …, 0` from a start position that is valid for level `c-1`, every
processed entry of the cache is set to that level's `lastLt`, and the
entries above are untouched. -/
theorem gpenLoop_spec {s : SkipList K V} (hInv : Inv s) (key : K) :
    ∀ (c : Nat) (p : Option Nat) (cache : List (Option Nat)),
      c ≤ s.maxLevel → s.maxLevel ≤ cache.length →
      (∀ d, c = d + 1 → p = none ∨
        ∀ lc, Lseg s d none lc → ∃ e ∈ lc, p = some e.1 ∧ e.2 < key) →
      (s.gpenLoop key p c cache).length = cache.length ∧
      (∀ j, c ≤ j → (s.gpenLoop key p c cache)[j]? = cache[j]?) ∧
      (∀ i, i < c → ∀ li, Lseg s i none li →
        (s.gpenLoop key p c cache)[i]? = some (lastLt key li)) := by
  intro c
  induction c with
  | zero =>
    intro p cache _ _ _
    exact ⟨rfl, fun j _ => rfl, fun i hi => absurd hi (Nat.not_lt_zero _)⟩
  | succ c ih =>
    intro p cache hc hcl hp
    obtain ⟨lc, hlc⟩ := hInv.chain_ex c
    have hq : s.walkLevel key c p (s.nodes.length + 1) = lastLt key lc := by
      apply walk_step hInv key hlc
      rcases hp c rfl with rfl | h
      · exact Or.inl rfl
      · exact Or.inr (h lc hlc)
    have hq' : ∀ d, c = d + 1 → lastLt key lc = none ∨
        ∀ ld, Lseg s d none ld → ∃ e ∈ ld, lastLt key lc = some e.1 ∧ e.2 < key := by
      intro d hd
      rcases lastLt_cases key lc with h0 | ⟨e, he, heq, hek⟩
      · exact Or.inl h0
      · right
        intro ld hld
        obtain ⟨l0, hl0⟩ := hInv.chain_ex 0
        have he0 := hInv.mem_zero c lc hlc e he l0 hl0
        have hh : c < s.heightAt e.1 := hInv.mem_height c lc hlc e he
        have hmem : e ∈ ld :=
          hInv.full_height l0 hl0 e he0 d (by omega) (by omega) ld hld
        exact ⟨e, hmem, heq, hek⟩
    obtain ⟨ih1, ih2, ih3⟩ :=
      ih (lastLt key lc) (cache.set c (lastLt key lc)) (by omega) (by simp; omega) hq'
    simp only [SkipList.gpenLoop]
    rw [hq]
    refine ⟨by simp [ih1], ?_, ?_⟩
    · intro j hj
      rw [ih2 j (by omega), List.getElem?_set_ne (by omega)]
    · intro i hi li hli
      rcases Nat.lt_or_ge i c with h | h
      · exact ih3 i h li hli
      · have hieq : i = c := by omega
        subst hieq
        rw [ih2 i le_rfl, List.getElem?_set_self (by omega), lseg_unique hli hlc]

/-- The traversal result (claim of §4.3): for every level `i`, entry `i` of
the returned cache is the last level-`i` node with key strictly less than
the target, or the head when there is none. -/
theorem getPrevElementNodes_spec {s : SkipList K V} (hInv : Inv s) (key : K) :
    ((s.getPrevElementNodes key).1.length = s.maxLevel) ∧
    ∀ i, i < s.maxLevel → ∀ li, Lseg s i none li →
      ((s.getPrevElementNodes key).1)[i]? = some (lastLt key li) := by
  obtain ⟨h1, _, h3⟩ := gpenLoop_spec hInv key s.maxLevel none s.prevNodesCache
    le_rfl (le_of_eq hInv.cache_len.symm) (fun d _ => Or.inl rfl)
  constructor
  · rw [SkipList.getPrevElementNodes]
    simp only [h1]
    exact hInv.cache_len
  · intro i hi li hli
    exact h3 i hi li hli

/-- Correctness of `Get`'s descent: the final `prev` is the last level-0
element with key `< key`. -/
theorem descendLoop_spec {s : SkipList K V} (hInv : Inv s) (key : K) :
    ∀ (c : Nat) (p : Option Nat),
      1 ≤ c → c ≤ s.maxLevel →
      (∀ d, c = d + 1 → p = none ∨
        ∀ lc, Lseg s d none lc → ∃ e ∈ lc, p = some e.1 ∧ e.2 < key) →
      ∀ l0, Lseg s 0 none l0 → s.descendLoop key p c = lastLt key l0 := by
  intro c
  induction c with
  | zero => intro p h1; omega
  | succ c ih =>
    intro p _ hc hp l0 hl0
    obtain ⟨lc, hlc⟩ := hInv.chain_ex c
    have hq : s.walkLevel key c p (s.nodes.length + 1) = lastLt key lc := by
      apply walk_step hInv key hlc
      rcases hp c rfl with rfl | h
      · exact Or.inl rfl
      · exact Or.inr (h lc hlc)
    have hq' : ∀ d, c = d + 1 → lastLt key lc = none ∨
        ∀ ld, Lseg s d none ld → ∃ e ∈ ld, lastLt key lc = some e.1 ∧ e.2 < key := by
      intro d hd
      rcases lastLt_cases key lc with h0 | ⟨e, he, heq, hek⟩
      · exact Or.inl h0
      · right
        intro ld hld
        obtain ⟨l0', hl0'⟩ := hInv.chain_ex 0
        have he0 := hInv.mem_zero c lc hlc e he l0' hl0'
        have hh : c < s.heightAt e.1 := hInv.mem_height c lc hlc e he
        have hmem : e ∈ ld :=
          hInv.full_height l0' hl0' e he0 d (by omega) (by omega) ld hld
        exact ⟨e, hmem, heq, hek⟩
    simp only [SkipList.descendLoop]
    rw [hq]
    rcases Nat.eq_zero_or_pos c with h0 | hpos
    · subst h0
      simp only [SkipList.descendLoop]
      rw [lseg_unique hl0 hlc]
    · exact ih (lastLt key lc) hpos (by omega) hq' l0 hl0

/-! ## Functional specification of `Get` -/

theorem sorted_gePart {key : K} {l : List (Nat × K)}
    (hs : (chainKeys l).Sorted (· < ·)) : (chainKeys (gePart key l)).Sorted (· < ·) := by
  have hsplit : ltPart key l ++ gePart key l = l := List.takeWhile_append_dropWhile ..
  rw [← hsplit] at hs
  exact (sorted_chain_append.mp hs).2.1

theorem getCandidate_spec {s : SkipList K V} (hInv : Inv s) (key : K)
    {l0 : List (Nat × K)} (hl0 : Lseg s 0 none l0) :
    s.getCandidate key = headPtr (gePart key l0) := by
  have hml : s.maxLevel ≠ 0 := by have := hInv.max_pos; omega
  rw [SkipList.getCandidate, if_neg hml]
  rw [descendLoop_spec hInv key s.maxLevel none hInv.max_pos le_rfl
      (fun d _ => Or.inl rfl) l0 hl0]
  exact (hl0.decompose key (hInv.chain_sorted 0 l0 hl0)).2.2

/-- Functional correctness of `Get`: it returns exactly the level-0 chain
entry whose key equals the target, if any. -/
theorem get_spec {s : SkipList K V} (hInv : Inv s) (key : K)
    {l0 : List (Nat × K)} (hl0 : Lseg s 0 none l0) :
    s.get key = (l0.find? (fun e => decide (e.2 = key))).map Prod.fst := by
  have hsorted := hInv.chain_sorted 0 l0 hl0
  have hsplit : ltPart key l0 ++ gePart key l0 = l0 := List.takeWhile_append_dropWhile ..
  have hfindlt : (ltPart key l0).find? (fun e => decide (e.2 = key)) = none := by
    rw [List.find?_eq_none]
    intro x hx
    have := mem_ltPart_lt hx
    simp only [decide_eq_true_eq]
    exact fun hxe => absurd this (by rw [hxe]; exact lt_irrefl key)
  have hfind : l0.find? (fun e => decide (e.2 = key)) =
      (gePart key l0).find? (fun e => decide (e.2 = key)) := by
    conv_lhs => rw [← hsplit]
    rw [List.find?_append, hfindlt, Option.none_or]
  rw [SkipList.get, getCandidate_spec hInv key hl0]
  cases hge : gePart key l0 with
  | nil => simp [headPtr, hfind, hge]
  | cons e t =>
    obtain ⟨mid, mk⟩ := e
    have hmem : (mid, mk) ∈ l0 := by
      rw [← hsplit, hge]
      exact List.mem_append_right _ (List.mem_cons_self _ _)
    have hkeyAt : s.keyAt? mid = some mk := hl0.keyAt_of_mem _ hmem
    have hge' : key ≤ mk := gePart_head_ge hge
    simp only [headPtr, hge, List.head?_cons, Option.map_some', hkeyAt]
    by_cases heq : mk = key
    · subst heq
      rw [if_pos le_rfl, hfind, hge]
      rw [List.find?_cons_of_pos _ (by simp)]
      rfl
    · have hgt : key < mk := lt_of_le_of_ne hge' (fun h => heq h.symm)
      rw [if_neg (not_le_of_lt hgt), hfind, hge]
      have hsge : (chainKeys (gePart key l0)).Sorted (fun a b => a < b) := sorted_gePart hsorted
      rw [hge] at hsge
      obtain ⟨hhead, _⟩ := sorted_chain_cons.mp hsge
      rw [List.find?_eq_none.mpr ?_]
      · rfl
      · intro x hx
        simp only [decide_eq_true_eq]
        rcases List.mem_cons.mp hx with rfl | hxt
        · exact heq
        · intro hxe
          exact absurd (hhead x hxt) (by rw [hxe]; exact not_lt_of_le hge')

/-! ## State-update toolkit -/

theorem nextAt_set_cache {s : SkipList K V} {cache : List (Option Nat)}
    (p : Option Nat) (i : Nat) :
    SkipList.nextAt { s with prevNodesCache := cache } p i = s.nextAt p i := rfl

theorem keyAt_set_cache {s : SkipList K V} {cache : List (Option Nat)} (id : Nat) :
    SkipList.keyAt? ({ s with prevNodesCache := cache } : SkipList K V) id = s.keyAt? id := rfl

/-- Updating the traversal cache does not disturb the invariant, provided
the new cache has the right length. -/
theorem Inv.set_cache {s : SkipList K V} (hInv : Inv s) {cache : List (Option Nat)}
    (hlen : cache.length = s.maxLevel) :
    Inv ({ s with prevNodesCache := cache } : SkipList K V) := by
  have htr : ∀ i p l, Lseg s i p l →
      Lseg ({ s with prevNodesCache := cache } : SkipList K V) i p l := by
    intro i p l h
    exact h.of_untouched (fun r => rfl) (fun id => rfl)
  have htr' : ∀ i p l, Lseg ({ s with prevNodesCache := cache } : SkipList K V) i p l →
      Lseg s i p l := by
    intro i p l h
    exact h.of_untouched (fun r => rfl) (fun id => rfl)
  refine ⟨hInv.max_pos, hInv.head_len, hlen, hInv.height_le, ?_, ?_, ?_, ?_, ?_, ?_⟩
  · intro i
    obtain ⟨l, hl⟩ := hInv.chain_ex i
    exact ⟨l, htr i none l hl⟩
  · intro i l h
    exact hInv.chain_sorted i l (htr' i none l h)
  · intro i l h e he
    exact hInv.mem_height i l (htr' i none l h) e he
  · intro i l h e he l0 h0
    exact hInv.mem_zero i l (htr' i none l h) e he l0 (htr' 0 none l0 h0)
  · intro l0 h0 e he i hh hi l h
    exact hInv.full_height l0 (htr' 0 none l0 h0) e he i hh hi l (htr' i none l h)
  · intro l0 h0
    exact hInv.len_eq l0 (htr' 0 none l0 h0)

/-- A write `p.next[i] = v` lands (is in bounds) in Go terms. -/
theorem heightAt_pos_valid {s : SkipList K V} {id : Nat} {i : Nat}
    (h : i < s.heightAt id) : ∃ nd, s.nodes[id]? = some nd ∧ i < nd.next.length := by
  unfold SkipList.heightAt at h
  cases hnd : s.nodes[id]? with
  | none => rw [hnd] at h; simp at h
  | some nd => rw [hnd] at h; exact ⟨nd, rfl, by simpa using h⟩

theorem writeNext_node_cases (s : SkipList K V) (pid : Nat) (i : Nat) (v : Option Nat) :
    (∃ nd, s.nodes[pid]? = some nd ∧
      s.writeNext (some pid) i v =
        { s with nodes := s.nodes.set pid { nd with next := nd.next.set i v } }) ∨
    (s.nodes[pid]? = none ∧ s.writeNext (some pid) i v = s) := by
  rw [SkipList.writeNext]
  cases hnd : s.nodes[pid]? with
  | none => exact Or.inr ⟨rfl, rfl⟩
  | some nd => exact Or.inl ⟨nd, rfl, rfl⟩

theorem writeNext_head_eq (s : SkipList K V) (i : Nat) (v : Option Nat) :
    s.writeNext none i v = { s with next := s.next.set i v } := rfl

theorem writeNext_maxLevel (s : SkipList K V) (p : Option Nat) (i : Nat) (v : Option Nat) :
    (s.writeNext p i v).maxLevel = s.maxLevel := by
  cases p with
  | none => rfl
  | some pid =>
    rcases writeNext_node_cases s pid i v with ⟨nd, _, heq⟩ | ⟨_, heq⟩ <;> rw [heq]

theorem writeNext_length (s : SkipList K V) (p : Option Nat) (i : Nat) (v : Option Nat) :
    (s.writeNext p i v).length = s.length := by
  cases p with
  | none => rfl
  | some pid =>
    rcases writeNext_node_cases s pid i v with ⟨nd, _, heq⟩ | ⟨_, heq⟩ <;> rw [heq]

theorem writeNext_prevCache (s : SkipList K V) (p : Option Nat) (i : Nat) (v : Option Nat) :
    (s.writeNext p i v).prevNodesCache = s.prevNodesCache := by
  cases p with
  | none => rfl
  | some pid =>
    rcases writeNext_node_cases s pid i v with ⟨nd, _, heq⟩ | ⟨_, heq⟩ <;> rw [heq]

theorem writeNext_probability (s : SkipList K V) (p : Option Nat) (i : Nat) (v : Option Nat) :
    (s.writeNext p i v).probability = s.probability := by
  cases p with
  | none => rfl
  | some pid =>
    rcases writeNext_node_cases s pid i v with ⟨nd, _, heq⟩ | ⟨_, heq⟩ <;> rw [heq]

theorem writeNext_probTable (s : SkipList K V) (p : Option Nat) (i : Nat) (v : Option Nat) :
    (s.writeNext p i v).probTable = s.probTable := by
  cases p with
  | none => rfl
  | some pid =>
    rcases writeNext_node_cases s pid i v with ⟨nd, _, heq⟩ | ⟨_, heq⟩ <;> rw [heq]

theorem writeNext_nodes_length (s : SkipList K V) (p : Option Nat) (i : Nat) (v : Option Nat) :
    (s.writeNext p i v).nodes.length = s.nodes.length := by
  cases p with
  | none => rfl
  | some pid =>
    rcases writeNext_node_cases s pid i v with ⟨nd, _, heq⟩ | ⟨_, heq⟩ <;> rw [heq] <;> simp

theorem writeNext_next_length (s : SkipList K V) (p : Option Nat) (i : Nat) (v : Option Nat) :
    (s.writeNext p i v).next.length = s.next.length := by
  cases p with
  | none => rw [writeNext_head_eq]; simp
  | some pid =>
    rcases writeNext_node_cases s pid i v with ⟨nd, _, heq⟩ | ⟨_, heq⟩ <;> rw [heq]

theorem lt_of_getElem?_some {α : Type} {l : List α} {n : Nat} {a : α}
    (h : l[n]? = some a) : n < l.length := by
  by_contra hn
  rw [List.getElem?_eq_none (Nat.le_of_not_lt hn)] at h
  cases h

theorem writeNext_keyAt (s : SkipList K V) (p : Option Nat) (i : Nat) (v : Option Nat)
    (id : Nat) : (s.writeNext p i v).keyAt? id = s.keyAt? id := by
  cases p with
  | none => rfl
  | some pid =>
    rcases writeNext_node_cases s pid i v with ⟨nd, hnd, heq⟩ | ⟨_, heq⟩
    · rw [heq]
      have hlen := lt_of_getElem?_some hnd
      by_cases hid : pid = id
      · subst hid
        simp [SkipList.keyAt?, List.getElem?_set_self hlen, hnd]
      · simp [SkipList.keyAt?, List.getElem?_set_ne hid]
    · rw [heq]

theorem writeNext_heightAt (s : SkipList K V) (p : Option Nat) (i : Nat) (v : Option Nat)
    (id : Nat) : (s.writeNext p i v).heightAt id = s.heightAt id := by
  cases p with
  | none => rfl
  | some pid =>
    rcases writeNext_node_cases s pid i v with ⟨nd, hnd, heq⟩ | ⟨_, heq⟩
    · rw [heq]
      have hlen := lt_of_getElem?_some hnd
      by_cases hid : pid = id
      · subst hid
        simp [SkipList.heightAt, List.getElem?_set_self hlen, hnd]
      · simp [SkipList.heightAt, List.getElem?_set_ne hid]
    · rw [heq]

theorem nextAt_writeNext_ne_level {s : SkipList K V} {p : Option Nat} {i : Nat}
    {v : Option Nat} {q : Option Nat} {j : Nat} (h : j ≠ i) :
    (s.writeNext p i v).nextAt q j = s.nextAt q j := by
  cases p with
  | none =>
    rw [writeNext_head_eq]
    cases q with
    | none => simp [SkipList.nextAt, List.getElem?_set_ne (Ne.symm h)]
    | some id => rfl
  | some pid =>
    rcases writeNext_node_cases s pid i v with ⟨nd, hnd, heq⟩ | ⟨_, heq⟩
    · rw [heq]
      cases q with
      | none => rfl
      | some id =>
        have hlen := lt_of_getElem?_some hnd
        by_cases hid : pid = id
        · subst hid
          simp [SkipList.nextAt, List.getElem?_set_self hlen, hnd,
            List.getElem?_set_ne (Ne.symm h)]
        · simp [SkipList.nextAt, List.getElem?_set_ne hid]
    · rw [heq]

theorem nextAt_writeNext_ne_pos {s : SkipList K V} {p : Option Nat} {i : Nat}
    {v : Option Nat} {q : Option Nat} {j : Nat} (h : q ≠ p) :
    (s.writeNext p i v).nextAt q j = s.nextAt q j := by
  cases p with
  | none =>
    rw [writeNext_head_eq]
    cases q with
    | none => exact absurd rfl h
    | some id => rfl
  | some pid =>
    rcases writeNext_node_cases s pid i v with ⟨nd, hnd, heq⟩ | ⟨_, heq⟩
    · rw [heq]
      cases q with
      | none => rfl
      | some id =>
        have hid : pid ≠ id := fun he => h (by rw [he])
        simp [SkipList.nextAt, List.getElem?_set_ne hid]
    · rw [heq]

theorem nextAt_writeNext_of_ne {s : SkipList K V} {p : Option Nat} {i : Nat}
    {v : Option Nat} {q : Option Nat} {j : Nat} (h : q ≠ p ∨ j ≠ i) :
    (s.writeNext p i v).nextAt q j = s.nextAt q j := by
  rcases h with h | h
  · exact nextAt_writeNext_ne_pos h
  · exact nextAt_writeNext_ne_level h

theorem nextAt_writeNext_self {s : SkipList K V} {p : Option Nat} {i : Nat}
    {v : Option Nat} (h : s.writable p i) :
    (s.writeNext p i v).nextAt p i = v := by
  cases p with
  | none =>
    rw [writeNext_head_eq]
    have hlt : i < s.next.length := h
    simp [SkipList.nextAt, List.getElem?_set_self hlt]
  | some pid =>
    have hh : i < s.heightAt pid := h
    obtain ⟨nd, hnd, hi⟩ := heightAt_pos_valid hh
    rcases writeNext_node_cases s pid i v with ⟨nd', hnd', heq⟩ | ⟨hnone, _⟩
    · rw [hnd] at hnd'
      cases hnd'
      rw [heq]
      have hlen := lt_of_getElem?_some hnd
      simp [SkipList.nextAt, List.getElem?_set_self hlen, List.getElem?_set_self hi]
    · rw [hnone] at hnd
      cases hnd

theorem writable_writeNext {s : SkipList K V} {p q : Option Nat} {i j : Nat}
    {v : Option Nat} (h : s.writable q j) : (s.writeNext p i v).writable q j := by
  cases q with
  | none =>
    have hlt : j < s.next.length := h
    show j < (s.writeNext p i v).next.length
    rw [writeNext_next_length]; exact hlt
  | some id =>
    have hlt : j < s.heightAt id := h
    show j < (s.writeNext p i v).heightAt id
    rw [writeNext_heightAt]; exact hlt

/-! Allocation of a fresh node (`nodes ++ [newNd]`). -/

theorem nextAt_append_node {s : SkipList K V} {newNd : Element K V} {q : Option Nat}
    {j : Nat} (hq : q = none ∨ ∃ id, q = some id ∧ id < s.nodes.length) :
    SkipList.nextAt { s with nodes := s.nodes ++ [newNd] } q j = s.nextAt q j := by
  rcases hq with rfl | ⟨id, rfl, hid⟩
  · rfl
  · simp [SkipList.nextAt, List.getElem?_append_left hid]

theorem keyAt_append_node {s : SkipList K V} {newNd : Element K V} {id : Nat}
    (hid : id < s.nodes.length) :
    SkipList.keyAt? { s with nodes := s.nodes ++ [newNd] } id = s.keyAt? id := by
  simp [SkipList.keyAt?, List.getElem?_append_left hid]

theorem heightAt_append_node {s : SkipList K V} {newNd : Element K V} {id : Nat}
    (hid : id < s.nodes.length) :
    SkipList.heightAt { s with nodes := s.nodes ++ [newNd] } id = s.heightAt id := by
  simp [SkipList.heightAt, List.getElem?_append_left hid]

theorem keyAt_append_node_self {s : SkipList K V} {newNd : Element K V} :
    SkipList.keyAt? { s with nodes := s.nodes ++ [newNd] } s.nodes.length = some newNd.key := by
  simp [SkipList.keyAt?, List.getElem?_concat_length]

theorem heightAt_append_node_self {s : SkipList K V} {newNd : Element K V} :
    SkipList.heightAt { s with nodes := s.nodes ++ [newNd] } s.nodes.length =
      newNd.next.length := by
  simp [SkipList.heightAt, List.getElem?_concat_length]

theorem nextAt_append_node_self {s : SkipList K V} {lvl : Nat} {key : K} {value : V}
    {j : Nat} :
    SkipList.nextAt
      { s with nodes := s.nodes ++ [⟨List.replicate lvl none, key, value⟩] }
      (some s.nodes.length) j = none := by
  by_cases hj : j < lvl
  · simp [SkipList.nextAt, List.getElem?_concat_length, List.getElem?_replicate, hj]
  · have hle : (List.replicate lvl (none : Option Nat)).length ≤ j := by
      simpa using Nat.le_of_not_lt hj
    simp [SkipList.nextAt, List.getElem?_concat_length, List.getElem?_eq_none hle]

theorem Lseg.append_node {s : SkipList K V} {newNd : Element K V} {i : Nat}
    {l : List (Nat × K)} (h : Lseg s i none l) :
    Lseg ({ s with nodes := s.nodes ++ [newNd] } : SkipList K V) i none l := by
  obtain ⟨q, hs, hq⟩ := h
  have hvalid : ∀ e ∈ l, e.1 < s.nodes.length := by
    intro e he
    exact SkipList.lt_length_of_keyAt? (hs.keyAt_mem e he)
  have hqv : q = none ∨ ∃ id, q = some id ∧ id < s.nodes.length := by
    have := hs.endpoint
    cases hgl : l.getLast? with
    | none => rw [hgl] at this; exact Or.inl (by simpa using this)
    | some e =>
      rw [hgl] at this
      right
      refine ⟨e.1, by simpa using this, hvalid e (List.mem_of_getLast?_eq_some hgl)⟩
  refine ⟨q, hs.congr ?_ ?_, by rw [nextAt_append_node hqv]; exact hq⟩
  · intro r hr
    apply nextAt_append_node
    rcases hr with rfl | ⟨e, he, rfl⟩
    · exact Or.inl rfl
    · exact Or.inr ⟨e.1, rfl, hvalid e ((List.dropLast_sublist _).subset he)⟩
  · intro e he
    exact keyAt_append_node (hvalid e he)

/-! ## Splice surgery: effect of one level of `Set`'s insert loop -/

/-- Splicing a fresh node `(nid, key)` into a level: after
`element.next[i] = prevs[i].next[i]; prevs[i].next[i] = element`
(two `writeNext`s), the level-`i` chain is the old chain with `(nid, key)`
inserted between its `< key` prefix and its `≥ key` suffix. -/
theorem splice_surgery {sb : SkipList K V} {key : K} {i nid : Nat} {v : Option Nat}
    {li : List (Nat × K)}
    (hli : Lseg sb i none li) (hsort : (chainKeys li).Sorted (· < ·))
    (habs : ∀ e ∈ li, e.1 ≠ nid)
    (hkeyn : sb.keyAt? nid = some key)
    (hhn : sb.writable (some nid) i)
    (hwa : sb.writable (lastLt key li) i)
    (hv : v = sb.nextAt (lastLt key li) i) :
    Lseg ((sb.writeNext (some nid) i v).writeNext (lastLt key li) i (some nid)) i none
      (splicedChain key nid li) := by
  obtain ⟨hSegA, hLB, hPtr⟩ := hli.decompose key hsort
  set A := ltPart key li with hA
  set B := gePart key li with hB
  set pA := lastLt key li with hpA
  set s₂ := (sb.writeNext (some nid) i v).writeNext pA i (some nid) with hs₂
  have hAB : A ++ B = li := List.takeWhile_append_dropWhile ..
  have hnodup : (li.map Prod.fst).Nodup := by
    obtain ⟨q, hs, _⟩ := hli
    exact hs.nodup_fst hsort
  have hnodup' : ((A.map Prod.fst) ++ (B.map Prod.fst)).Nodup := by
    rw [← List.map_append, hAB]; exact hnodup
  obtain ⟨hndA, hndB, hdisj⟩ := List.nodup_append.mp hnodup'
  have hA_sub : ∀ e ∈ A, e ∈ li := fun e he => hAB ▸ List.mem_append_left _ he
  have hB_sub : ∀ e ∈ B, e ∈ li := fun e he => hAB ▸ List.mem_append_right _ he
  have hpA_cases : (pA = none ∧ A = []) ∨ ∃ eA, A.getLast? = some eA ∧ pA = some eA.1 := by
    rw [hpA, lastLt_eq_ltPart_getLast key hsort, ← hA]
    cases hgl : A.getLast? with
    | none => exact Or.inl ⟨rfl, List.getLast?_eq_none_iff.mp hgl⟩
    | some eA => exact Or.inr ⟨eA, rfl, rfl⟩
  have hpA_ne_nid : pA ≠ some nid := by
    rcases hpA_cases with ⟨h, _⟩ | ⟨eA, hgl, h⟩
    · rw [h]; exact fun hc => by cases hc
    · rw [h]
      intro hc
      exact habs eA (hA_sub eA (List.mem_of_getLast?_eq_some hgl)) (by injection hc)
  -- pointwise link facts in s₂
  have h1 : s₂.nextAt pA i = some nid := by
    rw [hs₂]
    exact nextAt_writeNext_self (writable_writeNext hwa)
  have h2 : s₂.nextAt (some nid) i = v := by
    rw [hs₂, nextAt_writeNext_ne_pos (Ne.symm hpA_ne_nid)]
    exact nextAt_writeNext_self hhn
  have h3 : ∀ r, r ≠ pA → r ≠ some nid → s₂.nextAt r i = sb.nextAt r i := by
    intro r hr1 hr2
    rw [hs₂, nextAt_writeNext_ne_pos hr1, nextAt_writeNext_ne_pos hr2]
  have h4 : ∀ id, s₂.keyAt? id = sb.keyAt? id := by
    intro id
    rw [hs₂, writeNext_keyAt, writeNext_keyAt]
  -- A's elements except the last are not pA and not nid
  have hA_drop_ne : ∀ e ∈ A.dropLast, some e.1 ≠ pA ∧ some e.1 ≠ some nid := by
    intro e he
    have heA : e ∈ A := (List.dropLast_sublist _).subset he
    constructor
    · rcases hpA_cases with ⟨h, _⟩ | ⟨eA, hgl, h⟩
      · rw [h]; exact fun hc => by cases hc
      · rw [h]
        intro hc
        have heq : e.1 = eA.1 := by injection hc
        have hAeq : A.dropLast ++ [eA] = A := List.dropLast_append_getLast? eA hgl
        have : ((A.dropLast.map Prod.fst) ++ [eA.1]).Nodup := by
          have hmap : (List.map Prod.fst (A.dropLast ++ [eA])).Nodup := by
            rw [hAeq]; exact hndA
          simpa using hmap
        have hdis2 : (A.dropLast.map Prod.fst).Disjoint [eA.1] :=
          (List.nodup_append.mp this).2.2
        have hnin : eA.1 ∉ A.dropLast.map Prod.fst := fun hmem => hdis2 hmem (by simp)
        exact hnin (heq ▸ List.mem_map_of_mem _ he)
    · intro hc
      exact habs e (hA_sub e heA) (by injection hc)
  -- the A segment survives in s₂ (when A = [] it is trivial; otherwise no
  -- queried position was written)
  have hSegA₂ : Seg s₂ i none A pA := by
    rcases hpA_cases with ⟨hpnone, hAnil⟩ | ⟨eA, hgl, hpsome⟩
    · rw [hAnil, hpnone]
      exact Seg.nil _
    · refine hSegA.congr ?_ (fun e _ => h4 e.1)
      intro r hr
      rcases hr with rfl | ⟨e, he, rfl⟩
      · refine h3 none ?_ (fun hc => by cases hc)
        rw [hpsome]
        exact fun hc => by cases hc
      · obtain ⟨hne1, hne2⟩ := hA_drop_ne e he
        exact h3 _ hne1 hne2
  -- tail segment
  obtain ⟨qB, hSegB, hqB⟩ := hLB
  have hqB_cases : qB = pA ∧ B = [] ∨ ∃ eB, B.getLast? = some eB ∧ qB = some eB.1 := by
    have := hSegB.endpoint
    cases hgl : B.getLast? with
    | none =>
      rw [hgl] at this
      left
      refine ⟨by simpa using this, List.getLast?_eq_none_iff.mp hgl⟩
    | some eB =>
      rw [hgl] at this
      exact Or.inr ⟨eB, rfl, by simpa using this⟩
  have hB_ne : ∀ e ∈ B, some e.1 ≠ pA ∧ some e.1 ≠ some nid := by
    intro e he
    constructor
    · rcases hpA_cases with ⟨h, _⟩ | ⟨eA, hgl, h⟩
      · rw [h]; exact fun hc => by cases hc
      · rw [h]
        intro hc
        have heq : e.1 = eA.1 := by injection hc
        exact hdisj (heq ▸ List.mem_map_of_mem _ (List.mem_of_getLast?_eq_some hgl))
          (List.mem_map_of_mem _ he)
    · intro hc
      exact habs e (hB_sub e he) (by injection hc)
  have hSegB₂ : Seg s₂ i (some nid) B qB ∧ s₂.nextAt qB i = none ∨
      B = [] ∧ s₂.nextAt (some nid) i = none := by
    cases hBc : B with
    | nil =>
      right
      refine ⟨rfl, ?_⟩
      rw [h2, hv, hPtr, hBc]
      rfl
    | cons e t =>
      left
      obtain ⟨m1, mk⟩ := e
      rw [hBc] at hSegB
      cases hSegB with
      | cons hn hk ht =>
        constructor
        · refine Seg.cons ?_ ?_ (ht.congr ?_ ?_)
          · rw [h2, hv, hPtr, hBc]
            rfl
          · rw [h4]; exact hk
          · intro r hr
            rcases hr with rfl | ⟨e', he', rfl⟩
            · obtain ⟨hne1, hne2⟩ := hB_ne (m1, mk) (by rw [hBc]; simp)
              exact h3 _ hne1 hne2
            · obtain ⟨hne1, hne2⟩ := hB_ne e'
                (by rw [hBc]; exact List.mem_cons_of_mem _ ((List.dropLast_sublist _).subset he'))
              exact h3 _ hne1 hne2
          · intro e' he'
            exact h4 e'.1
        · rcases hqB_cases with ⟨_, hBnil⟩ | ⟨eB, hgl, hqBe⟩
          · rw [hBnil] at hBc; cases hBc
          · obtain ⟨hne1, hne2⟩ := hB_ne eB (List.mem_of_getLast?_eq_some hgl)
            rw [hqBe, h3 _ hne1 hne2, ← hqBe]
            exact hqB
  -- assemble
  rcases hSegB₂ with ⟨hSB, hend⟩ | ⟨hBnil, hend⟩
  · refine ⟨qB, ?_, hend⟩
    rw [splicedChain, ← hA, ← hB]
    exact hSegA₂.append_seg (Seg.cons h1 (by rw [h4]; exact hkeyn) hSB)
  · refine ⟨some nid, ?_, hend⟩
    rw [splicedChain, ← hA, ← hB, hBnil]
    exact hSegA₂.append_seg (Seg.cons h1 (by rw [h4]; exact hkeyn) (Seg.nil _))

/-! ## Unlink surgery: effect of one level of `Remove`'s loop -/

/-- Unlinking at one level: when the first `≥ key` element of the sorted
level-`i` chain is `(nid, k0)`, the single write
`prevs[i].next[i] = element.next[i]` removes it from the chain. -/
theorem unlink_surgery {sb : SkipList K V} {key : K} {i nid : Nat} {k0 : K}
    {v : Option Nat} {li t : List (Nat × K)}
    (hli : Lseg sb i none li) (hsort : (chainKeys li).Sorted (· < ·))
    (hge : gePart key li = (nid, k0) :: t)
    (hv : v = sb.nextAt (some nid) i)
    (hwa : sb.writable (lastLt key li) i) :
    Lseg (sb.writeNext (lastLt key li) i v) i none (ltPart key li ++ t) := by
  obtain ⟨hSegA, hLB, hPtr⟩ := hli.decompose key hsort
  set A := ltPart key li with hA
  set B := gePart key li with hB
  set pA := lastLt key li with hpA
  set s₂ := sb.writeNext pA i v with hs₂
  have hAB : A ++ B = li := List.takeWhile_append_dropWhile ..
  have hnodup : (li.map Prod.fst).Nodup := by
    obtain ⟨q, hs, _⟩ := hli
    exact hs.nodup_fst hsort
  have hnodup' : ((A.map Prod.fst) ++ (B.map Prod.fst)).Nodup := by
    rw [← List.map_append, hAB]; exact hnodup
  obtain ⟨hndA, hndB, hdisj⟩ := List.nodup_append.mp hnodup'
  have hpA_cases : (pA = none ∧ A = []) ∨ ∃ eA, A.getLast? = some eA ∧ pA = some eA.1 := by
    rw [hpA, lastLt_eq_ltPart_getLast key hsort, ← hA]
    cases hgl : A.getLast? with
    | none => exact Or.inl ⟨rfl, List.getLast?_eq_none_iff.mp hgl⟩
    | some eA => exact Or.inr ⟨eA, rfl, rfl⟩
  have h1 : s₂.nextAt pA i = v := nextAt_writeNext_self hwa
  have h3 : ∀ r, r ≠ pA → s₂.nextAt r i = sb.nextAt r i := by
    intro r hr
    exact nextAt_writeNext_ne_pos hr
  have h4 : ∀ id, s₂.keyAt? id = sb.keyAt? id := fun id => writeNext_keyAt ..
  have hB_ne : ∀ e ∈ B, some e.1 ≠ pA := by
    intro e he
    rcases hpA_cases with ⟨h, _⟩ | ⟨eA, hgl, h⟩
    · rw [h]; exact fun hc => by cases hc
    · rw [h]
      intro hc
      have heq : e.1 = eA.1 := by injection hc
      exact hdisj (heq ▸ List.mem_map_of_mem _ (List.mem_of_getLast?_eq_some hgl))
        (List.mem_map_of_mem _ he)
  have hA_drop_ne : ∀ e ∈ A.dropLast, some e.1 ≠ pA := by
    intro e he
    rcases hpA_cases with ⟨h, _⟩ | ⟨eA, hgl, h⟩
    · rw [h]; exact fun hc => by cases hc
    · rw [h]
      intro hc
      have heq : e.1 = eA.1 := by injection hc
      have hAeq : A.dropLast ++ [eA] = A := List.dropLast_append_getLast? eA hgl
      have hmap : (List.map Prod.fst (A.dropLast ++ [eA])).Nodup := by
        rw [hAeq]; exact hndA
      have hmap' : ((A.dropLast.map Prod.fst) ++ [eA.1]).Nodup := by simpa using hmap
      have hdis2 : (A.dropLast.map Prod.fst).Disjoint [eA.1] :=
        (List.nodup_append.mp hmap').2.2
      have hm : e.1 ∈ A.dropLast.map Prod.fst := List.mem_map_of_mem _ he
      rw [heq] at hm
      exact hdis2 hm (by simp)
  have hSegA₂ : Seg s₂ i none A pA := by
    rcases hpA_cases with ⟨hpnone, hAnil⟩ | ⟨eA, hgl, hpsome⟩
    · rw [hAnil, hpnone]
      exact Seg.nil _
    · refine hSegA.congr ?_ (fun e _ => h4 e.1)
      intro r hr
      rcases hr with rfl | ⟨e, he, rfl⟩
      · refine h3 none ?_
        rw [hpsome]
        exact fun hc => by cases hc
      · exact h3 _ (hA_drop_ne e he)
  obtain ⟨qB, hSegB, hqB⟩ := hLB
  rw [hge] at hSegB
  cases hSegB with
  | cons hn hk0 ht =>
    cases hts : t with
    | nil =>
      rw [hts] at ht
      cases ht
      -- v = sb.nextAt (some nid) i = none by hqB
      refine ⟨pA, ?_, ?_⟩
      · rw [List.append_nil]
        exact hSegA₂
      · rw [h1, hv, hqB]
    | cons e1 t' =>
      obtain ⟨m1, mk⟩ := e1
      rw [hts] at ht
      cases ht with
      | cons hn1 hk1 ht1 =>
        have hqB_ne : qB ≠ pA := by
          have := ht1.endpoint
          cases hgl : t'.getLast? with
          | none =>
            rw [hgl] at this
            rw [show qB = some m1 by simpa using this]
            exact hB_ne (m1, mk) (by rw [hge, hts]; simp)
          | some eB =>
            rw [hgl] at this
            rw [show qB = some eB.1 by simpa using this]
            refine hB_ne eB ?_
            rw [hge, hts]
            exact List.mem_cons_of_mem _
              (List.mem_cons_of_mem _ (List.mem_of_getLast?_eq_some hgl))
        refine ⟨qB, ?_, by rw [h3 qB hqB_ne]; exact hqB⟩
        refine hSegA₂.append_seg (Seg.cons ?_ ?_ (ht1.congr ?_ ?_))
        · rw [h1, hv, hn1]
        · rw [h4]; exact hk1
        · intro r hr
          rcases hr with rfl | ⟨e', he', rfl⟩
          · exact h3 _ (hB_ne (m1, mk) (by rw [hge, hts]; simp))
          · refine h3 _ (hB_ne e' ?_)
            rw [hge, hts]
            exact List.mem_cons_of_mem _
              (List.mem_cons_of_mem _ ((List.dropLast_sublist _).subset he'))
        · intro e' he'
          exact h4 e'.1

/-! ## The splice loop of `Set` -/

theorem writeNext_valueAt (s : SkipList K V) (p : Option Nat) (i : Nat) (v : Option Nat)
    (id : Nat) : (s.writeNext p i v).valueAt? id = s.valueAt? id := by
  cases p with
  | none => rfl
  | some pid =>
    rcases writeNext_node_cases s pid i v with ⟨nd, hnd, heq⟩ | ⟨_, heq⟩
    · rw [heq]
      have hlen := lt_of_getElem?_some hnd
      by_cases hid : pid = id
      · subst hid
        simp [SkipList.valueAt?, List.getElem?_set_self hlen, hnd]
      · simp [SkipList.valueAt?, List.getElem?_set_ne hid]
    · rw [heq]

theorem LoopCtx.refl (s : SkipList K V) : LoopCtx s s :=
  ⟨fun _ => rfl, fun _ => rfl, fun _ => rfl, rfl, rfl, rfl, rfl, rfl, rfl, rfl⟩

theorem LoopCtx.writeNext {s₁ scur : SkipList K V} (ctx : LoopCtx s₁ scur)
    (p : Option Nat) (i : Nat) (v : Option Nat) :
    LoopCtx s₁ (scur.writeNext p i v) := by
  refine ⟨?_, ?_, ?_, ?_, ?_, ?_, ?_, ?_, ?_, ?_⟩
  · intro id; rw [writeNext_keyAt]; exact ctx.key_eq id
  · intro id; rw [writeNext_valueAt]; exact ctx.val_eq id
  · intro id; rw [writeNext_heightAt]; exact ctx.height_eq id
  · rw [writeNext_nodes_length]; exact ctx.nodes_len
  · rw [writeNext_next_length]; exact ctx.next_len
  · rw [writeNext_length]; exact ctx.len_eq
  · rw [writeNext_prevCache]; exact ctx.cache_eq
  · rw [writeNext_maxLevel]; exact ctx.max_eq
  · rw [writeNext_probability]; exact ctx.prob_eq
  · rw [writeNext_probTable]; exact ctx.ptab_eq

theorem LoopCtx.writable_tr {s₁ scur : SkipList K V} (ctx : LoopCtx s₁ scur)
    {p : Option Nat} {j : Nat} (h : s₁.writable p j) : scur.writable p j := by
  cases p with
  | none =>
    have hlt : j < s₁.next.length := h
    show j < scur.next.length
    rw [ctx.next_len]; exact hlt
  | some id =>
    have hlt : j < s₁.heightAt id := h
    show j < scur.heightAt id
    rw [ctx.height_eq]; exact hlt

theorem lastLt_ne_of_absent {key : K} {l : List (Nat × K)} {nid : Nat}
    (habs : ∀ e ∈ l, e.1 ≠ nid) : lastLt key l ≠ some nid := by
  rcases lastLt_cases key l with h | ⟨e, he, heq, _⟩
  · rw [h]; exact fun hc => by cases hc
  · rw [heq]
    intro hc
    exact habs e he (by injection hc)

/-- Full effect of `Set`'s splice loop: levels `< lvl` get the fresh node
spliced in, levels `≥ lvl` are untouched, and the recorded pointers match
the claim (`element.next[i]` holds the predecessor's old successor and
`prevs[i].next[i]` points at the element). -/
theorem spliceLoop_spec {s₁ : SkipList K V} {key : K} {nid lvl : Nat}
    {prevs : List (Option Nat)} (L : Nat → List (Nat × K))
    (hL : ∀ j, Lseg s₁ j none (L j))
    (hsort : ∀ j, (chainKeys (L j)).Sorted (· < ·))
    (habs : ∀ j, ∀ e ∈ L j, e.1 ≠ nid)
    (hkeyn : s₁.keyAt? nid = some key)
    (hheight : s₁.heightAt nid = lvl)
    (hprevs : ∀ j, j < lvl → prevs.getD j none = lastLt key (L j))
    (hwa : ∀ j, j < lvl → s₁.writable (lastLt key (L j)) j) :
    ∀ (rem i : Nat) (scur : SkipList K V), i + rem = lvl →
      LoopCtx s₁ scur →
      (∀ t, i ≤ t → ∀ r, scur.nextAt r t = s₁.nextAt r t) →
      (∀ t, t < i → Lseg scur t none (splicedChain key nid (L t))) →
      (∀ j, j < i → scur.nextAt (prevs.getD j none) j = some nid ∧
        scur.nextAt (some nid) j = s₁.nextAt (prevs.getD j none) j) →
      LoopCtx s₁ (spliceLoop nid prevs scur i rem) ∧
      (∀ t, lvl ≤ t → ∀ r,
        (spliceLoop nid prevs scur i rem).nextAt r t = s₁.nextAt r t) ∧
      (∀ t, t < lvl →
        Lseg (spliceLoop nid prevs scur i rem) t none (splicedChain key nid (L t))) ∧
      (∀ j, j < lvl →
        (spliceLoop nid prevs scur i rem).nextAt (prevs.getD j none) j = some nid ∧
        (spliceLoop nid prevs scur i rem).nextAt (some nid) j =
          s₁.nextAt (prevs.getD j none) j) := by
  intro rem
  induction rem with
  | zero =>
    intro i scur hi ctx hA hB hSpl
    have hieq : i = lvl := by omega
    subst hieq
    exact ⟨ctx, fun t ht r => hA t ht r, fun t ht => hB t ht, fun j hj => hSpl j hj⟩
  | succ rem ih =>
    intro i scur hi ctx hA hB hSpl
    have hilt : i < lvl := by omega
    have hp : prevs.getD i none = lastLt key (L i) := hprevs i hilt
    have hLi_cur : Lseg scur i none (L i) :=
      (hL i).of_untouched (fun r => hA i le_rfl r) (fun id => ctx.key_eq id)
    have hkeyn_cur : scur.keyAt? nid = some key := by rw [ctx.key_eq]; exact hkeyn
    have hhn_cur : scur.writable (some nid) i := by
      show i < scur.heightAt nid
      rw [ctx.height_eq, hheight]
      exact hilt
    have hwa_cur : scur.writable (lastLt key (L i)) i :=
      ctx.writable_tr (hwa i hilt)
    have hpne : lastLt key (L i) ≠ some nid := lastLt_ne_of_absent (habs i)
    set v := scur.nextAt (prevs.getD i none) i with hv
    set s₂ := (scur.writeNext (some nid) i v).writeNext (prevs.getD i none) i (some nid)
      with hs₂
    have hsurg : Lseg s₂ i none (splicedChain key nid (L i)) := by
      rw [hs₂, hp]
      exact splice_surgery hLi_cur (hsort i) (habs i) hkeyn_cur hhn_cur hwa_cur
        (by rw [hv, hp])
    have hctx₂ : LoopCtx s₁ s₂ := (ctx.writeNext _ _ _).writeNext _ _ _
    have hA₂ : ∀ t, i + 1 ≤ t → ∀ r, s₂.nextAt r t = s₁.nextAt r t := by
      intro t ht r
      rw [hs₂, nextAt_writeNext_ne_level (by omega), nextAt_writeNext_ne_level (by omega)]
      exact hA t (by omega) r
    have hB₂ : ∀ t, t < i + 1 → Lseg s₂ t none (splicedChain key nid (L t)) := by
      intro t ht
      rcases Nat.lt_or_ge t i with h | h
      · refine (hB t h).of_untouched ?_ (fun id => ?_)
        · intro r
          rw [hs₂, nextAt_writeNext_ne_level (by omega),
            nextAt_writeNext_ne_level (by omega)]
        · rw [hs₂, writeNext_keyAt, writeNext_keyAt]
      · have : t = i := by omega
        subst this
        exact hsurg
    have hSpl₂ : ∀ j, j < i + 1 → s₂.nextAt (prevs.getD j none) j = some nid ∧
        s₂.nextAt (some nid) j = s₁.nextAt (prevs.getD j none) j := by
      intro j hj
      rcases Nat.lt_or_ge j i with h | h
      · obtain ⟨h1, h2⟩ := hSpl j h
        constructor
        · rw [hs₂, nextAt_writeNext_ne_level (by omega),
            nextAt_writeNext_ne_level (by omega)]
          exact h1
        · rw [hs₂, nextAt_writeNext_ne_level (by omega),
            nextAt_writeNext_ne_level (by omega)]
          exact h2
      · have : j = i := by omega
        subst this
        constructor
        · rw [hs₂]
          refine nextAt_writeNext_self (writable_writeNext ?_)
          rw [hp]
          exact hwa_cur
        · rw [hs₂, nextAt_writeNext_ne_pos (by rw [hp]; exact Ne.symm hpne),
            nextAt_writeNext_self hhn_cur, hv]
          exact hA j le_rfl _
    have hstep : spliceLoop nid prevs scur i (rem + 1) =
        spliceLoop nid prevs s₂ (i + 1) rem := rfl
    rw [hstep]
    exact ih (i + 1) s₂ (by omega) hctx₂ hA₂ hB₂ hSpl₂

/-! ## The unlink loop of `Remove` -/

/-- On a sorted chain containing `(nid, key)`, the `≥ key` suffix starts
exactly with `(nid, key)`. -/
theorem gePart_head_of_mem {key : K} {l : List (Nat × K)} {nid : Nat}
    (hsort : (chainKeys l).Sorted (· < ·)) (hmem : (nid, key) ∈ l) :
    ∃ t, gePart key l = (nid, key) :: t := by
  have hsplit : ltPart key l ++ gePart key l = l := List.takeWhile_append_dropWhile ..
  have hnotlt : (nid, key) ∉ ltPart key l := by
    intro hin
    exact absurd (mem_ltPart_lt hin) (lt_irrefl key)
  have hin : (nid, key) ∈ gePart key l := by
    rcases List.mem_append.mp (hsplit ▸ hmem) with h | h
    · exact absurd h hnotlt
    · exact h
  cases hge : gePart key l with
  | nil => rw [hge] at hin; cases hin
  | cons e t =>
    obtain ⟨m1, mk⟩ := e
    rcases List.mem_cons.mp (hge ▸ hin) with h | h
    · exact ⟨t, by rw [h]⟩
    · -- (nid, key) strictly after the head would force key < key
      exfalso
      have hsge : (chainKeys (gePart key l)).Sorted (· < ·) := sorted_gePart hsort
      rw [hge] at hsge
      obtain ⟨hhead, _⟩ := sorted_chain_cons.mp hsge
      have h1 : mk < key := hhead (nid, key) h
      have h2 : key ≤ mk := gePart_head_ge hge
      exact absurd h1 (not_lt_of_le h2)

/-- Full effect of `Remove`'s unlink loop: for every level below the
removed node's height the chain loses exactly that node, higher levels are
untouched, and each `prevs[k].next[k]` now holds the removed node's old
level-`k` successor. -/
theorem unlinkLoop_spec {s₁ : SkipList K V} {key : K} {nid h' : Nat}
    {prevs : List (Option Nat)} {nd : Element K V} (L : Nat → List (Nat × K))
    (hL : ∀ j, Lseg s₁ j none (L j))
    (hsort : ∀ j, (chainKeys (L j)).Sorted (· < ·))
    (hnd : s₁.nodes[nid]? = some nd)
    (hh : nd.next.length = h')
    (hmem : ∀ j, j < h' → (nid, key) ∈ L j)
    (hprevs : ∀ j, j < h' → prevs.getD j none = lastLt key (L j))
    (hwa : ∀ j, j < h' → s₁.writable (lastLt key (L j)) j) :
    ∀ (vs : List (Option Nat)) (k : Nat) (scur : SkipList K V),
      vs = nd.next.drop k → k + vs.length = h' →
      LoopCtx s₁ scur →
      (∀ t, k ≤ t → ∀ r, scur.nextAt r t = s₁.nextAt r t) →
      (∀ t, t < k → Lseg scur t none (ltPart key (L t) ++ (gePart key (L t)).tail)) →
      (∀ j, j < k → scur.nextAt (prevs.getD j none) j = s₁.nextAt (some nid) j) →
      LoopCtx s₁ (unlinkLoop prevs scur k vs) ∧
      (∀ t, h' ≤ t → ∀ r, (unlinkLoop prevs scur k vs).nextAt r t = s₁.nextAt r t) ∧
      (∀ t, t < h' → Lseg (unlinkLoop prevs scur k vs) t none
        (ltPart key (L t) ++ (gePart key (L t)).tail)) ∧
      (∀ j, j < h' → (unlinkLoop prevs scur k vs).nextAt (prevs.getD j none) j =
        s₁.nextAt (some nid) j) := by
  intro vs
  induction vs with
  | nil =>
    intro k scur _ hk ctx hA hB hSpl
    have hkeq : k = h' := by simpa using hk
    subst hkeq
    exact ⟨ctx, fun t ht r => hA t ht r, fun t ht => hB t ht, fun j hj => hSpl j hj⟩
  | cons v vs' ih =>
    intro k scur hdrop hk ctx hA hB hSpl
    have hklt : k < h' := by simp at hk; omega
    have hvk : nd.next[k]? = some v := by
      have h0 : vs'.length = nd.next.length - (k + 1) := by
        have := congrArg List.length hdrop
        simp at this
        omega
      have : (nd.next.drop k)[0]? = nd.next[k]? := by
        simp [List.getElem?_drop]
      rw [← hdrop] at this
      simpa using this.symm
    have hnidk : s₁.nextAt (some nid) k = v := by
      simp [SkipList.nextAt, hnd, hvk]
    have hLk_cur : Lseg scur k none (L k) :=
      (hL k).of_untouched (fun r => hA k le_rfl r) (fun id => ctx.key_eq id)
    obtain ⟨t, hge⟩ := gePart_head_of_mem (hsort k) (hmem k hklt)
    have hwa_cur : scur.writable (lastLt key (L k)) k := ctx.writable_tr (hwa k hklt)
    have hvcur : v = scur.nextAt (some nid) k := by
      rw [hA k le_rfl, hnidk]
    set s₂ := scur.writeNext (prevs.getD k none) k v with hs₂
    have hsurg : Lseg s₂ k none (ltPart key (L k) ++ (gePart key (L k)).tail) := by
      rw [hs₂, hprevs k hklt, hge]
      simpa [hge] using
        unlink_surgery hLk_cur (hsort k) hge hvcur hwa_cur
    have hctx₂ : LoopCtx s₁ s₂ := ctx.writeNext _ _ _
    have hA₂ : ∀ t', k + 1 ≤ t' → ∀ r, s₂.nextAt r t' = s₁.nextAt r t' := by
      intro t' ht' r
      rw [hs₂, nextAt_writeNext_ne_level (by omega)]
      exact hA t' (by omega) r
    have hB₂ : ∀ t', t' < k + 1 →
        Lseg s₂ t' none (ltPart key (L t') ++ (gePart key (L t')).tail) := by
      intro t' ht'
      rcases Nat.lt_or_ge t' k with h | h
      · refine (hB t' h).of_untouched ?_ (fun id => ?_)
        · intro r
          rw [hs₂, nextAt_writeNext_ne_level (by omega)]
        · rw [hs₂, writeNext_keyAt]
      · have : t' = k := by omega
        subst this
        exact hsurg
    have hSpl₂ : ∀ j, j < k + 1 →
        s₂.nextAt (prevs.getD j none) j = s₁.nextAt (some nid) j := by
      intro j hj
      rcases Nat.lt_or_ge j k with h | h
      · rw [hs₂, nextAt_writeNext_ne_level (by omega)]
        exact hSpl j h
      · have : j = k := by omega
        subst this
        rw [hs₂]
        have hw : scur.writable (prevs.getD j none) j := by
          rw [hprevs j hklt]
          exact hwa_cur
        rw [nextAt_writeNext_self hw, hnidk]
    have hdrop' : vs' = nd.next.drop (k + 1) := by
      have : (nd.next.drop k).tail = nd.next.drop (k + 1) := by
        rw [List.tail_drop]
      rw [← hdrop] at this
      simpa using this
    have hstep : unlinkLoop prevs scur k (v :: vs') = unlinkLoop prevs s₂ (k + 1) vs' := rfl
    rw [hstep]
    exact ih (k + 1) s₂ hdrop' (by simp at hk ⊢; omega) hctx₂ hA₂ hB₂ hSpl₂

/-! ## Small facts about spliced chains and a generic invariant transfer -/

theorem gePart_ge {key : K} {l : List (Nat × K)}
    (hsort : (chainKeys l).Sorted (· < ·)) : ∀ b ∈ gePart key l, key ≤ b.2 := by
  intro b hb
  cases hge : gePart key l with
  | nil => rw [hge] at hb; cases hb
  | cons e t =>
    have hhead := gePart_head_ge hge
    have hsge : (chainKeys (gePart key l)).Sorted (· < ·) := sorted_gePart hsort
    rw [hge] at hsge hb
    obtain ⟨hlt, _⟩ := sorted_chain_cons.mp hsge
    rcases List.mem_cons.mp hb with rfl | hbt
    · exact hhead
    · exact le_of_lt (lt_of_le_of_lt hhead (hlt b hbt))

theorem splicedChain_sorted {key : K} {nid : Nat} {l : List (Nat × K)}
    (hsort : (chainKeys l).Sorted (· < ·)) (habsent : ∀ e ∈ l, e.2 ≠ key) :
    (chainKeys (splicedChain key nid l)).Sorted (· < ·) := by
  have hsplit : ltPart key l ++ gePart key l = l := List.takeWhile_append_dropWhile ..
  have hsl : (chainKeys (ltPart key l)).Sorted (· < ·) ∧
      (chainKeys (gePart key l)).Sorted (· < ·) ∧
      ∀ a ∈ ltPart key l, ∀ b ∈ gePart key l, a.2 < b.2 := by
    rw [← sorted_chain_append, hsplit]
    exact hsort
  rw [splicedChain, sorted_chain_append]
  refine ⟨hsl.1, ?_, ?_⟩
  · rw [sorted_chain_cons]
    refine ⟨?_, hsl.2.1⟩
    intro b hb
    have h1 : key ≤ b.2 := gePart_ge hsort b hb
    have h2 : b.2 ≠ key := habsent b (hsplit ▸ List.mem_append_right _ hb)
    exact lt_of_le_of_ne h1 (fun h => h2 h.symm)
  · intro a ha b hb
    rcases List.mem_cons.mp hb with rfl | hbt
    · exact mem_ltPart_lt ha
    · exact hsl.2.2 a ha b hbt

theorem mem_splicedChain {key : K} {nid : Nat} {l : List (Nat × K)} {e : Nat × K} :
    e ∈ splicedChain key nid l ↔ e = (nid, key) ∨ e ∈ l := by
  have hsplit : ltPart key l ++ gePart key l = l := List.takeWhile_append_dropWhile ..
  rw [splicedChain]
  constructor
  · intro h
    rcases List.mem_append.mp h with h | h
    · exact Or.inr (hsplit ▸ List.mem_append_left _ h)
    · rcases List.mem_cons.mp h with rfl | h
      · exact Or.inl rfl
      · exact Or.inr (hsplit ▸ List.mem_append_right _ h)
  · intro h
    rcases h with rfl | h
    · exact List.mem_append_right _ (List.mem_cons_self _ _)
    · have h' : e ∈ ltPart key l ++ gePart key l := by rw [hsplit]; exact h
      rcases List.mem_append.mp h' with h | h
      · exact List.mem_append_left _ h
      · exact List.mem_append_right _ (List.mem_cons_of_mem _ h)

theorem splicedChain_length {key : K} {nid : Nat} {l : List (Nat × K)} :
    (splicedChain key nid l).length = l.length + 1 := by
  have hsplit : ltPart key l ++ gePart key l = l := List.takeWhile_append_dropWhile ..
  rw [splicedChain]
  have := congrArg List.length hsplit
  simp at this ⊢
  omega

theorem heightAt_eq_of_getElem? {s : SkipList K V} {id : Nat} {nd : Element K V}
    (h : s.nodes[id]? = some nd) : s.heightAt id = nd.next.length := by
  rw [SkipList.heightAt, h]
  rfl

theorem keyAt?_eq_of_getElem? {s : SkipList K V} {id : Nat} {nd : Element K V}
    (h : s.nodes[id]? = some nd) : s.keyAt? id = some nd.key := by
  rw [SkipList.keyAt?, h]
  rfl

/-- Generic transfer of the invariant along a state equivalence. -/
theorem Inv.transfer {s s' : SkipList K V} (hInv : Inv s)
    (hml : s'.maxLevel = s.maxLevel)
    (hhl : s'.next.length = s.next.length)
    (hcl : s'.prevNodesCache.length = s.prevNodesCache.length)
    (hlen : s'.length = s.length)
    (hheights : ∀ nd' ∈ s'.nodes, nd'.next.length ≤ s.maxLevel)
    (hnext : ∀ q j, s'.nextAt q j = s.nextAt q j)
    (hkey : ∀ id, s'.keyAt? id = s.keyAt? id)
    (hheight : ∀ id, s'.heightAt id = s.heightAt id) : Inv s' := by
  have htr : ∀ i p l, Lseg s i p l → Lseg s' i p l := by
    intro i p l h
    exact h.of_untouched (fun r => hnext r i) (fun id => hkey id)
  have htr' : ∀ i p l, Lseg s' i p l → Lseg s i p l := by
    intro i p l h
    exact h.of_untouched (fun r => (hnext r i).symm) (fun id => (hkey id).symm)
  refine ⟨?_, ?_, ?_, ?_, ?_, ?_, ?_, ?_, ?_, ?_⟩
  · rw [hml]; exact hInv.max_pos
  · rw [hhl, hml]; exact hInv.head_len
  · rw [hcl, hml]; exact hInv.cache_len
  · intro nd hnd
    rw [hml]
    exact hheights nd hnd
  · intro i
    obtain ⟨l, hl⟩ := hInv.chain_ex i
    exact ⟨l, htr i none l hl⟩
  · intro i l h
    exact hInv.chain_sorted i l (htr' i none l h)
  · intro i l h e he
    rw [hheight]
    exact hInv.mem_height i l (htr' i none l h) e he
  · intro i l h e he l0 h0
    exact hInv.mem_zero i l (htr' i none l h) e he l0 (htr' 0 none l0 h0)
  · intro l0 h0 e he i hh hi l h
    refine hInv.full_height l0 (htr' 0 none l0 h0) e he i ?_ ?_ l (htr' i none l h)
    · rw [hheight] at hh; exact hh
    · rw [hml] at hi; exact hi
  · intro l0 h0
    rw [hlen]
    exact hInv.len_eq l0 (htr' 0 none l0 h0)

/-! ## Path analysis of `Set` and `Remove` -/

theorem Lseg_set_length {s : SkipList K V} {n : Nat} {i : Nat} {p : Option Nat}
    {l : List (Nat × K)} (h : Lseg s i p l) :
    Lseg ({ s with length := n } : SkipList K V) i p l :=
  h.of_untouched (fun _ => rfl) (fun _ => rfl)

theorem valueAt_append_node_self {s : SkipList K V} {newNd : Element K V} :
    SkipList.valueAt? { s with nodes := s.nodes ++ [newNd] } s.nodes.length =
      some newNd.value := by
  simp [SkipList.valueAt?, List.getElem?_concat_length]

theorem valueAt_append_node {s : SkipList K V} {newNd : Element K V} {id : Nat}
    (hid : id < s.nodes.length) :
    SkipList.valueAt? { s with nodes := s.nodes ++ [newNd] } id = s.valueAt? id := by
  simp [SkipList.valueAt?, List.getElem?_append_left hid]

/-- Facts about the state returned by the traversal. -/
theorem gpen_state_spec {s₀ : SkipList K V} (hInv : Inv s₀) (key : K) :
    (s₀.getPrevElementNodes key).2 =
      { s₀ with prevNodesCache := (s₀.getPrevElementNodes key).1 } ∧
    (s₀.getPrevElementNodes key).1.length = s₀.maxLevel ∧
    Inv (s₀.getPrevElementNodes key).2 ∧
    (∀ i, i < s₀.maxLevel → ∀ li, Lseg s₀ i none li →
      (s₀.getPrevElementNodes key).1.getD i none = lastLt key li) := by
  obtain ⟨hlen, hchar⟩ := getPrevElementNodes_spec hInv key
  refine ⟨rfl, hlen, ?_, ?_⟩
  · exact hInv.set_cache hlen
  · intro i hi li hli
    rw [List.getD_eq_getElem?_getD, hchar i hi li hli]
    rfl

theorem candidate_present {s₀ : SkipList K V} (hInv : Inv s₀) (key : K)
    {l0 : List (Nat × K)} (hl0 : Lseg s₀ 0 none l0) {nid : Nat}
    (hpres : (nid, key) ∈ l0) :
    (s₀.getPrevElementNodes key).2.nextAt
      ((s₀.getPrevElementNodes key).1.getD 0 none) 0 = some nid ∧
    ∃ nd, s₀.nodes[nid]? = some nd ∧ nd.key = key := by
  obtain ⟨_, _, _, hgetD⟩ := gpen_state_spec hInv key
  rw [hgetD 0 hInv.max_pos l0 hl0]
  have hnx : (s₀.getPrevElementNodes key).2.nextAt (lastLt key l0) 0 =
      s₀.nextAt (lastLt key l0) 0 := rfl
  rw [hnx]
  obtain ⟨t, hge⟩ := gePart_head_of_mem (hInv.chain_sorted 0 l0 hl0) hpres
  obtain ⟨_, _, hPtr⟩ := hl0.decompose key (hInv.chain_sorted 0 l0 hl0)
  refine ⟨by rw [hPtr, hge]; rfl, ?_⟩
  have hkey := hl0.keyAt_of_mem (nid, key) hpres
  rw [SkipList.keyAt?] at hkey
  cases hnd : s₀.nodes[nid]? with
  | none => rw [hnd] at hkey; cases hkey
  | some nd =>
    rw [hnd] at hkey
    exact ⟨nd, rfl, by simpa using hkey⟩

theorem candidate_absent {s₀ : SkipList K V} (hInv : Inv s₀) (key : K)
    {l0 : List (Nat × K)} (hl0 : Lseg s₀ 0 none l0)
    (habsent : ∀ e ∈ l0, e.2 ≠ key) :
    (s₀.getPrevElementNodes key).2.nextAt
      ((s₀.getPrevElementNodes key).1.getD 0 none) 0 = none ∨
    ∃ m nd, (s₀.getPrevElementNodes key).2.nextAt
        ((s₀.getPrevElementNodes key).1.getD 0 none) 0 = some m ∧
      s₀.nodes[m]? = some nd ∧ ¬ nd.key ≤ key := by
  obtain ⟨_, _, _, hgetD⟩ := gpen_state_spec hInv key
  rw [hgetD 0 hInv.max_pos l0 hl0]
  have hnx : (s₀.getPrevElementNodes key).2.nextAt (lastLt key l0) 0 =
      s₀.nextAt (lastLt key l0) 0 := rfl
  rw [hnx]
  have hsorted := hInv.chain_sorted 0 l0 hl0
  obtain ⟨_, _, hPtr⟩ := hl0.decompose key hsorted
  rw [hPtr]
  cases hge : gePart key l0 with
  | nil => exact Or.inl rfl
  | cons e t =>
    obtain ⟨m, mk⟩ := e
    right
    have hmem : (m, mk) ∈ l0 := by
      have hsplit : ltPart key l0 ++ gePart key l0 = l0 := List.takeWhile_append_dropWhile ..
      rw [← hsplit, hge]
      exact List.mem_append_right _ (List.mem_cons_self _ _)
    have hkey := hl0.keyAt_of_mem (m, mk) hmem
    rw [SkipList.keyAt?] at hkey
    cases hnd : s₀.nodes[m]? with
    | none => rw [hnd] at hkey; cases hkey
    | some nd =>
      rw [hnd] at hkey
      have hndk : nd.key = mk := by simpa using hkey
      refine ⟨m, nd, ?_, hnd, ?_⟩
      · rfl
      · rw [hndk]
        have h1 : key ≤ mk := gePart_head_ge hge
        have h2 : mk ≠ key := habsent (m, mk) hmem
        exact not_le_of_lt (lt_of_le_of_ne h1 (fun h => h2 h.symm))

theorem set_eq_update {s₀ : SkipList K V} (hInv : Inv s₀) (key : K) (v : V) (lvl : Nat)
    {l0 : List (Nat × K)} (hl0 : Lseg s₀ 0 none l0) {nid : Nat}
    (hpres : (nid, key) ∈ l0) :
    ∃ nd, s₀.nodes[nid]? = some nd ∧ nd.key = key ∧
      s₀.set key v lvl = (nid,
        { s₀ with prevNodesCache := (s₀.getPrevElementNodes key).1,
                  nodes := s₀.nodes.set nid { nd with value := v } }) := by
  obtain ⟨hcand, nd, hnd, hndkey⟩ := candidate_present hInv key hl0 hpres
  refine ⟨nd, hnd, hndkey, ?_⟩
  rw [SkipList.set]
  simp only [hcand]
  have hnd' : (s₀.getPrevElementNodes key).2.nodes[nid]? = some nd := hnd
  simp only [hnd']
  rw [if_pos (le_of_eq hndkey)]
  rfl

theorem set_eq_insert {s₀ : SkipList K V} (hInv : Inv s₀) (key : K) (v : V) (lvl : Nat)
    {l0 : List (Nat × K)} (hl0 : Lseg s₀ 0 none l0)
    (habsent : ∀ e ∈ l0, e.2 ≠ key) :
    s₀.set key v lvl =
      (s₀.getPrevElementNodes key).2.insertNew key v lvl
        (s₀.getPrevElementNodes key).1 := by
  rcases candidate_absent hInv key hl0 habsent with hcand | ⟨m, nd, hcand, hnd, hkey⟩
  · rw [SkipList.set]
    simp only [hcand]
  · rw [SkipList.set]
    simp only [hcand]
    have hnd' : (s₀.getPrevElementNodes key).2.nodes[m]? = some nd := hnd
    simp only [hnd']
    rw [if_neg hkey]

/-- Full description of `Set`'s insert path: fresh node id, one more node
and one more live element, key/value/height of the new node, the splice
links of every level `i < lvl`, spliced chains below `lvl` and untouched
chains above, and unchanged bookkeeping for old nodes. -/
theorem insert_spec {s₀ : SkipList K V} (hInv : Inv s₀) (key : K) (v : V) {lvl : Nat}
    (hl1 : 1 ≤ lvl) (hl2 : lvl ≤ s₀.maxLevel)
    {l0 : List (Nat × K)} (hl0 : Lseg s₀ 0 none l0)
    (habsent : ∀ e ∈ l0, e.2 ≠ key) :
    (s₀.set key v lvl).1 = s₀.nodes.length ∧
    (s₀.set key v lvl).2.nodes.length = s₀.nodes.length + 1 ∧
    (s₀.set key v lvl).2.length = s₀.length + 1 ∧
    (s₀.set key v lvl).2.keyAt? s₀.nodes.length = some key ∧
    (s₀.set key v lvl).2.valueAt? s₀.nodes.length = some v ∧
    (s₀.set key v lvl).2.heightAt s₀.nodes.length = lvl ∧
    (s₀.set key v lvl).2.maxLevel = s₀.maxLevel ∧
    (s₀.set key v lvl).2.next.length = s₀.next.length ∧
    (s₀.set key v lvl).2.probability = s₀.probability ∧
    (s₀.set key v lvl).2.probTable = s₀.probTable ∧
    (s₀.set key v lvl).2.prevNodesCache = (s₀.getPrevElementNodes key).1 ∧
    (∀ id, id < s₀.nodes.length →
      (s₀.set key v lvl).2.keyAt? id = s₀.keyAt? id ∧
      (s₀.set key v lvl).2.valueAt? id = s₀.valueAt? id ∧
      (s₀.set key v lvl).2.heightAt id = s₀.heightAt id) ∧
    (∀ t l, Lseg s₀ t none l → t < lvl →
      Lseg (s₀.set key v lvl).2 t none (splicedChain key s₀.nodes.length l)) ∧
    (∀ t l, Lseg s₀ t none l → lvl ≤ t → Lseg (s₀.set key v lvl).2 t none l) ∧
    (∀ i, i < lvl →
      (s₀.set key v lvl).2.nextAt ((s₀.getPrevElementNodes key).1.getD i none) i =
        some s₀.nodes.length ∧
      (s₀.set key v lvl).2.nextAt (some s₀.nodes.length) i =
        s₀.nextAt ((s₀.getPrevElementNodes key).1.getD i none) i) := by
  obtain ⟨hpr2, hprlen, hInvS, hgetD⟩ := gpen_state_spec hInv key
  rw [set_eq_insert hInv key v lvl hl0 habsent]
  set prevs := (s₀.getPrevElementNodes key).1 with hprevs_def
  set s := (s₀.getPrevElementNodes key).2 with hs_def
  set nid := s₀.nodes.length with hnid_def
  have hsnodes : s.nodes = s₀.nodes := by rw [hpr2]
  have hsnext : s.next = s₀.next := by rw [hpr2]
  have hsml : s.maxLevel = s₀.maxLevel := by rw [hpr2]
  have hslen : s.length = s₀.length := by rw [hpr2]
  have hsprob : s.probability = s₀.probability := by rw [hpr2]
  have hsptab : s.probTable = s₀.probTable := by rw [hpr2]
  have hscache : s.prevNodesCache = prevs := by rw [hpr2]
  have hnextS : ∀ q j, s.nextAt q j = s₀.nextAt q j := fun q j => by rw [hpr2]; rfl
  have hkeyS : ∀ id, s.keyAt? id = s₀.keyAt? id := fun id => by rw [hpr2]; rfl
  have hvalS : ∀ id, s.valueAt? id = s₀.valueAt? id := fun id => by rw [hpr2]; rfl
  have hheightS : ∀ id, s.heightAt id = s₀.heightAt id := fun id => by rw [hpr2]; rfl
  have hLsegS : ∀ i l, Lseg s₀ i none l → Lseg s i none l := by
    intro i l h
    exact h.of_untouched (fun r => hnextS r i) hkeyS
  have hLsegS' : ∀ i l, Lseg s i none l → Lseg s₀ i none l := by
    intro i l h
    exact h.of_untouched (fun r => (hnextS r i).symm) (fun id => (hkeyS id).symm)
  -- choose the chains of s
  choose L hL using hInvS.chain_ex
  have hLuniq : ∀ t l, Lseg s₀ t none l → l = L t := fun t l h =>
    lseg_unique (hLsegS t l h) (hL t)
  have hsort : ∀ j, (chainKeys (L j)).Sorted (· < ·) := fun j =>
    hInvS.chain_sorted j (L j) (hL j)
  have hvalid : ∀ j, ∀ e ∈ L j, e.1 < s₀.nodes.length := by
    intro j e he
    have := (hL j).keyAt_of_mem e he
    rw [hkeyS] at this
    exact SkipList.lt_length_of_keyAt? this
  have habs : ∀ j, ∀ e ∈ L j, e.1 ≠ nid := by
    intro j e he
    have := hvalid j e he
    omega
  -- the allocation state
  set newNd : Element K V := ⟨List.replicate lvl none, key, v⟩ with hnewNd
  set s1 : SkipList K V := { s with nodes := s.nodes ++ [newNd] } with hs1
  have hs1nodes_len : s1.nodes.length = s₀.nodes.length + 1 := by
    rw [hs1]; simp [hsnodes]
  have hnid_s : nid = s.nodes.length := by rw [hsnodes]
  have hL1 : ∀ j, Lseg s1 j none (L j) := fun j => (hL j).append_node
  have hkey1 : s1.keyAt? nid = some key := by
    rw [hnid_s, hs1]
    exact keyAt_append_node_self
  have hheight1 : s1.heightAt nid = lvl := by
    rw [hnid_s, hs1]
    rw [heightAt_append_node_self]
    simp [hnewNd]
  have hprevs_char : ∀ j, j < lvl → prevs.getD j none = lastLt key (L j) := by
    intro j hj
    exact hgetD j (by omega) (L j) (hLsegS' j (L j) (hL j))
  have hwa1 : ∀ j, j < lvl → s1.writable (lastLt key (L j)) j := by
    intro j hj
    rcases lastLt_cases key (L j) with h | ⟨e, he, heq, _⟩
    · rw [h]
      show j < s1.next.length
      rw [hs1]
      show j < s.next.length
      rw [hsnext, hInv.head_len]
      omega
    · rw [heq]
      show j < s1.heightAt e.1
      have hmh : j < s.heightAt e.1 := hInvS.mem_height j (L j) (hL j) e he
      rw [hs1]
      rw [heightAt_append_node (by rw [hsnodes] at *; exact hvalid j e he)]
      exact hmh
  have hnext1_old : ∀ q j, (q = none ∨ ∃ id, q = some id ∧ id < s₀.nodes.length) →
      s1.nextAt q j = s₀.nextAt q j := by
    intro q j hq
    rw [hs1]
    rw [nextAt_append_node (by rw [hsnodes]; exact hq)]
    exact hnextS q j
  obtain ⟨ctxF, hAF, hBF, hSplF⟩ :=
    spliceLoop_spec L hL1
      (fun j => hsort j) habs hkey1 hheight1 hprevs_char hwa1 lvl 0 s1 (by omega)
      (LoopCtx.refl s1) (fun t _ r => rfl) (fun t ht => absurd ht (Nat.not_lt_zero _))
      (fun j hj => absurd hj (Nat.not_lt_zero _))
  set s2 := spliceLoop nid prevs s1 0 lvl with hs2
  -- `insertNew` computes exactly (nid, s2 with length+1)
  have hres : s.insertNew key v lvl prevs =
      (nid, { s2 with length := s2.length + 1 }) := by
    rw [SkipList.insertNew]
    rw [← hnid_s]
  rw [hres]
  have hLseg2 : ∀ i p l, Lseg s2 i p l →
      Lseg ({ s2 with length := s2.length + 1 } : SkipList K V) i p l :=
    fun i p l h => Lseg_set_length h
  refine ⟨rfl, ?_, ?_, ?_, ?_, ?_, ?_, ?_, ?_, ?_, ?_, ?_, ?_, ?_, ?_⟩
  · show s2.nodes.length = s₀.nodes.length + 1
    rw [ctxF.nodes_len, hs1nodes_len]
  · show s2.length + 1 = s₀.length + 1
    rw [ctxF.len_eq]
    show s1.length + 1 = s₀.length + 1
    rw [hs1]
    show s.length + 1 = s₀.length + 1
    rw [hslen]
  · show SkipList.keyAt? _ nid = some key
    have : SkipList.keyAt? { s2 with length := s2.length + 1 } nid = s2.keyAt? nid := rfl
    rw [this, ctxF.key_eq, hkey1]
  · show SkipList.valueAt? _ nid = some v
    have : SkipList.valueAt? { s2 with length := s2.length + 1 } nid = s2.valueAt? nid := rfl
    rw [this, ctxF.val_eq, hnid_s, hs1]
    rw [valueAt_append_node_self]
  · show SkipList.heightAt _ nid = lvl
    have : SkipList.heightAt { s2 with length := s2.length + 1 } nid = s2.heightAt nid := rfl
    rw [this, ctxF.height_eq, hheight1]
  · show s2.maxLevel = s₀.maxLevel
    rw [ctxF.max_eq]
    show s.maxLevel = s₀.maxLevel
    rw [hsml]
  · show s2.next.length = s₀.next.length
    rw [ctxF.next_len]
    show s.next.length = s₀.next.length
    rw [hsnext]
  · show s2.probability = s₀.probability
    rw [ctxF.prob_eq]
    show s.probability = s₀.probability
    rw [hsprob]
  · show s2.probTable = s₀.probTable
    rw [ctxF.ptab_eq]
    show s.probTable = s₀.probTable
    rw [hsptab]
  · show s2.prevNodesCache = prevs
    rw [ctxF.cache_eq]
    show s.prevNodesCache = prevs
    rw [hscache]
  · intro id hid
    have hkk : SkipList.keyAt? { s2 with length := s2.length + 1 } id = s2.keyAt? id := rfl
    have hvv : SkipList.valueAt? { s2 with length := s2.length + 1 } id = s2.valueAt? id := rfl
    have hhh : SkipList.heightAt { s2 with length := s2.length + 1 } id = s2.heightAt id := rfl
    refine ⟨?_, ?_, ?_⟩
    · rw [hkk, ctxF.key_eq, hs1]
      rw [keyAt_append_node (by rw [hsnodes]; exact hid)]
      exact hkeyS id
    · rw [hvv, ctxF.val_eq, hs1]
      rw [valueAt_append_node (by rw [hsnodes]; exact hid)]
      exact hvalS id
    · rw [hhh, ctxF.height_eq, hs1]
      rw [heightAt_append_node (by rw [hsnodes]; exact hid)]
      exact hheightS id
  · intro t l h ht
    rw [hLuniq t l h]
    exact hLseg2 _ _ _ (hBF t ht)
  · intro t l h ht
    rw [hLuniq t l h]
    refine hLseg2 _ _ _ ((hL1 t).of_untouched ?_ (fun id => ctxF.key_eq id))
    intro r
    exact hAF t ht r
  · intro i hi
    obtain ⟨h1, h2⟩ := hSplF i hi
    have hq_old : prevs.getD i none = none ∨
        ∃ id, prevs.getD i none = some id ∧ id < s₀.nodes.length := by
      rw [hprevs_char i hi]
      rcases lastLt_cases key (L i) with h | ⟨e, he, heq, _⟩
      · exact Or.inl h
      · exact Or.inr ⟨e.1, heq, hvalid i e he⟩
    constructor
    · show SkipList.nextAt { s2 with length := s2.length + 1 } _ i = some nid
      have : SkipList.nextAt { s2 with length := s2.length + 1 } (prevs.getD i none) i =
          s2.nextAt (prevs.getD i none) i := rfl
      rw [this]
      exact h1
    · show SkipList.nextAt { s2 with length := s2.length + 1 } _ i = _
      have : SkipList.nextAt { s2 with length := s2.length + 1 } (some nid) i =
          s2.nextAt (some nid) i := rfl
      rw [this, h2]
      exact hnext1_old _ i hq_old

/-! ## Invariant preservation of `Set` -/

theorem nextAt_set_value {s : SkipList K V} {nid : Nat} {nd : Element K V} {v : V}
    {cache : List (Option Nat)} (hnd : s.nodes[nid]? = some nd) (q : Option Nat) (j : Nat) :
    SkipList.nextAt
      { s with prevNodesCache := cache, nodes := s.nodes.set nid { nd with value := v } }
      q j = s.nextAt q j := by
  have hlen := lt_of_getElem?_some hnd
  cases q with
  | none => rfl
  | some id =>
    by_cases hid : nid = id
    · subst hid
      simp [SkipList.nextAt, List.getElem?_set_self hlen, hnd]
    · simp [SkipList.nextAt, List.getElem?_set_ne hid]

theorem keyAt_set_value {s : SkipList K V} {nid : Nat} {nd : Element K V} {v : V}
    {cache : List (Option Nat)} (hnd : s.nodes[nid]? = some nd) (id : Nat) :
    SkipList.keyAt?
      { s with prevNodesCache := cache, nodes := s.nodes.set nid { nd with value := v } }
      id = s.keyAt? id := by
  have hlen := lt_of_getElem?_some hnd
  by_cases hid : nid = id
  · subst hid
    simp [SkipList.keyAt?, List.getElem?_set_self hlen, hnd]
  · simp [SkipList.keyAt?, List.getElem?_set_ne hid]

theorem heightAt_set_value {s : SkipList K V} {nid : Nat} {nd : Element K V} {v : V}
    {cache : List (Option Nat)} (hnd : s.nodes[nid]? = some nd) (id : Nat) :
    SkipList.heightAt
      { s with prevNodesCache := cache, nodes := s.nodes.set nid { nd with value := v } }
      id = s.heightAt id := by
  have hlen := lt_of_getElem?_some hnd
  by_cases hid : nid = id
  · subst hid
    simp [SkipList.heightAt, List.getElem?_set_self hlen, hnd]
  · simp [SkipList.heightAt, List.getElem?_set_ne hid]

theorem valueAt_set_value_self {s : SkipList K V} {nid : Nat} {nd : Element K V} {v : V}
    {cache : List (Option Nat)} (hnd : s.nodes[nid]? = some nd) :
    SkipList.valueAt?
      { s with prevNodesCache := cache, nodes := s.nodes.set nid { nd with value := v } }
      nid = some v := by
  have hlen := lt_of_getElem?_some hnd
  simp [SkipList.valueAt?, List.getElem?_set_self hlen]

theorem valueAt_set_value_other {s : SkipList K V} {nid : Nat} {nd : Element K V} {v : V}
    {cache : List (Option Nat)} (hnd : s.nodes[nid]? = some nd) {id : Nat}
    (hid : nid ≠ id) :
    SkipList.valueAt?
      { s with prevNodesCache := cache, nodes := s.nodes.set nid { nd with value := v } }
      id = s.valueAt? id := by
  simp [SkipList.valueAt?, List.getElem?_set_ne hid]

/-- The update path of `Set` keeps the invariant (only one value changed). -/
theorem Inv.set_update {s₀ : SkipList K V} (hInv : Inv s₀) (key : K) (v : V) (lvl : Nat)
    {l0 : List (Nat × K)} (hl0 : Lseg s₀ 0 none l0) {nid : Nat}
    (hpres : (nid, key) ∈ l0) : Inv (s₀.set key v lvl).2 := by
  obtain ⟨nd, hnd, hndkey, heq⟩ := set_eq_update hInv key v lvl hl0 hpres
  rw [heq]
  obtain ⟨_, hprlen, _, _⟩ := gpen_state_spec hInv key
  refine hInv.transfer rfl rfl ?_ rfl ?_ (nextAt_set_value hnd) (keyAt_set_value hnd)
    (heightAt_set_value hnd)
  · show (s₀.getPrevElementNodes key).1.length = s₀.prevNodesCache.length
    rw [hprlen, hInv.cache_len]
  · intro nd' hnd'
    rcases List.mem_or_eq_of_mem_set hnd' with h | h
    · exact hInv.height_le nd' h
    · rw [h]
      exact hInv.height_le nd (List.getElem?_mem hnd)

/-- The insert path of `Set` keeps the invariant. -/
theorem Inv.set_insert {s₀ : SkipList K V} (hInv : Inv s₀) (key : K) (v : V) {lvl : Nat}
    (hl1 : 1 ≤ lvl) (hl2 : lvl ≤ s₀.maxLevel)
    {l0 : List (Nat × K)} (hl0 : Lseg s₀ 0 none l0)
    (habsent : ∀ e ∈ l0, e.2 ≠ key) : Inv (s₀.set key v lvl).2 := by
  obtain ⟨hres1, hnodlen, hlen, hkeyn, hvaln, hheightn, hml, hnl, _, _, hcache, hold,
    hspliced, huntouched, _⟩ := insert_spec hInv key v hl1 hl2 hl0 habsent
  obtain ⟨_, hprlen, _, _⟩ := gpen_state_spec hInv key
  set nid := s₀.nodes.length with hnid
  set sF := (s₀.set key v lvl).2 with hsF
  choose L₀ hL₀ using hInv.chain_ex
  have habs_lvl : ∀ i, ∀ e ∈ L₀ i, e.2 ≠ key := by
    intro i e he
    exact habsent e (hInv.mem_zero i (L₀ i) (hL₀ i) e he l0 hl0)
  have hvalid₀ : ∀ i, ∀ e ∈ L₀ i, e.1 < s₀.nodes.length := by
    intro i e he
    exact SkipList.lt_length_of_keyAt? ((hL₀ i).keyAt_of_mem e he)
  -- the chains of the new state
  have hchainF : ∀ i, Lseg sF i none
      (if i < lvl then splicedChain key nid (L₀ i) else L₀ i) := by
    intro i
    by_cases hi : i < lvl
    · rw [if_pos hi]
      exact hspliced i (L₀ i) (hL₀ i) hi
    · rw [if_neg hi]
      exact huntouched i (L₀ i) (hL₀ i) (by omega)
  have hkeyF_old : ∀ i, ∀ e ∈ L₀ i, sF.keyAt? e.1 = some e.2 := by
    intro i e he
    rw [(hold e.1 (hvalid₀ i e he)).1]
    exact (hL₀ i).keyAt_of_mem e he
  have hheightF_old : ∀ e1, e1 < s₀.nodes.length → sF.heightAt e1 = s₀.heightAt e1 :=
    fun e1 he1 => (hold e1 he1).2.2
  refine ⟨?_, ?_, ?_, ?_, ?_, ?_, ?_, ?_, ?_, ?_⟩
  · rw [hml]; exact hInv.max_pos
  · rw [hnl, hml]; exact hInv.head_len
  · rw [hcache, hprlen, hml]
  · intro nd' hnd'
    obtain ⟨id, hid⟩ := List.getElem?_of_mem hnd'
    have hidlen : id < sF.nodes.length := lt_of_getElem?_some hid
    have hh : nd'.next.length = sF.heightAt id := (heightAt_eq_of_getElem? hid).symm
    rw [hh, hml]
    rcases Nat.lt_or_ge id s₀.nodes.length with h | h
    · rw [hheightF_old id h]
      cases hnd₀ : s₀.nodes[id]? with
      | none => rw [SkipList.heightAt, hnd₀]; simp
      | some nd₀ =>
        rw [heightAt_eq_of_getElem? hnd₀]
        exact hInv.height_le nd₀ (List.getElem?_mem hnd₀)
    · have : id = nid := by rw [hnodlen] at hidlen; omega
      rw [this, hheightn]
      exact hl2
  · intro i
    exact ⟨_, hchainF i⟩
  · intro i l h
    rw [lseg_unique h (hchainF i)]
    by_cases hi : i < lvl
    · rw [if_pos hi]
      exact splicedChain_sorted (hInv.chain_sorted i (L₀ i) (hL₀ i)) (habs_lvl i)
    · rw [if_neg hi]
      exact hInv.chain_sorted i (L₀ i) (hL₀ i)
  · intro i l h e he
    rw [lseg_unique h (hchainF i)] at he
    by_cases hi : i < lvl
    · rw [if_pos hi] at he
      rcases mem_splicedChain.mp he with rfl | he'
      · rw [hheightn]
        exact hi
      · rw [hheightF_old e.1 (hvalid₀ i e he')]
        exact hInv.mem_height i (L₀ i) (hL₀ i) e he'
    · rw [if_neg hi] at he
      rw [hheightF_old e.1 (hvalid₀ i e he)]
      exact hInv.mem_height i (L₀ i) (hL₀ i) e he
  · intro i l h e he l0' h0'
    rw [lseg_unique h (hchainF i)] at he
    rw [lseg_unique h0' (hchainF 0)] at *
    rw [if_pos (by omega : 0 < lvl)]
    have hmem0 : ∀ e', e' ∈ L₀ i → e' ∈ splicedChain key nid (L₀ 0) := by
      intro e' he'
      exact mem_splicedChain.mpr (Or.inr
        (by rw [lseg_unique hl0 (hL₀ 0)] at *
            exact hInv.mem_zero i (L₀ i) (hL₀ i) e' he' (L₀ 0) (hL₀ 0)))
    by_cases hi : i < lvl
    · rw [if_pos hi] at he
      rcases mem_splicedChain.mp he with rfl | he'
      · exact mem_splicedChain.mpr (Or.inl rfl)
      · exact hmem0 e he'
    · rw [if_neg hi] at he
      exact hmem0 e he
  · intro l0' h0' e he i hh hi l h
    rw [lseg_unique h0' (hchainF 0)] at he
    rw [lseg_unique h (hchainF i)]
    rw [if_pos (by omega : 0 < lvl)] at he
    rcases mem_splicedChain.mp he with rfl | he'
    · have : i < lvl := by rw [hheightn] at hh; exact hh
      rw [if_pos this]
      exact mem_splicedChain.mpr (Or.inl rfl)
    · have he0 : e ∈ l0 := by
        rw [lseg_unique hl0 (hL₀ 0)]
        exact he'
      have hhi : i < s₀.heightAt e.1 := by
        rw [hheightF_old e.1 (hvalid₀ 0 e he')] at hh
        exact hh
      have hmemi : e ∈ L₀ i :=
        hInv.full_height l0 hl0 e he0 i hhi (by rw [hml] at hi; exact hi) (L₀ i) (hL₀ i)
      by_cases hilvl : i < lvl
      · rw [if_pos hilvl]
        exact mem_splicedChain.mpr (Or.inr hmemi)
      · rw [if_neg hilvl]
        exact hmemi
  · intro l0' h0'
    rw [lseg_unique h0' (hchainF 0), if_pos (by omega : 0 < lvl), splicedChain_length]
    rw [hlen]
    have : s₀.length = (L₀ 0).length := by
      rw [hInv.len_eq (L₀ 0) (hL₀ 0)]
    omega

/-! ## Path analysis of `Remove` -/

theorem removedChain_sublist (key : K) (l : List (Nat × K)) :
    (removedChain key l).Sublist l := by
  have hsplit : ltPart key l ++ gePart key l = l := List.takeWhile_append_dropWhile ..
  rw [removedChain]
  conv_rhs => rw [← hsplit]
  exact (List.Sublist.refl _).append (List.tail_sublist _)

theorem removedChain_keys_ne {key : K} {l : List (Nat × K)}
    (hsort : (chainKeys l).Sorted (· < ·)) :
    ∀ e ∈ removedChain key l, e.2 ≠ key := by
  intro e he
  rcases List.mem_append.mp he with h | h
  · have := mem_ltPart_lt h
    exact fun hc => absurd this (by rw [hc]; exact lt_irrefl key)
  · cases hge : gePart key l with
    | nil => rw [hge] at h; cases h
    | cons e0 t =>
      rw [hge] at h
      have hsge : (chainKeys (gePart key l)).Sorted (· < ·) := sorted_gePart hsort
      rw [hge] at hsge
      obtain ⟨hlt, _⟩ := sorted_chain_cons.mp hsge
      have h1 : e0.2 < e.2 := hlt e h
      have h2 : key ≤ e0.2 := gePart_head_ge hge
      exact fun hc => absurd (lt_of_le_of_lt h2 h1) (by rw [hc]; exact lt_irrefl key)

theorem mem_removedChain_of {key : K} {l : List (Nat × K)} {nid : Nat}
    (hsort : (chainKeys l).Sorted (· < ·)) (hkeymem : (nid, key) ∈ l)
    {e : Nat × K} (he : e ∈ l) (hne : e.2 ≠ key) : e ∈ removedChain key l := by
  have hsplit : ltPart key l ++ gePart key l = l := List.takeWhile_append_dropWhile ..
  obtain ⟨t, hge⟩ := gePart_head_of_mem hsort hkeymem
  rw [removedChain, hge]
  have he' : e ∈ ltPart key l ++ gePart key l := by rw [hsplit]; exact he
  rcases List.mem_append.mp he' with h | h
  · exact List.mem_append_left _ h
  · rw [hge] at h
    rcases List.mem_cons.mp h with rfl | ht
    · exact absurd rfl hne
    · exact List.mem_append_right _ (by simpa using ht)

theorem removedChain_length {key : K} {l : List (Nat × K)} {nid : Nat}
    {t : List (Nat × K)} (hge : gePart key l = (nid, key) :: t) :
    (removedChain key l).length + 1 = l.length := by
  have hsplit : ltPart key l ++ gePart key l = l := List.takeWhile_append_dropWhile ..
  have hlen := congrArg List.length hsplit
  rw [removedChain, hge]
  rw [hge] at hlen
  simp at hlen ⊢
  omega

theorem remove_eq_miss {s₀ : SkipList K V} (hInv : Inv s₀) (key : K)
    {l0 : List (Nat × K)} (hl0 : Lseg s₀ 0 none l0)
    (habsent : ∀ e ∈ l0, e.2 ≠ key) :
    s₀.remove key = (none, (s₀.getPrevElementNodes key).2) := by
  rcases candidate_absent hInv key hl0 habsent with hcand | ⟨m, nd, hcand, hnd, hkey⟩
  · rw [SkipList.remove]
    simp only [hcand]
  · rw [SkipList.remove]
    simp only [hcand]
    have hnd' : (s₀.getPrevElementNodes key).2.nodes[m]? = some nd := hnd
    simp only [hnd']
    rw [if_neg hkey]

theorem remove_eq_hit {s₀ : SkipList K V} (hInv : Inv s₀) (key : K)
    {l0 : List (Nat × K)} (hl0 : Lseg s₀ 0 none l0) {nid : Nat}
    (hpres : (nid, key) ∈ l0) :
    ∃ nd, s₀.nodes[nid]? = some nd ∧ nd.key = key ∧
      s₀.remove key = (some nid,
        { unlinkLoop (s₀.getPrevElementNodes key).1 (s₀.getPrevElementNodes key).2 0 nd.next
            with length :=
          (unlinkLoop (s₀.getPrevElementNodes key).1 (s₀.getPrevElementNodes key).2 0
            nd.next).length - 1 }) := by
  obtain ⟨hcand, nd, hnd, hndkey⟩ := candidate_present hInv key hl0 hpres
  refine ⟨nd, hnd, hndkey, ?_⟩
  rw [SkipList.remove]
  simp only [hcand]
  have hnd' : (s₀.getPrevElementNodes key).2.nodes[nid]? = some nd := hnd
  simp only [hnd']
  rw [if_pos (le_of_eq hndkey)]

/-- Full description of `Remove` on a present key. -/
theorem remove_spec {s₀ : SkipList K V} (hInv : Inv s₀) (key : K)
    {l0 : List (Nat × K)} (hl0 : Lseg s₀ 0 none l0) {nid : Nat}
    (hpres : (nid, key) ∈ l0) :
    (s₀.remove key).1 = some nid ∧
    (s₀.remove key).2.length + 1 = s₀.length ∧
    1 ≤ s₀.length ∧
    (s₀.remove key).2.nodes.length = s₀.nodes.length ∧
    (s₀.remove key).2.maxLevel = s₀.maxLevel ∧
    (s₀.remove key).2.next.length = s₀.next.length ∧
    (s₀.remove key).2.probability = s₀.probability ∧
    (s₀.remove key).2.probTable = s₀.probTable ∧
    (s₀.remove key).2.prevNodesCache = (s₀.getPrevElementNodes key).1 ∧
    (∀ id, (s₀.remove key).2.keyAt? id = s₀.keyAt? id ∧
      (s₀.remove key).2.valueAt? id = s₀.valueAt? id ∧
      (s₀.remove key).2.heightAt id = s₀.heightAt id) ∧
    (∀ t l, Lseg s₀ t none l → t < s₀.heightAt nid →
      Lseg (s₀.remove key).2 t none (removedChain key l)) ∧
    (∀ t l, Lseg s₀ t none l → s₀.heightAt nid ≤ t →
      Lseg (s₀.remove key).2 t none l) ∧
    (∀ k, k < s₀.heightAt nid →
      (s₀.remove key).2.nextAt ((s₀.getPrevElementNodes key).1.getD k none) k =
        s₀.nextAt (some nid) k) := by
  obtain ⟨hpr2, hprlen, hInvS, hgetD⟩ := gpen_state_spec hInv key
  obtain ⟨nd, hnd, hndkey, heq⟩ := remove_eq_hit hInv key hl0 hpres
  rw [heq]
  set prevs := (s₀.getPrevElementNodes key).1 with hprevs_def
  set s := (s₀.getPrevElementNodes key).2 with hs_def
  have hsnodes : s.nodes = s₀.nodes := by rw [hpr2]
  have hsnext : s.next = s₀.next := by rw [hpr2]
  have hsml : s.maxLevel = s₀.maxLevel := by rw [hpr2]
  have hslen : s.length = s₀.length := by rw [hpr2]
  have hnextS : ∀ q j, s.nextAt q j = s₀.nextAt q j := fun q j => by rw [hpr2]; rfl
  have hkeyS : ∀ id, s.keyAt? id = s₀.keyAt? id := fun id => by rw [hpr2]; rfl
  have hvalS : ∀ id, s.valueAt? id = s₀.valueAt? id := fun id => by rw [hpr2]; rfl
  have hheightS : ∀ id, s.heightAt id = s₀.heightAt id := fun id => by rw [hpr2]; rfl
  have hLsegS : ∀ i l, Lseg s₀ i none l → Lseg s i none l := by
    intro i l h
    exact h.of_untouched (fun r => hnextS r i) hkeyS
  have hLsegS' : ∀ i l, Lseg s i none l → Lseg s₀ i none l := by
    intro i l h
    exact h.of_untouched (fun r => (hnextS r i).symm) (fun id => (hkeyS id).symm)
  choose L hL using hInvS.chain_ex
  have hLuniq : ∀ t l, Lseg s₀ t none l → l = L t := fun t l h =>
    lseg_unique (hLsegS t l h) (hL t)
  have hsort : ∀ j, (chainKeys (L j)).Sorted (· < ·) := fun j =>
    hInvS.chain_sorted j (L j) (hL j)
  set h' := nd.next.length with hh'
  have hhnid : s₀.heightAt nid = h' := heightAt_eq_of_getElem? hnd
  have hndS : s.nodes[nid]? = some nd := by rw [hsnodes]; exact hnd
  have hh'max : h' ≤ s₀.maxLevel := hInv.height_le nd (List.getElem?_mem hnd)
  have hmemL : ∀ j, j < h' → (nid, key) ∈ L j := by
    intro j hj
    have hs0 : (nid, key) ∈ L 0 := by rw [← hLuniq 0 l0 hl0]; exact hpres
    refine hInvS.full_height (L 0) (hL 0) (nid, key) hs0 j ?_ ?_ (L j) (hL j)
    · show j < s.heightAt nid
      rw [hheightS, hhnid]
      exact hj
    · rw [hsml]
      omega
  have hprevs_char : ∀ j, j < h' → prevs.getD j none = lastLt key (L j) := by
    intro j hj
    exact hgetD j (by omega) (L j) (hLsegS' j (L j) (hL j))
  have hwa : ∀ j, j < h' → s.writable (lastLt key (L j)) j := by
    intro j hj
    rcases lastLt_cases key (L j) with h | ⟨e, he, heqq, _⟩
    · rw [h]
      show j < s.next.length
      rw [hsnext, hInv.head_len]
      omega
    · rw [heqq]
      show j < s.heightAt e.1
      exact hInvS.mem_height j (L j) (hL j) e he
  obtain ⟨ctxF, hAF, hBF, hSplF⟩ :=
    unlinkLoop_spec L hL hsort hndS hh'.symm hmemL hprevs_char hwa nd.next 0 s
      (by simp) (by simp) (LoopCtx.refl s) (fun t _ r => rfl)
      (fun t ht => absurd ht (Nat.not_lt_zero _)) (fun j hj => absurd hj (Nat.not_lt_zero _))
  set s2 := unlinkLoop prevs s 0 nd.next with hs2
  have hlen1 : 1 ≤ s₀.length := by
    rw [hInv.len_eq l0 hl0]
    cases l0 with
    | nil => cases hpres
    | cons a t => simp
  have hgech : ∀ t l, Lseg s₀ t none l →
      removedChain key l = ltPart key l ++ (gePart key l).tail := fun _ _ _ => rfl
  refine ⟨rfl, ?_, hlen1, ?_, ?_, ?_, ?_, ?_, ?_, ?_, ?_, ?_, ?_⟩
  · show s2.length - 1 + 1 = s₀.length
    rw [ctxF.len_eq, hslen]
    omega
  · show s2.nodes.length = s₀.nodes.length
    rw [ctxF.nodes_len, hsnodes]
  · show s2.maxLevel = s₀.maxLevel
    rw [ctxF.max_eq, hsml]
  · show s2.next.length = s₀.next.length
    rw [ctxF.next_len, hsnext]
  · show s2.probability = s₀.probability
    rw [ctxF.prob_eq, hpr2]
  · show s2.probTable = s₀.probTable
    rw [ctxF.ptab_eq, hpr2]
  · show s2.prevNodesCache = prevs
    rw [ctxF.cache_eq, hpr2]
  · intro id
    exact ⟨by rw [show SkipList.keyAt? { s2 with length := s2.length - 1 } id =
          s2.keyAt? id from rfl, ctxF.key_eq, hkeyS],
      by rw [show SkipList.valueAt? { s2 with length := s2.length - 1 } id =
          s2.valueAt? id from rfl, ctxF.val_eq, hvalS],
      by rw [show SkipList.heightAt { s2 with length := s2.length - 1 } id =
          s2.heightAt id from rfl, ctxF.height_eq, hheightS]⟩
  · intro t l h ht
    have hBt := hBF t (by rw [hhnid] at ht; exact ht)
    rw [hLuniq t l h]
    exact Lseg_set_length hBt
  · intro t l h ht
    rw [hLuniq t l h]
    refine Lseg_set_length ?_
    refine (hL t).of_untouched ?_ (fun id => ctxF.key_eq id)
    intro r
    exact hAF t (by rw [hhnid] at ht; exact ht) r
  · intro k hk
    rw [hhnid] at hk
    have := hSplF k hk
    rw [show SkipList.nextAt { s2 with length := s2.length - 1 } (prevs.getD k none) k =
        s2.nextAt (prevs.getD k none) k from rfl, this]
    exact hnextS (some nid) k

theorem removedChain_sorted {key : K} {l : List (Nat × K)}
    (hs : (chainKeys l).Sorted (· < ·)) :
    (chainKeys (removedChain key l)).Sorted (· < ·) :=
  List.Pairwise.sublist ((removedChain_sublist key l).map Prod.snd) hs

theorem sorted_entry_unique {l : List (Nat × K)}
    (hs : (chainKeys l).Sorted (· < ·)) {e1 e2 : Nat × K}
    (h1 : e1 ∈ l) (h2 : e2 ∈ l) (hk : e1.2 = e2.2) : e1 = e2 := by
  induction l with
  | nil => cases h1
  | cons a t ih =>
    obtain ⟨hhead, htail⟩ := sorted_chain_cons.mp hs
    rcases List.mem_cons.mp h1 with rfl | h1t
    · rcases List.mem_cons.mp h2 with rfl | h2t
      · rfl
      · exact absurd (hhead e2 h2t) (by rw [hk]; exact lt_irrefl _)
    · rcases List.mem_cons.mp h2 with rfl | h2t
      · exact absurd (hhead e1 h1t) (by rw [hk]; exact lt_irrefl _)
      · exact ih htail h1t h2t

/-- `Remove` on a present key keeps the invariant. -/
theorem Inv.remove_hit {s₀ : SkipList K V} (hInv : Inv s₀) (key : K)
    {l0 : List (Nat × K)} (hl0 : Lseg s₀ 0 none l0) {nid : Nat}
    (hpres : (nid, key) ∈ l0) : Inv (s₀.remove key).2 := by
  obtain ⟨_, hlen, hlen1, hnodlen, hml, hnl, _, _, hcache, hindiv, hremoved,
    huntouched, _⟩ := remove_spec hInv key hl0 hpres
  obtain ⟨_, hprlen, _, _⟩ := gpen_state_spec hInv key
  set sF := (s₀.remove key).2 with hsF
  set hh := s₀.heightAt nid with hhdef
  choose L₀ hL₀ using hInv.chain_ex
  have hl0L : l0 = L₀ 0 := lseg_unique hl0 (hL₀ 0)
  have hpres0 : (nid, key) ∈ L₀ 0 := hl0L ▸ hpres
  have hsort₀ : ∀ i, (chainKeys (L₀ i)).Sorted (· < ·) := fun i =>
    hInv.chain_sorted i (L₀ i) (hL₀ i)
  have hh_pos : 0 < hh := hInv.mem_height 0 (L₀ 0) (hL₀ 0) (nid, key) hpres0
  have hmem_height_nid : ∀ i, (∃ k', (nid, k') ∈ L₀ i) → i < hh := by
    intro i ⟨k', hk'⟩
    have := hInv.mem_height i (L₀ i) (hL₀ i) (nid, k') hk'
    exact this
  have hchainF : ∀ i, Lseg sF i none
      (if i < hh then removedChain key (L₀ i) else L₀ i) := by
    intro i
    by_cases hi : i < hh
    · rw [if_pos hi]
      exact hremoved i (L₀ i) (hL₀ i) hi
    · rw [if_neg hi]
      exact huntouched i (L₀ i) (hL₀ i) (by omega)
  have hkey_nid_i : ∀ i, i < hh → i < s₀.maxLevel → (nid, key) ∈ L₀ i := by
    intro i hi himax
    exact hInv.full_height (L₀ 0) (hL₀ 0) (nid, key) hpres0 i hi himax (L₀ i) (hL₀ i)
  have hne_key : ∀ i e, e ∈ L₀ i → e.2 = key → e = (nid, key) := by
    intro i e he hek
    have he0 : e ∈ L₀ 0 := hInv.mem_zero i (L₀ i) (hL₀ i) e he (L₀ 0) (hL₀ 0)
    exact sorted_entry_unique (hsort₀ 0) he0 hpres0 (by rw [hek])
  refine ⟨?_, ?_, ?_, ?_, ?_, ?_, ?_, ?_, ?_, ?_⟩
  · rw [hml]; exact hInv.max_pos
  · rw [hnl, hml]; exact hInv.head_len
  · rw [hcache, hprlen, hml]
  · intro nd' hnd'
    obtain ⟨id, hid⟩ := List.getElem?_of_mem hnd'
    have hidlen : id < sF.nodes.length := lt_of_getElem?_some hid
    have hh2 : nd'.next.length = sF.heightAt id := (heightAt_eq_of_getElem? hid).symm
    rw [hh2, hml, (hindiv id).2.2]
    rw [hnodlen] at hidlen
    have hs₀id : ∃ nd₀, s₀.nodes[id]? = some nd₀ := by
      cases hx : s₀.nodes[id]? with
      | none =>
        rw [List.getElem?_eq_none_iff] at hx
        omega
      | some nd₀ => exact ⟨nd₀, rfl⟩
    obtain ⟨nd₀, hnd₀⟩ := hs₀id
    rw [heightAt_eq_of_getElem? hnd₀]
    exact hInv.height_le nd₀ (List.getElem?_mem hnd₀)
  · intro i
    exact ⟨_, hchainF i⟩
  · intro i l h
    rw [lseg_unique h (hchainF i)]
    by_cases hi : i < hh
    · rw [if_pos hi]
      exact removedChain_sorted (hsort₀ i)
    · rw [if_neg hi]
      exact hsort₀ i
  · intro i l h e he
    rw [lseg_unique h (hchainF i)] at he
    have heL : e ∈ L₀ i := by
      by_cases hi : i < hh
      · rw [if_pos hi] at he
        exact (removedChain_sublist key (L₀ i)).subset he
      · rw [if_neg hi] at he
        exact he
    rw [(hindiv e.1).2.2]
    exact hInv.mem_height i (L₀ i) (hL₀ i) e heL
  · intro i l h e he l0' h0'
    rw [lseg_unique h (hchainF i)] at he
    rw [lseg_unique h0' (hchainF 0), if_pos hh_pos]
    have heL : e ∈ L₀ i ∧ e.2 ≠ key := by
      by_cases hi : i < hh
      · rw [if_pos hi] at he
        exact ⟨(removedChain_sublist key (L₀ i)).subset he,
          removedChain_keys_ne (hsort₀ i) e he⟩
      · rw [if_neg hi] at he
        refine ⟨he, ?_⟩
        intro hek
        have := hne_key i e he hek
        rw [this] at he
        exact absurd (hmem_height_nid i ⟨key, he⟩) hi
    exact mem_removedChain_of (hsort₀ 0) hpres0
      (hInv.mem_zero i (L₀ i) (hL₀ i) e heL.1 (L₀ 0) (hL₀ 0)) heL.2
  · intro l0' h0' e he i hhe hi l h
    rw [lseg_unique h0' (hchainF 0), if_pos hh_pos] at he
    rw [lseg_unique h (hchainF i)]
    have he0 : e ∈ L₀ 0 := (removedChain_sublist key (L₀ 0)).subset he
    have hek : e.2 ≠ key := removedChain_keys_ne (hsort₀ 0) e he
    rw [(hindiv e.1).2.2] at hhe
    rw [hml] at hi
    have hmemi : e ∈ L₀ i :=
      hInv.full_height (L₀ 0) (hL₀ 0) e he0 i hhe hi (L₀ i) (hL₀ i)
    by_cases hilt : i < hh
    · rw [if_pos hilt]
      exact mem_removedChain_of (hsort₀ i) (hkey_nid_i i hilt hi) hmemi hek
    · rw [if_neg hilt]
      exact hmemi
  · intro l0' h0'
    rw [lseg_unique h0' (hchainF 0), if_pos hh_pos]
    obtain ⟨t, hge⟩ := gePart_head_of_mem (hsort₀ 0) hpres0
    have := removedChain_length hge
    have hlen0 : s₀.length = (L₀ 0).length := hInv.len_eq (L₀ 0) (hL₀ 0)
    omega

/-! ## Preservation, the fresh list, and operation sequences -/

theorem mem_key_pair {l : List (Nat × K)} {e : Nat × K} {key : K}
    (he : e ∈ l) (hek : e.2 = key) : (e.1, key) ∈ l := by
  have : (e.1, key) = e := by
    rw [← hek]
  rw [this]
  exact he

/-- `Set` with a height `randLevel` could produce keeps the invariant and
the configuration. -/
theorem set_preserves {s₀ : SkipList K V} (hInv : Inv s₀) (key : K) (v : V) {lvl : Nat}
    (hl1 : 1 ≤ lvl) (hl2 : lvl ≤ s₀.maxLevel) :
    Inv (s₀.set key v lvl).2 ∧ (s₀.set key v lvl).2.maxLevel = s₀.maxLevel := by
  obtain ⟨l0, hl0⟩ := hInv.chain_ex 0
  by_cases hp : ∃ e ∈ l0, e.2 = key
  · obtain ⟨e, he, hek⟩ := hp
    have hpres : (e.1, key) ∈ l0 := mem_key_pair he hek
    obtain ⟨nd, _, _, heq⟩ := set_eq_update hInv key v lvl hl0 hpres
    refine ⟨hInv.set_update key v lvl hl0 hpres, ?_⟩
    rw [heq]
  · have habsent : ∀ e ∈ l0, e.2 ≠ key := by
      intro e he hek
      exact hp ⟨e, he, hek⟩
    obtain ⟨_, _, _, _, _, _, hml, _⟩ := insert_spec hInv key v hl1 hl2 hl0 habsent
    exact ⟨hInv.set_insert key v hl1 hl2 hl0 habsent, hml⟩

/-- `Remove` keeps the invariant and the configuration. -/
theorem remove_preserves {s₀ : SkipList K V} (hInv : Inv s₀) (key : K) :
    Inv (s₀.remove key).2 ∧ (s₀.remove key).2.maxLevel = s₀.maxLevel := by
  obtain ⟨l0, hl0⟩ := hInv.chain_ex 0
  by_cases hp : ∃ e ∈ l0, e.2 = key
  · obtain ⟨e, he, hek⟩ := hp
    have hpres : (e.1, key) ∈ l0 := mem_key_pair he hek
    obtain ⟨_, _, _, _, hml, _⟩ := remove_spec hInv key hl0 hpres
    exact ⟨hInv.remove_hit key hl0 hpres, hml⟩
  · have habsent : ∀ e ∈ l0, e.2 ≠ key := by
      intro e he hek
      exact hp ⟨e, he, hek⟩
    rw [remove_eq_miss hInv key hl0 habsent]
    obtain ⟨hpr2, hprlen, hInvS, _⟩ := gpen_state_spec hInv key
    exact ⟨hInvS, by rw [hpr2]⟩

/-- The fresh list produced by `New()` satisfies the invariant. -/
theorem inv_newList (K V : Type) [LinearOrder K] : Inv (newList K V) := by
  have hnone : ∀ (p : Option Nat) (i : Nat), (newList K V).nextAt p i = none := by
    intro p i
    cases p with
    | none =>
      show ((List.replicate defaultMaxLevel (none : Option Nat))[i]?).join = none
      by_cases hi : i < defaultMaxLevel
      · simp [List.getElem?_replicate, hi]
      · rw [List.getElem?_eq_none (by simpa using Nat.le_of_not_lt hi)]
        rfl
    | some id => rfl
  have hempty : ∀ i (l : List (Nat × K)), Lseg (newList K V) i none l → l = [] := by
    intro i l h
    exact lseg_unique h ⟨none, Seg.nil none, hnone none i⟩
  refine ⟨?_, ?_, ?_, ?_, ?_, ?_, ?_, ?_, ?_, ?_⟩
  · show 1 ≤ defaultMaxLevel
    rw [defaultMaxLevel]
    omega
  · show (List.replicate defaultMaxLevel (none : Option Nat)).length = defaultMaxLevel
    simp
  · show (List.replicate defaultMaxLevel (none : Option Nat)).length = defaultMaxLevel
    simp
  · intro nd hnd
    cases hnd
  · intro i
    exact ⟨[], none, Seg.nil none, hnone none i⟩
  · intro i l h
    rw [hempty i l h]
    simp [chainKeys]
  · intro i l h e he
    rw [hempty i l h] at he
    cases he
  · intro i l h e he
    rw [hempty i l h] at he
    cases he
  · intro l0 h0 e he
    rw [hempty 0 l0 h0] at he
    cases he
  · intro l0 h0
    rw [hempty 0 l0 h0]
    rfl

/-- Any invariant state satisfies the claim-level structural invariant. -/
theorem Inv.structural {s : SkipList K V} (hInv : Inv s) : StructuralInv s := by
  constructor
  · intro i
    obtain ⟨l, hl⟩ := hInv.chain_ex i
    have hs := hInv.chain_sorted i l hl
    exact ⟨l, hl, hs, hs.nodup⟩
  · obtain ⟨l0, hl0⟩ := hInv.chain_ex 0
    have hs := hInv.chain_sorted 0 l0 hl0
    exact ⟨l0, hl0, hs, hs.nodup, hInv.len_eq l0 hl0⟩

/-- Invariant and configuration preservation along any sequence of `Set`
and `Remove` calls. -/
theorem runOps_inv :
    ∀ (ops : List (SLOp K V)) (s : SkipList K V), Inv s →
      (∀ op ∈ ops, opValid s.maxLevel op = true) →
      Inv (runOps s ops) ∧ (runOps s ops).maxLevel = s.maxLevel := by
  intro ops
  induction ops with
  | nil =>
    intro s hInv _
    exact ⟨hInv, rfl⟩
  | cons op ops ih =>
    intro s hInv hvalid
    have hop := hvalid op (List.mem_cons_self _ _)
    have hrest := fun op' hop' => hvalid op' (List.mem_cons_of_mem _ hop')
    cases op with
    | set k v lvl =>
      rw [opValid, decide_eq_true_eq] at hop
      obtain ⟨hI, hM⟩ := set_preserves hInv k v hop.1 hop.2
      have hstep : runOps s (SLOp.set k v lvl :: ops) = runOps (s.set k v lvl).2 ops := rfl
      rw [hstep]
      obtain ⟨hI2, hM2⟩ := ih (s.set k v lvl).2 hI (fun op' hop' => by rw [hM]; exact hrest op' hop')
      exact ⟨hI2, by rw [hM2, hM]⟩
    | remove k =>
      obtain ⟨hI, hM⟩ := remove_preserves hInv k
      have hstep : runOps s (SLOp.remove k :: ops) = runOps (s.remove k).2 ops := rfl
      rw [hstep]
      obtain ⟨hI2, hM2⟩ := ih (s.remove k).2 hI (fun op' hop' => by rw [hM]; exact hrest op' hop')
      exact ⟨hI2, by rw [hM2, hM]⟩

/-! ## randLevel and the probability table -/

theorem probabilityTable_length (p : ℚ) (n : Nat) : (probabilityTable p n).length = n := by
  simp [probabilityTable]

theorem probabilityTable_getD (p : ℚ) {n i : Nat} (hi : i < n) :
    (probabilityTable p n).getD i 0 = p ^ i := by
  rw [probabilityTable, List.getD_eq_getElem?_getD, List.getElem?_map,
    List.getElem?_range hi]
  rfl

theorem randLevelLoop_bounds (maxLevel : Nat) (table : List ℚ) (r : ℚ) :
    ∀ (fuel level : Nat), maxLevel - level ≤ fuel → 1 ≤ level → level ≤ maxLevel →
      level ≤ randLevelLoop maxLevel table r level ∧
      randLevelLoop maxLevel table r level ≤ maxLevel ∧
      (randLevelLoop maxLevel table r level < maxLevel →
        ¬ r < table.getD (randLevelLoop maxLevel table r level) 0) ∧
      (r < table.getD (level - 1) 0 →
        r < table.getD (randLevelLoop maxLevel table r level - 1) 0) := by
  intro fuel
  induction fuel with
  | zero =>
    intro level hfuel h1 h2
    have hlv : level = maxLevel := by omega
    rw [randLevelLoop, if_neg (by omega)]
    exact ⟨le_rfl, h2, fun h => absurd hlv (by omega), fun h => h⟩
  | succ fuel ih =>
    intro level hfuel h1 h2
    by_cases hcond : level < maxLevel ∧ r < table.getD level 0
    · rw [randLevelLoop, if_pos hcond]
      obtain ⟨ih1, ih2, ih3, ih4⟩ := ih (level + 1) (by omega) (by omega) (by omega)
      refine ⟨by omega, ih2, ih3, fun _ => ih4 (by simpa using hcond.2)⟩
    · rw [randLevelLoop, if_neg hcond]
      refine ⟨le_rfl, h2, ?_, fun h => h⟩
      intro hl hr
      exact hcond ⟨hl, hr⟩

/-- Claim C6: for a list with probability in `(0,1)`, `maxLevel ≥ 1` and
`probTable` the powers table of length `maxLevel`, and a draw `r ∈ [0,1)`,
`randLevel` returns a level in `[1, maxLevel]` that is the largest level
with `r < probTable[level-1]`, scanning upward from level 1 while
`level < maxLevel && r < probTable[level]`. -/
theorem claim_C6 {s : SkipList K V} (hp0 : 0 < s.probability)
    (hp1 : s.probability < 1) (hml : 1 ≤ s.maxLevel)
    (htab : s.probTable = probabilityTable s.probability s.maxLevel)
    {r : ℚ} (hr0 : 0 ≤ r) (hr1 : r < 1) :
    1 ≤ s.randLevel r ∧ s.randLevel r ≤ s.maxLevel ∧
    r < s.probTable.getD (s.randLevel r - 1) 0 ∧
    (∀ lvl, 1 ≤ lvl → lvl ≤ s.maxLevel → r < s.probTable.getD (lvl - 1) 0 →
      lvl ≤ s.randLevel r) := by
  obtain ⟨h1, h2, h3, h4⟩ :=
    randLevelLoop_bounds s.maxLevel s.probTable r s.maxLevel 1 (by omega) le_rfl hml
  have hgetD : ∀ j, j < s.maxLevel → s.probTable.getD j 0 = s.probability ^ j := by
    intro j hj
    rw [htab]
    exact probabilityTable_getD s.probability hj
  have hres : r < s.probTable.getD (s.randLevel r - 1) 0 := by
    apply h4
    show r < s.probTable.getD 0 0
    rw [hgetD 0 (by omega), pow_zero]
    exact hr1
  refine ⟨h1, h2, hres, ?_⟩
  intro lvl hlvl1 hlvl2 hlt
  by_contra hgt
  push_neg at hgt
  have hrl : s.randLevel r < s.maxLevel := by omega
  have hstop := h3 hrl
  apply hstop
  have hmono : s.probability ^ (lvl - 1) ≤ s.probability ^ (s.randLevel r) :=
    pow_le_pow_of_le_one (le_of_lt hp0) (le_of_lt hp1) (by omega)
  rw [hgetD (randLevelLoop s.maxLevel s.probTable r 1) hrl]
  rw [hgetD (lvl - 1) (by omega)] at hlt
  exact lt_of_lt_of_le hlt hmono

/-! ## SetMaxLevel -/

/-- Claim C7: `SetMaxLevel(newLevel)` fails (returns `false`, no change)
unless `1 ≤ newLevel ≤ 64`, is a no-op returning `false` when `newLevel`
equals the current `maxLevel`, truncates `head.next` and `prevNodesCache`
and regenerates the table when shrinking, reallocates both (copying the
head entries) and regenerates the table when growing, and in every
successful case the resulting `probTable` has length the new `maxLevel`. -/
theorem claim_C7 (s : SkipList K V) (newLevel : Int) :
    ((newLevel < 1 ∨ 64 < newLevel) → s.setMaxLevel newLevel = (false, s)) ∧
    (newLevel = (s.maxLevel : Int) → s.setMaxLevel newLevel = (false, s)) ∧
    (1 ≤ newLevel → newLevel ≤ 64 → newLevel < (s.maxLevel : Int) →
      s.setMaxLevel newLevel = (true,
        { s with
            next := s.next.take newLevel.toNat,
            prevNodesCache := s.prevNodesCache.take newLevel.toNat,
            probTable := probabilityTable s.probability newLevel.toNat,
            maxLevel := newLevel.toNat })) ∧
    (1 ≤ newLevel → newLevel ≤ 64 → (s.maxLevel : Int) < newLevel →
      s.setMaxLevel newLevel = (true,
        { s with
            next := copyResize s.next newLevel.toNat,
            prevNodesCache := List.replicate newLevel.toNat none,
            probTable := probabilityTable s.probability newLevel.toNat,
            maxLevel := newLevel.toNat })) ∧
    ((s.setMaxLevel newLevel).1 = true →
      (s.setMaxLevel newLevel).2.probTable.length = (s.setMaxLevel newLevel).2.maxLevel) := by
  refine ⟨?_, ?_, ?_, ?_, ?_⟩
  · intro h
    rw [SkipList.setMaxLevel, if_pos (by omega)]
  · intro h
    rw [SkipList.setMaxLevel, if_pos (Or.inr (Or.inr h))]
  · intro h1 h2 h3
    rw [SkipList.setMaxLevel, if_neg (by omega), if_pos h3]
  · intro h1 h2 h3
    rw [SkipList.setMaxLevel, if_neg (by omega), if_neg (by omega)]
  · intro hok
    by_cases hrej : newLevel < 1 ∨ 64 < newLevel ∨ newLevel = (s.maxLevel : Int)
    · rw [SkipList.setMaxLevel, if_pos hrej] at hok
      cases hok
    · by_cases hsh : newLevel < (s.maxLevel : Int)
      · rw [SkipList.setMaxLevel, if_neg hrej, if_pos hsh]
        exact probabilityTable_length _ _
      · rw [SkipList.setMaxLevel, if_neg hrej, if_neg hsh]
        exact probabilityTable_length _ _

/-! ## In-bounds execution: the checked operations succeed under the
invariant -/

theorem nextAtChk_eq {s : SkipList K V} {p : Option Nat} {i : Nat}
    (h : s.writable p i) : s.nextAtChk p i = some (s.nextAt p i) := by
  cases p with
  | none =>
    have hi : i < s.next.length := h
    simp [SkipList.nextAtChk, SkipList.nextAt, List.getElem?_eq_getElem hi]
  | some id =>
    obtain ⟨nd, hnd, hi⟩ := heightAt_pos_valid h
    simp [SkipList.nextAtChk, SkipList.nextAt, hnd, List.getElem?_eq_getElem hi]

theorem writeNextChk_eq {s : SkipList K V} {p : Option Nat} {i : Nat} (v : Option Nat)
    (h : s.writable p i) : s.writeNextChk p i v = some (s.writeNext p i v) := by
  cases p with
  | none =>
    have hi : i < s.next.length := h
    simp [SkipList.writeNextChk, SkipList.writeNext, hi]
  | some id =>
    obtain ⟨nd, hnd, hi⟩ := heightAt_pos_valid h
    simp [SkipList.writeNextChk, SkipList.writeNext, hnd, hi]

theorem walkLevelChk_eq {s : SkipList K V} (key : K) (i : Nat) :
    ∀ {l : List (Nat × K)} {p : Option Nat} {fuel : Nat},
      Lseg s i p l → (chainKeys l).Sorted (· < ·) → l.length < fuel →
      s.writable p i → (∀ e ∈ l, i < s.heightAt e.1) →
      s.walkLevelChk key i p fuel = some (s.walkLevel key i p fuel) := by
  intro l
  induction l with
  | nil =>
    intro p fuel h _ hfuel hw _
    obtain ⟨q, hs, hq⟩ := h
    cases hs
    cases fuel with
    | zero => omega
    | succ f => simp [SkipList.walkLevelChk, SkipList.walkLevel, nextAtChk_eq hw, hq]
  | cons e t ih =>
    intro p fuel h hsorted hfuel hw hh
    obtain ⟨q, hs, hq⟩ := h
    obtain ⟨nid, k⟩ := e
    cases hs with
    | cons hn hk ht =>
      cases fuel with
      | zero => omega
      | succ f =>
        have hts : (chainKeys t).Sorted (· < ·) := (sorted_chain_cons.mp hsorted).2
        have hwn : s.writable (some nid) i := hh (nid, k) (List.mem_cons_self _ _)
        by_cases hlt : k < key
        · have hrec := ih ⟨q, ht, hq⟩ hts (by simpa using Nat.lt_of_succ_lt_succ hfuel)
            hwn (fun e he => hh e (List.mem_cons_of_mem _ he))
          simp [SkipList.walkLevelChk, SkipList.walkLevel, nextAtChk_eq hw, hn, hk,
            hlt, hrec]
        · simp [SkipList.walkLevelChk, SkipList.walkLevel, nextAtChk_eq hw, hn, hk, hlt]

/-- The checked walk over a whole level succeeds, starting from the head or
from any chain element with key `< key`. -/
theorem walkChk_step {s : SkipList K V} (hInv : Inv s) (key : K) {i : Nat}
    (hi : i < s.maxLevel) {li : List (Nat × K)} (hLi : Lseg s i none li)
    {p : Option Nat} (hp : p = none ∨ ∃ e ∈ li, p = some e.1 ∧ e.2 < key) :
    s.walkLevelChk key i p (s.nodes.length + 1) =
      some (s.walkLevel key i p (s.nodes.length + 1)) := by
  have hsorted := hInv.chain_sorted i li hLi
  have hhAll : ∀ e ∈ li, i < s.heightAt e.1 := hInv.mem_height i li hLi
  rcases hp with rfl | ⟨e, he, rfl, hek⟩
  · have hlen : li.length < s.nodes.length + 1 := by
      obtain ⟨q, hs, _⟩ := hLi
      exact Nat.lt_succ_of_le (hs.length_le_nodes hsorted)
    refine walkLevelChk_eq key i hLi hsorted hlen ?_ hhAll
    show i < s.next.length
    rw [hInv.head_len]
    exact hi
  · obtain ⟨l₁, l₂, q₁, heq, hseg1, hn1, hl2⟩ := hLi.split_at_mem he
    have hs2 : (chainKeys l₂).Sorted (· < ·) := by
      rw [heq] at hsorted
      have := (sorted_chain_append.mp hsorted).2.1
      exact (sorted_chain_cons.mp this).2
    have hlen2 : l₂.length < s.nodes.length + 1 := by
      obtain ⟨q, hs, _⟩ := hl2
      exact Nat.lt_succ_of_le (hs.length_le_nodes hs2)
    refine walkLevelChk_eq key i hl2 hs2 hlen2 (hhAll e he) ?_
    intro e' he'
    apply hhAll
    rw [heq]
    exact List.mem_append_right _ (List.mem_cons_of_mem _ he')

/-- The checked descent of `Get` succeeds. -/
theorem descendChk_eq {s : SkipList K V} (hInv : Inv s) (key : K) :
    ∀ (c : Nat) (p : Option Nat), c ≤ s.maxLevel →
      (∀ d, c = d + 1 → p = none ∨
        ∀ lc, Lseg s d none lc → ∃ e ∈ lc, p = some e.1 ∧ e.2 < key) →
      s.descendChk key p c = some (s.descendLoop key p c) := by
  intro c
  induction c with
  | zero => intro p _ _; rfl
  | succ c ih =>
    intro p hc hp
    obtain ⟨lc, hlc⟩ := hInv.chain_ex c
    have hstart : p = none ∨ ∃ e ∈ lc, p = some e.1 ∧ e.2 < key := by
      rcases hp c rfl with rfl | h
      · exact Or.inl rfl
      · exact Or.inr (h lc hlc)
    have hwalk := walkChk_step hInv key (by omega) hlc hstart
    have hq : s.walkLevel key c p (s.nodes.length + 1) = lastLt key lc :=
      walk_step hInv key hlc hstart
    have hq' : ∀ d, c = d + 1 → lastLt key lc = none ∨
        ∀ ld, Lseg s d none ld → ∃ e ∈ ld, lastLt key lc = some e.1 ∧ e.2 < key := by
      intro d hd
      rcases lastLt_cases key lc with h0 | ⟨e, he, heq, hek⟩
      · exact Or.inl h0
      · right
        intro ld hld
        obtain ⟨l0', hl0'⟩ := hInv.chain_ex 0
        have he0 := hInv.mem_zero c lc hlc e he l0' hl0'
        have hh : c < s.heightAt e.1 := hInv.mem_height c lc hlc e he
        have hmem : e ∈ ld :=
          hInv.full_height l0' hl0' e he0 d (by omega) (by omega) ld hld
        exact ⟨e, hmem, heq, hek⟩
    simp only [SkipList.descendChk, SkipList.descendLoop]
    rw [hwalk, hq]
    exact ih (lastLt key lc) (by omega) hq'

/-- The checked `getPrevElementNodes` loop succeeds. -/
theorem gpenChk_eq {s : SkipList K V} (hInv : Inv s) (key : K) :
    ∀ (c : Nat) (p : Option Nat) (cache : List (Option Nat)),
      c ≤ s.maxLevel → s.maxLevel ≤ cache.length →
      (∀ d, c = d + 1 → p = none ∨
        ∀ lc, Lseg s d none lc → ∃ e ∈ lc, p = some e.1 ∧ e.2 < key) →
      s.gpenChk key p c cache = some (s.gpenLoop key p c cache) := by
  intro c
  induction c with
  | zero => intro p cache _ _ _; rfl
  | succ c ih =>
    intro p cache hc hcl hp
    obtain ⟨lc, hlc⟩ := hInv.chain_ex c
    have hstart : p = none ∨ ∃ e ∈ lc, p = some e.1 ∧ e.2 < key := by
      rcases hp c rfl with rfl | h
      · exact Or.inl rfl
      · exact Or.inr (h lc hlc)
    have hwalk := walkChk_step hInv key (by omega) hlc hstart
    have hq : s.walkLevel key c p (s.nodes.length + 1) = lastLt key lc :=
      walk_step hInv key hlc hstart
    have hq' : ∀ d, c = d + 1 → lastLt key lc = none ∨
        ∀ ld, Lseg s d none ld → ∃ e ∈ ld, lastLt key lc = some e.1 ∧ e.2 < key := by
      intro d hd
      rcases lastLt_cases key lc with h0 | ⟨e, he, heq, hek⟩
      · exact Or.inl h0
      · right
        intro ld hld
        obtain ⟨l0', hl0'⟩ := hInv.chain_ex 0
        have he0 := hInv.mem_zero c lc hlc e he l0' hl0'
        have hh : c < s.heightAt e.1 := hInv.mem_height c lc hlc e he
        have hmem : e ∈ ld :=
          hInv.full_height l0' hl0' e he0 d (by omega) (by omega) ld hld
        exact ⟨e, hmem, heq, hek⟩
    simp only [SkipList.gpenChk, SkipList.gpenLoop]
    rw [hwalk, hq]
    show (if c < cache.length then
        s.gpenChk key (lastLt key lc) c (cache.set c (lastLt key lc)) else none) =
      some (s.gpenLoop key (lastLt key lc) c (cache.set c (lastLt key lc)))
    rw [if_pos (show c < cache.length by omega)]
    exact ih (lastLt key lc) (cache.set c (lastLt key lc)) (by omega) (by simp; omega) hq'

/-- The checked `Get` succeeds under the invariant and computes `Get`. -/
theorem getChk_eq {s : SkipList K V} (hInv : Inv s) (key : K) :
    s.getChk key = some (s.get key) := by
  obtain ⟨l0, hl0⟩ := hInv.chain_ex 0
  have hml : ¬ s.maxLevel = 0 := by have := hInv.max_pos; omega
  have hdesc := descendChk_eq hInv key s.maxLevel none le_rfl (fun d _ => Or.inl rfl)
  have hfin : s.descendLoop key none s.maxLevel = lastLt key l0 :=
    descendLoop_spec hInv key s.maxLevel none hInv.max_pos le_rfl
      (fun d _ => Or.inl rfl) l0 hl0
  have hw : s.writable (lastLt key l0) 0 := by
    rcases lastLt_cases key l0 with h0 | ⟨e, he, heq, _⟩
    · rw [h0]
      show 0 < s.next.length
      rw [hInv.head_len]
      exact hInv.max_pos
    · rw [heq]
      show 0 < s.heightAt e.1
      exact hInv.mem_height 0 l0 hl0 e he
  have hnx := nextAtChk_eq hw
  have hchk : s.getChk key = (match s.nextAtChk (lastLt key l0) 0 with
      | none => none
      | some none => some none
      | some (some nid) =>
        match s.keyAt? nid with
        | none => none
        | some kn => some (if kn ≤ key then some nid else none)) := by
    rw [SkipList.getChk, if_neg hml, hdesc, hfin]
  have hget : s.get key = (match s.nextAt (lastLt key l0) 0 with
      | none => none
      | some nid =>
        match s.keyAt? nid with
        | none => none
        | some kn => if kn ≤ key then some nid else none) := by
    rw [SkipList.get, SkipList.getCandidate, if_neg hml, hfin]
  rw [hchk, hget, hnx]
  cases hv : s.nextAt (lastLt key l0) 0 with
  | none => rfl
  | some nid =>
    have hnext0 : s.nextAt (lastLt key l0) 0 = headPtr (gePart key l0) :=
      (hl0.decompose key (hInv.chain_sorted 0 l0 hl0)).2.2
    rw [hv] at hnext0
    cases hge : gePart key l0 with
    | nil =>
      rw [hge] at hnext0
      cases hnext0
    | cons e t =>
      rw [hge] at hnext0
      have hnid : nid = e.1 := by simpa [headPtr] using hnext0
      subst hnid
      have hmem : e ∈ l0 := by
        have hsplit : ltPart key l0 ++ gePart key l0 = l0 :=
          List.takeWhile_append_dropWhile ..
        rw [← hsplit, hge]
        exact List.mem_append_right _ (List.mem_cons_self _ _)
      have hkeyAt : s.keyAt? e.1 = some e.2 := hl0.keyAt_of_mem _ hmem
      show (match s.keyAt? e.1 with
        | none => none
        | some kn => some (if kn ≤ key then some e.1 else none)) =
        some (match s.keyAt? e.1 with
        | none => none
        | some kn => if kn ≤ key then some e.1 else none)
      rw [hkeyAt]

/-- The checked splice loop succeeds when every touched index is writable. -/
theorem spliceChk_eq {nid : Nat} {prevs : List (Option Nat)} :
    ∀ (rem i : Nat) (s : SkipList K V),
      (∀ j, i ≤ j → j < i + rem → j < prevs.length ∧
        s.writable (prevs.getD j none) j ∧ s.writable (some nid) j) →
      spliceChk nid prevs s i rem = some (spliceLoop nid prevs s i rem) := by
  intro rem
  induction rem with
  | zero => intro i s _; rfl
  | succ rem ih =>
    intro i s hok
    obtain ⟨hjlen, hwp, hwn⟩ := hok i le_rfl (by omega)
    have hpi : prevs[i]? = some (prevs.getD i none) := by
      rw [List.getD_eq_getElem?_getD, List.getElem?_eq_getElem hjlen]
      rfl
    have hnx := nextAtChk_eq hwp
    have hw1 := writeNextChk_eq (s.nextAt (prevs.getD i none) i) hwn
    have hw2 : SkipList.writeNextChk
        (s.writeNext (some nid) i (s.nextAt (prevs.getD i none) i))
        (prevs.getD i none) i (some nid) =
        some (SkipList.writeNext
          (s.writeNext (some nid) i (s.nextAt (prevs.getD i none) i))
          (prevs.getD i none) i (some nid)) :=
      writeNextChk_eq (some nid) (writable_writeNext hwp)
    simp only [spliceChk, spliceLoop, hpi, hnx, hw1, hw2]
    apply ih
    intro j hj1 hj2
    obtain ⟨h1, h2, h3⟩ := hok j (by omega) (by omega)
    exact ⟨h1, writable_writeNext (writable_writeNext h2),
      writable_writeNext (writable_writeNext h3)⟩

/-- The checked unlink loop succeeds when every touched index is writable. -/
theorem unlinkChk_eq {prevs : List (Option Nat)} :
    ∀ (vs : List (Option Nat)) (k : Nat) (s : SkipList K V),
      (∀ j, k ≤ j → j < k + vs.length → j < prevs.length ∧
        s.writable (prevs.getD j none) j) →
      unlinkChk prevs s k vs = some (unlinkLoop prevs s k vs) := by
  intro vs
  induction vs with
  | nil => intro k s _; rfl
  | cons v vs ih =>
    intro k s hok
    obtain ⟨hjlen, hwp⟩ := hok k le_rfl (by simp only [List.length_cons]; omega)
    have hpi : prevs[k]? = some (prevs.getD k none) := by
      rw [List.getD_eq_getElem?_getD, List.getElem?_eq_getElem hjlen]
      rfl
    have hw1 := writeNextChk_eq v hwp
    simp only [unlinkChk, unlinkLoop, hpi, hw1]
    apply ih
    intro j hj1 hj2
    obtain ⟨h1, h2⟩ := hok j (by omega) (by simp only [List.length_cons]; omega)
    exact ⟨h1, writable_writeNext h2⟩

/-- The checked insert path succeeds when the cache entries below `lvl`
exist and are writable in the allocated state. -/
theorem insertChk_eq {s : SkipList K V} (key : K) (v : V) {lvl : Nat}
    {prevs : List (Option Nat)}
    (hok : ∀ j, j < lvl → j < prevs.length ∧
      SkipList.writable
        { s with nodes := s.nodes ++ [⟨List.replicate lvl none, key, v⟩] }
        (prevs.getD j none) j) :
    s.insertChk key v lvl prevs = some (s.insertNew key v lvl prevs) := by
  have hokS : ∀ j, 0 ≤ j → j < 0 + lvl → j < prevs.length ∧
      SkipList.writable
        { s with nodes := s.nodes ++ [⟨List.replicate lvl none, key, v⟩] }
        (prevs.getD j none) j ∧
      SkipList.writable
        { s with nodes := s.nodes ++ [⟨List.replicate lvl none, key, v⟩] }
        (some s.nodes.length) j := by
    intro j _ hj2
    obtain ⟨h1, h2⟩ := hok j (by omega)
    refine ⟨h1, h2, ?_⟩
    show j < SkipList.heightAt
      { s with nodes := s.nodes ++ [⟨List.replicate lvl none, key, v⟩] } s.nodes.length
    rw [heightAt_append_node_self]
    simp only [List.length_replicate]
    omega
  have hsp := spliceChk_eq lvl 0 _ hokS
  simp only [SkipList.insertChk, SkipList.insertNew, hsp]

/-- Every traversal-cache entry is a writable position at its level. -/
theorem prevs_writable {s₀ : SkipList K V} (hInv : Inv s₀) (key : K) {j : Nat}
    (hj : j < s₀.maxLevel) :
    s₀.writable ((s₀.getPrevElementNodes key).1.getD j none) j := by
  obtain ⟨_, _, _, hgetD⟩ := gpen_state_spec hInv key
  obtain ⟨lj, hlj⟩ := hInv.chain_ex j
  rw [hgetD j hj lj hlj]
  rcases lastLt_cases key lj with h0 | ⟨e, he, heq, _⟩
  · rw [h0]
    show j < s₀.next.length
    rw [hInv.head_len]
    exact hj
  · rw [heq]
    show j < s₀.heightAt e.1
    exact hInv.mem_height j lj hlj e he

/-- Cache entries are writable in the allocated insert state. -/
theorem prevs_writable_alloc {s₀ : SkipList K V} (hInv : Inv s₀) (key : K) {lvl : Nat}
    (hl2 : lvl ≤ s₀.maxLevel) (key' : K) (v : V) :
    ∀ j, j < lvl → j < (s₀.getPrevElementNodes key).1.length ∧
      SkipList.writable
        { s₀ with
            prevNodesCache := (s₀.getPrevElementNodes key).1,
            nodes := s₀.nodes ++ [⟨List.replicate lvl none, key', v⟩] }
        ((s₀.getPrevElementNodes key).1.getD j none) j := by
  obtain ⟨_, hprlen, _, hgetD⟩ := gpen_state_spec hInv key
  intro j hj
  have hjm : j < s₀.maxLevel := lt_of_lt_of_le hj hl2
  refine ⟨by rw [hprlen]; exact hjm, ?_⟩
  obtain ⟨lj, hlj⟩ := hInv.chain_ex j
  rw [hgetD j hjm lj hlj]
  rcases lastLt_cases key lj with h0 | ⟨e, he, heq, _⟩
  · rw [h0]
    show j < s₀.next.length
    rw [hInv.head_len]
    exact hjm
  · rw [heq]
    have halloc : e.1 < s₀.nodes.length :=
      SkipList.lt_length_of_keyAt? (hlj.keyAt_of_mem e he)
    show j < SkipList.heightAt
      { s₀ with
          prevNodesCache := (s₀.getPrevElementNodes key).1,
          nodes := s₀.nodes ++ [⟨List.replicate lvl none, key', v⟩] } e.1
    have hha : SkipList.heightAt
        { s₀ with
            prevNodesCache := (s₀.getPrevElementNodes key).1,
            nodes := s₀.nodes ++ [⟨List.replicate lvl none, key', v⟩] } e.1 =
        s₀.heightAt e.1 :=
      heightAt_append_node halloc
    rw [hha]
    exact hInv.mem_height j lj hlj e he

/-- The checked `Set` succeeds under the invariant, for any height
`randLevel` could have produced, and computes `Set`. -/
theorem setChk_eq {s₀ : SkipList K V} (hInv : Inv s₀) (key : K) (v : V) {lvl : Nat}
    (hl2 : lvl ≤ s₀.maxLevel) :
    s₀.setChk key v lvl = some (s₀.set key v lvl) := by
  obtain ⟨hpr2, hprlen, hInvS, hgetD⟩ := gpen_state_spec hInv key
  have hgpen' : s₀.gpenChk key none s₀.maxLevel s₀.prevNodesCache =
      some (s₀.getPrevElementNodes key).1 :=
    gpenChk_eq hInv key s₀.maxLevel none s₀.prevNodesCache le_rfl
      (le_of_eq hInv.cache_len.symm) (fun d _ => Or.inl rfl)
  have h0len : 0 < (s₀.getPrevElementNodes key).1.length := by
    rw [hprlen]
    exact hInv.max_pos
  have hp0 : (s₀.getPrevElementNodes key).1[0]? =
      some ((s₀.getPrevElementNodes key).1.getD 0 none) := by
    rw [List.getD_eq_getElem?_getD, List.getElem?_eq_getElem h0len]
    rfl
  have hw0 : SkipList.writable
      { s₀ with prevNodesCache := (s₀.getPrevElementNodes key).1 }
      ((s₀.getPrevElementNodes key).1.getD 0 none) 0 :=
    prevs_writable hInv key hInv.max_pos
  have hnx := nextAtChk_eq hw0
  obtain ⟨l0, hl0⟩ := hInv.chain_ex 0
  by_cases hpres : ∃ e ∈ l0, e.2 = key
  · obtain ⟨e, he, hek⟩ := hpres
    have hmem : (e.1, key) ∈ l0 := mem_key_pair he hek
    obtain ⟨hcand, nd, hnd, hndkey⟩ := candidate_present hInv key hl0 hmem
    obtain ⟨nd', hnd', hndkey', heqset⟩ := set_eq_update hInv key v lvl hl0 hmem
    have hndeq : nd' = nd := by
      rw [hnd] at hnd'
      exact (Option.some.inj hnd').symm
    subst hndeq
    have hnx' : SkipList.nextAtChk
        { s₀ with prevNodesCache := (s₀.getPrevElementNodes key).1 }
        ((s₀.getPrevElementNodes key).1.getD 0 none) 0 = some (some e.1) := by
      rw [hnx]
      exact congrArg some hcand
    have hnd'' : ({ s₀ with prevNodesCache := (s₀.getPrevElementNodes key).1 } :
        SkipList K V).nodes[e.1]? = some nd' := hnd'
    rw [SkipList.setChk]
    simp only [hgpen', hp0, hnx', hnd'']
    rw [if_pos (le_of_eq hndkey')]
    rw [heqset]
  · have habsent : ∀ e ∈ l0, e.2 ≠ key := fun e he hek => hpres ⟨e, he, hek⟩
    have heqset := set_eq_insert hInv key v lvl hl0 habsent
    have hins : SkipList.insertChk
        { s₀ with prevNodesCache := (s₀.getPrevElementNodes key).1 }
        key v lvl (s₀.getPrevElementNodes key).1 =
        some (SkipList.insertNew
          { s₀ with prevNodesCache := (s₀.getPrevElementNodes key).1 }
          key v lvl (s₀.getPrevElementNodes key).1) :=
      insertChk_eq key v (prevs_writable_alloc hInv key hl2 key v)
    have hrhs : s₀.set key v lvl = SkipList.insertNew
        { s₀ with prevNodesCache := (s₀.getPrevElementNodes key).1 }
        key v lvl (s₀.getPrevElementNodes key).1 := heqset
    rcases candidate_absent hInv key hl0 habsent with hcand | ⟨m, nd, hcand, hnd, hkey⟩
    · have hnx' : SkipList.nextAtChk
          { s₀ with prevNodesCache := (s₀.getPrevElementNodes key).1 }
          ((s₀.getPrevElementNodes key).1.getD 0 none) 0 = some none := by
        rw [hnx]
        exact congrArg some hcand
      rw [SkipList.setChk]
      simp only [hgpen', hp0, hnx']
      rw [hins, hrhs]
    · have hnx' : SkipList.nextAtChk
          { s₀ with prevNodesCache := (s₀.getPrevElementNodes key).1 }
          ((s₀.getPrevElementNodes key).1.getD 0 none) 0 = some (some m) := by
        rw [hnx]
        exact congrArg some hcand
      have hnd'' : ({ s₀ with prevNodesCache := (s₀.getPrevElementNodes key).1 } :
          SkipList K V).nodes[m]? = some nd := hnd
      rw [SkipList.setChk]
      simp only [hgpen', hp0, hnx', hnd'']
      rw [if_neg hkey]
      rw [hins, hrhs]

/-- The checked `Remove` succeeds under the invariant and computes
`Remove`. -/
theorem removeChk_eq {s₀ : SkipList K V} (hInv : Inv s₀) (key : K) :
    s₀.removeChk key = some (s₀.remove key) := by
  obtain ⟨hpr2, hprlen, hInvS, hgetD⟩ := gpen_state_spec hInv key
  have hgpen' : s₀.gpenChk key none s₀.maxLevel s₀.prevNodesCache =
      some (s₀.getPrevElementNodes key).1 :=
    gpenChk_eq hInv key s₀.maxLevel none s₀.prevNodesCache le_rfl
      (le_of_eq hInv.cache_len.symm) (fun d _ => Or.inl rfl)
  have h0len : 0 < (s₀.getPrevElementNodes key).1.length := by
    rw [hprlen]
    exact hInv.max_pos
  have hp0 : (s₀.getPrevElementNodes key).1[0]? =
      some ((s₀.getPrevElementNodes key).1.getD 0 none) := by
    rw [List.getD_eq_getElem?_getD, List.getElem?_eq_getElem h0len]
    rfl
  have hw0 : SkipList.writable
      { s₀ with prevNodesCache := (s₀.getPrevElementNodes key).1 }
      ((s₀.getPrevElementNodes key).1.getD 0 none) 0 :=
    prevs_writable hInv key hInv.max_pos
  have hnx := nextAtChk_eq hw0
  obtain ⟨l0, hl0⟩ := hInv.chain_ex 0
  by_cases hpres : ∃ e ∈ l0, e.2 = key
  · obtain ⟨e, he, hek⟩ := hpres
    have hmem : (e.1, key) ∈ l0 := mem_key_pair he hek
    obtain ⟨hcand, nd, hnd, hndkey⟩ := candidate_present hInv key hl0 hmem
    obtain ⟨nd', hnd', hndkey', heqrem⟩ := remove_eq_hit hInv key hl0 hmem
    have hndeq : nd' = nd := by
      rw [hnd] at hnd'
      exact (Option.some.inj hnd').symm
    subst hndeq
    have hnx' : SkipList.nextAtChk
        { s₀ with prevNodesCache := (s₀.getPrevElementNodes key).1 }
        ((s₀.getPrevElementNodes key).1.getD 0 none) 0 = some (some e.1) := by
      rw [hnx]
      exact congrArg some hcand
    have hnd'' : ({ s₀ with prevNodesCache := (s₀.getPrevElementNodes key).1 } :
        SkipList K V).nodes[e.1]? = some nd' := hnd'
    have hheight : nd'.next.length = s₀.heightAt e.1 :=
      (heightAt_eq_of_getElem? hnd).symm
    have hhmax : s₀.heightAt e.1 ≤ s₀.maxLevel := by
      rw [heightAt_eq_of_getElem? hnd]
      exact hInv.height_le nd' (List.getElem?_mem hnd)
    have hunlink : unlinkChk (s₀.getPrevElementNodes key).1
        { s₀ with prevNodesCache := (s₀.getPrevElementNodes key).1 } 0 nd'.next =
        some (unlinkLoop (s₀.getPrevElementNodes key).1
          { s₀ with prevNodesCache := (s₀.getPrevElementNodes key).1 } 0 nd'.next) := by
      apply unlinkChk_eq
      intro j _ hj2
      have hjm : j < s₀.maxLevel := by
        rw [Nat.zero_add, hheight] at hj2
        omega
      exact ⟨by rw [hprlen]; exact hjm, prevs_writable hInv key hjm⟩
    rw [SkipList.removeChk]
    simp only [hgpen', hp0, hnx', hnd'']
    rw [if_pos (le_of_eq hndkey'), hunlink, heqrem]
    rfl
  · have habsent : ∀ e ∈ l0, e.2 ≠ key := fun e he hek => hpres ⟨e, he, hek⟩
    have heqrem := remove_eq_miss hInv key hl0 habsent
    rcases candidate_absent hInv key hl0 habsent with hcand | ⟨m, nd, hcand, hnd, hkey⟩
    · have hnx' : SkipList.nextAtChk
          { s₀ with prevNodesCache := (s₀.getPrevElementNodes key).1 }
          ((s₀.getPrevElementNodes key).1.getD 0 none) 0 = some none := by
        rw [hnx]
        exact congrArg some hcand
      rw [SkipList.removeChk]
      simp only [hgpen', hp0, hnx']
      rw [heqrem]
      rfl
    · have hnx' : SkipList.nextAtChk
          { s₀ with prevNodesCache := (s₀.getPrevElementNodes key).1 }
          ((s₀.getPrevElementNodes key).1.getD 0 none) 0 = some (some m) := by
        rw [hnx]
        exact congrArg some hcand
      have hnd'' : ({ s₀ with prevNodesCache := (s₀.getPrevElementNodes key).1 } :
          SkipList K V).nodes[m]? = some nd := hnd
      rw [SkipList.removeChk]
      simp only [hgpen', hp0, hnx', hnd'']
      rw [if_neg hkey, heqrem]
      rfl

/-! ## Lookup after mutation -/

theorem get_of_mem {s : SkipList K V} (hInv : Inv s) {l0 : List (Nat × K)}
    (hl0 : Lseg s 0 none l0) {nid : Nat} {key : K} (hmem : (nid, key) ∈ l0) :
    s.get key = some nid := by
  rw [get_spec hInv key hl0]
  have hsorted := hInv.chain_sorted 0 l0 hl0
  have hex : ∃ x ∈ l0, (fun e => decide (e.2 = key)) x = true :=
    ⟨(nid, key), hmem, by simp⟩
  obtain ⟨e, hfe⟩ := Option.isSome_iff_exists.mp (List.find?_isSome.mpr hex)
  have hpe : e.2 = key := by simpa using List.find?_some hfe
  have hme : e ∈ l0 := List.mem_of_find?_eq_some hfe
  have heq : e = (nid, key) := sorted_entry_unique hsorted hme hmem hpe
  rw [hfe, heq]
  rfl

theorem get_none_of_absent {s : SkipList K V} (hInv : Inv s) {l0 : List (Nat × K)}
    (hl0 : Lseg s 0 none l0) {key : K} (habsent : ∀ e ∈ l0, e.2 ≠ key) :
    s.get key = none := by
  rw [get_spec hInv key hl0]
  rw [List.find?_eq_none.mpr ?_]
  · rfl
  · intro x hx
    simpa using habsent x hx

/-- After a `Set`, the returned node carries the key and the new value on
the level-0 chain. -/
theorem present_after_set {s₀ : SkipList K V} (hInv : Inv s₀) (key : K) (v : V)
    {lvl : Nat} (hl1 : 1 ≤ lvl) (hl2 : lvl ≤ s₀.maxLevel) :
    ∃ l0', Lseg (s₀.set key v lvl).2 0 none l0' ∧
      ((s₀.set key v lvl).1, key) ∈ l0' ∧
      (s₀.set key v lvl).2.valueAt? (s₀.set key v lvl).1 = some v := by
  obtain ⟨l0, hl0⟩ := hInv.chain_ex 0
  by_cases hp : ∃ e ∈ l0, e.2 = key
  · obtain ⟨e, he, hek⟩ := hp
    have hmem : (e.1, key) ∈ l0 := mem_key_pair he hek
    obtain ⟨nd, hnd, hndk, heq⟩ := set_eq_update hInv key v lvl hl0 hmem
    refine ⟨l0, ?_, ?_, ?_⟩
    · rw [heq]
      exact hl0.of_untouched (fun r => nextAt_set_value hnd r 0) (keyAt_set_value hnd)
    · rw [heq]
      exact hmem
    · rw [heq]
      exact valueAt_set_value_self hnd
  · have habsent : ∀ e ∈ l0, e.2 ≠ key := fun e he hek => hp ⟨e, he, hek⟩
    obtain ⟨hid, _, _, _, hval, _, _, _, _, _, _, _, hchains, _, _⟩ :=
      insert_spec hInv key v hl1 hl2 hl0 habsent
    refine ⟨splicedChain key s₀.nodes.length l0, hchains 0 l0 hl0 (by omega), ?_, ?_⟩
    · rw [hid, splicedChain]
      exact List.mem_append_right _ (List.mem_cons_self _ _)
    · rw [hid]
      exact hval

/-- `Get` finds the value just written by `Set`. -/
theorem get_after_set {s₀ : SkipList K V} (hInv : Inv s₀) (key : K) (v : V)
    {lvl : Nat} (hl1 : 1 ≤ lvl) (hl2 : lvl ≤ s₀.maxLevel) :
    (s₀.set key v lvl).2.get key = some (s₀.set key v lvl).1 ∧
    (s₀.set key v lvl).2.valueAt? (s₀.set key v lvl).1 = some v := by
  obtain ⟨hI, _⟩ := set_preserves hInv key v hl1 hl2
  obtain ⟨l0', hl0', hmem', hval⟩ := present_after_set hInv key v hl1 hl2
  exact ⟨get_of_mem hI hl0' hmem', hval⟩

/-- `Set` on a present key leaves `length` unchanged. -/
theorem set_present_length {s : SkipList K V} (hInv : Inv s) {key : K}
    {l0 : List (Nat × K)} (hl0 : Lseg s 0 none l0) {nid : Nat}
    (hpres : (nid, key) ∈ l0) (v : V) (lvl : Nat) :
    (s.set key v lvl).2.length = s.length := by
  obtain ⟨nd, hnd, hndk, heq⟩ := set_eq_update hInv key v lvl hl0 hpres
  rw [heq]

/-- `Get` reports NotFound for the key just removed. -/
theorem get_after_remove {s₀ : SkipList K V} (hInv : Inv s₀) (key : K)
    {l0 : List (Nat × K)} (hl0 : Lseg s₀ 0 none l0) {nid : Nat}
    (hpres : (nid, key) ∈ l0) :
    (s₀.remove key).2.get key = none := by
  have hInv' := hInv.remove_hit key hl0 hpres
  have h0h : 0 < s₀.heightAt nid := hInv.mem_height 0 l0 hl0 (nid, key) hpres
  obtain ⟨_, _, _, _, _, _, _, _, _, _, hchains, _, _⟩ :=
    remove_spec hInv key hl0 hpres
  have hl0' : Lseg (s₀.remove key).2 0 none (removedChain key l0) :=
    hchains 0 l0 hl0 h0h
  exact get_none_of_absent hInv' hl0'
    (removedChain_keys_ne (hInv.chain_sorted 0 l0 hl0))

/-! ## The claims -/

/-- Claim C1: from a freshly constructed list, every finite sequence of
`Set` and `Remove` calls (each `Set` with a height `randLevel` could have
produced) yields a state satisfying the structural invariant: strictly
increasing keys along every level's chain (hence no duplicate keys at any
level), and a level-0 chain visiting exactly `length` nodes in ascending
key order, `length` being the number of distinct keys present. -/
theorem claim_C1 (ops : List (SLOp K V))
    (hvalid : ∀ op ∈ ops, opValid defaultMaxLevel op = true) :
    StructuralInv (runOps (newList K V) ops) := by
  have h := runOps_inv ops (newList K V) (inv_newList K V)
    (fun op hop => hvalid op hop)
  exact h.1.structural

theorem claim_C1_witness :
    StructuralInv (runOps (newList Int Int)
      [SLOp.set 5 7 1, SLOp.set 2 9 1, SLOp.remove 5]) :=
  claim_C1 [SLOp.set 5 7 1, SLOp.set 2 9 1, SLOp.remove 5] (by decide)

/-- Claim C2: under the structural invariant, `Set(k,v)` on a present key
overwrites the value in place (`nodes.set`) and returns that node with
`length` unchanged, no node allocated and the result independent of the
drawn height; on an absent key it allocates a fresh node with `lvl`
forward slots, splices it at every level `i < lvl` (new node's
`forward[i]` = old `prevCache[i].forward[i]`, then `prevCache[i].forward[i]`
= new node), and increments `length`; consequently `Set(k,v₁)`, `Set(k,v₂)`,
`Get(k)` yields a node holding `v₂`, with the second `Set` leaving `length`
unchanged. -/
theorem claim_C2 {s₀ : SkipList K V} (hInv : Inv s₀) (key : K) (v : V) {lvl : Nat}
    (hl1 : 1 ≤ lvl) (hl2 : lvl ≤ s₀.maxLevel)
    {l0 : List (Nat × K)} (hl0 : Lseg s₀ 0 none l0) :
    (∀ nid, (nid, key) ∈ l0 → ∃ nd, s₀.nodes[nid]? = some nd ∧ nd.key = key ∧
      s₀.set key v lvl = (nid,
        { s₀ with prevNodesCache := (s₀.getPrevElementNodes key).1,
                  nodes := s₀.nodes.set nid { nd with value := v } }) ∧
      (s₀.set key v lvl).2.length = s₀.length ∧
      (s₀.set key v lvl).2.nodes.length = s₀.nodes.length) ∧
    ((∀ e ∈ l0, e.2 ≠ key) →
      (s₀.set key v lvl).1 = s₀.nodes.length ∧
      (s₀.set key v lvl).2.nodes.length = s₀.nodes.length + 1 ∧
      (s₀.set key v lvl).2.length = s₀.length + 1 ∧
      (s₀.set key v lvl).2.keyAt? s₀.nodes.length = some key ∧
      (s₀.set key v lvl).2.valueAt? s₀.nodes.length = some v ∧
      (s₀.set key v lvl).2.heightAt s₀.nodes.length = lvl ∧
      (∀ i, i < lvl →
        (s₀.set key v lvl).2.nextAt ((s₀.getPrevElementNodes key).1.getD i none) i =
          some s₀.nodes.length ∧
        (s₀.set key v lvl).2.nextAt (some s₀.nodes.length) i =
          s₀.nextAt ((s₀.getPrevElementNodes key).1.getD i none) i)) ∧
    (∀ v₂ lvl₂, 1 ≤ lvl₂ → lvl₂ ≤ s₀.maxLevel →
      ((s₀.set key v lvl).2.set key v₂ lvl₂).2.get key =
        some ((s₀.set key v lvl).2.set key v₂ lvl₂).1 ∧
      ((s₀.set key v lvl).2.set key v₂ lvl₂).2.valueAt?
        ((s₀.set key v lvl).2.set key v₂ lvl₂).1 = some v₂ ∧
      ((s₀.set key v lvl).2.set key v₂ lvl₂).2.length =
        (s₀.set key v lvl).2.length) := by
  refine ⟨?_, ?_, ?_⟩
  · intro nid hmem
    obtain ⟨nd, hnd, hndk, heq⟩ := set_eq_update hInv key v lvl hl0 hmem
    refine ⟨nd, hnd, hndk, heq, ?_, ?_⟩
    · rw [heq]
    · rw [heq]
      simp
  · intro habsent
    obtain ⟨h1, h2, h3, h4, h5, h6, _, _, _, _, _, _, _, _, h15⟩ :=
      insert_spec hInv key v hl1 hl2 hl0 habsent
    exact ⟨h1, h2, h3, h4, h5, h6, h15⟩
  · intro v₂ lvl₂ h1 h2
    obtain ⟨hI1, hM1⟩ := set_preserves hInv key v hl1 hl2
    have h2' : lvl₂ ≤ (s₀.set key v lvl).2.maxLevel := by
      rw [hM1]
      exact h2
    obtain ⟨hg, hval⟩ := get_after_set hI1 key v₂ h1 h2'
    refine ⟨hg, hval, ?_⟩
    obtain ⟨l0', hl0', hmem', _⟩ := present_after_set hInv key v hl1 hl2
    exact set_present_length hI1 hl0' hmem' v₂ lvl₂

theorem claim_C2_witness :
    ((newList Int Int).set 3 8 1).2.length = (newList Int Int).length + 1 ∧
    (((newList Int Int).set 3 8 1).2.set 3 9 1).2.get 3 =
      some (((newList Int Int).set 3 8 1).2.set 3 9 1).1 ∧
    (((newList Int Int).set 3 8 1).2.set 3 9 1).2.length =
      ((newList Int Int).set 3 8 1).2.length := by
  have h := claim_C2 (inv_newList Int Int) 3 8 (le_refl 1) (by decide)
    ⟨none, Seg.nil none, rfl⟩
  obtain ⟨_, _, h23, _⟩ := h.2.1 (fun e he _ => absurd he (List.not_mem_nil e))
  obtain ⟨hg, _, hlen⟩ := h.2.2 9 1 (le_refl 1) (by decide)
  exact ⟨h23, hg, hlen⟩

/-- Claim C3: under the structural invariant, `Remove(k)` on a present key
returns the matching node, unlinks it at every level up to its height
(`prevCache[i].forward[i]` becomes the removed node's `forward[i]`),
decrements `length` by exactly one, and afterwards `Get(k)` reports
NotFound; on an absent key it returns NotFound and the resulting state is
the traversal state itself — the same links and `length`, only the scratch
`prevNodesCache` buffer rewritten. -/
theorem claim_C3 {s₀ : SkipList K V} (hInv : Inv s₀) (key : K)
    {l0 : List (Nat × K)} (hl0 : Lseg s₀ 0 none l0) :
    (∀ nid, (nid, key) ∈ l0 →
      (s₀.remove key).1 = some nid ∧
      (s₀.remove key).2.length + 1 = s₀.length ∧
      (∀ k, k < s₀.heightAt nid →
        (s₀.remove key).2.nextAt ((s₀.getPrevElementNodes key).1.getD k none) k =
          s₀.nextAt (some nid) k) ∧
      (s₀.remove key).2.get key = none) ∧
    ((∀ e ∈ l0, e.2 ≠ key) →
      s₀.remove key = (none, (s₀.getPrevElementNodes key).2) ∧
      (s₀.getPrevElementNodes key).2 =
        { s₀ with prevNodesCache := (s₀.getPrevElementNodes key).1 } ∧
      (s₀.remove key).2.length = s₀.length) := by
  constructor
  · intro nid hmem
    obtain ⟨h1, h2, _, _, _, _, _, _, _, _, _, _, hlinks⟩ :=
      remove_spec hInv key hl0 hmem
    exact ⟨h1, h2, hlinks, get_after_remove hInv key hl0 hmem⟩
  · intro habsent
    have heq := remove_eq_miss hInv key hl0 habsent
    refine ⟨heq, (gpen_state_spec hInv key).1, ?_⟩
    rw [heq]
    rfl

theorem claim_C3_witness :
    (newList Int Int).remove 4 =
      (none, ((newList Int Int).getPrevElementNodes 4).2) ∧
    ((newList Int Int).remove 4).2.length = (newList Int Int).length := by
  have h := claim_C3 (inv_newList Int Int) 4 ⟨none, Seg.nil none, rfl⟩
  obtain ⟨ha, _, hc⟩ := h.2 (fun e he _ => absurd he (List.not_mem_nil e))
  exact ⟨ha, hc⟩

/-- Claim C4: under the structural invariant, `Get(k)` returns the element
whose key equals `k` when one is present, reports NotFound (`nil`)
otherwise, and leaves the list state completely unchanged — in particular
it never touches the `prevNodesCache` buffer. -/
theorem claim_C4 {s : SkipList K V} (hInv : Inv s) (key : K)
    {l0 : List (Nat × K)} (hl0 : Lseg s 0 none l0) :
    (s.getSt key).2 = s ∧
    (∀ nid, (nid, key) ∈ l0 → s.get key = some nid ∧ s.keyAt? nid = some key) ∧
    ((∀ e ∈ l0, e.2 ≠ key) → s.get key = none) := by
  refine ⟨rfl, ?_, ?_⟩
  · intro nid hmem
    exact ⟨get_of_mem hInv hl0 hmem, hl0.keyAt_of_mem _ hmem⟩
  · intro habsent
    exact get_none_of_absent hInv hl0 habsent

theorem claim_C4_witness :
    ((newList Int Int).getSt 6).2 = newList Int Int ∧
    (newList Int Int).get 6 = none := by
  have h := claim_C4 (inv_newList Int Int) 6 ⟨none, Seg.nil none, rfl⟩
  exact ⟨h.1, h.2.2 (fun e he _ => absurd he (List.not_mem_nil e))⟩

/-- Claim C5: under the structural invariant, the traversal fills cache
entry `i`, for every level `i < maxLevel`, with the last level-`i` node
whose key is strictly below the target (the head, `none`, when there is
none); consequently the level-0 successor of entry 0 is absent or has key
`≥` the target, so the `candidate.key ≤ target` check of `Set` and
`Remove` holds exactly when the candidate's key equals the target. -/
theorem claim_C5 {s : SkipList K V} (hInv : Inv s) (key : K) :
    (∀ i, i < s.maxLevel → ∀ li, Lseg s i none li →
      ((s.getPrevElementNodes key).1)[i]? = some (lastLt key li)) ∧
    (s.nextAt ((s.getPrevElementNodes key).1.getD 0 none) 0 = none ∨
      ∃ nid k, s.nextAt ((s.getPrevElementNodes key).1.getD 0 none) 0 = some nid ∧
        s.keyAt? nid = some k ∧ key ≤ k ∧ ((k ≤ key) ↔ k = key)) := by
  obtain ⟨hpr2, hprlen, hInvS, hgetD⟩ := gpen_state_spec hInv key
  refine ⟨(getPrevElementNodes_spec hInv key).2, ?_⟩
  obtain ⟨l0, hl0⟩ := hInv.chain_ex 0
  rw [hgetD 0 hInv.max_pos l0 hl0]
  obtain ⟨_, _, hPtr⟩ := hl0.decompose key (hInv.chain_sorted 0 l0 hl0)
  rw [hPtr]
  cases hge : gePart key l0 with
  | nil => exact Or.inl rfl
  | cons e t =>
    right
    have hmem : e ∈ l0 := by
      have hsplit : ltPart key l0 ++ gePart key l0 = l0 :=
        List.takeWhile_append_dropWhile ..
      rw [← hsplit, hge]
      exact List.mem_append_right _ (List.mem_cons_self _ _)
    have hkey := hl0.keyAt_of_mem e hmem
    have hge' : key ≤ e.2 := gePart_head_ge hge
    refine ⟨e.1, e.2, rfl, hkey, hge', ?_, ?_⟩
    · intro hle
      exact le_antisymm hle hge'
    · intro heq
      exact le_of_eq heq

theorem claim_C5_witness :
    (newList Int Int).nextAt
      (((newList Int Int).getPrevElementNodes 1).1.getD 0 none) 0 = none ∨
    ∃ nid k, (newList Int Int).nextAt
        (((newList Int Int).getPrevElementNodes 1).1.getD 0 none) 0 = some nid ∧
      (newList Int Int).keyAt? nid = some k ∧ (1:Int) ≤ k ∧ ((k ≤ 1) ↔ k = 1) :=
  (claim_C5 (inv_newList Int Int) 1).2

theorem claim_C6_witness :
    1 ≤ (newList Int Int).randLevel 0 ∧
    (newList Int Int).randLevel 0 ≤ (newList Int Int).maxLevel ∧
    (0:ℚ) < (newList Int Int).probTable.getD ((newList Int Int).randLevel 0 - 1) 0 ∧
    ∀ lvl, 1 ≤ lvl → lvl ≤ (newList Int Int).maxLevel →
      (0:ℚ) < (newList Int Int).probTable.getD (lvl - 1) 0 →
      lvl ≤ (newList Int Int).randLevel 0 :=
  claim_C6 (by norm_num [newList, defaultProbability])
    (by norm_num [newList, defaultProbability])
    (by norm_num [newList, defaultMaxLevel]) rfl le_rfl (by norm_num)

theorem claim_C7_witness :
    (newList Int Int).setMaxLevel 0 = (false, newList Int Int) ∧
    ((newList Int Int).setMaxLevel 30).2.probTable.length =
      ((newList Int Int).setMaxLevel 30).2.maxLevel := by
  refine ⟨(claim_C7 (newList Int Int) 0).1 (Or.inl (by norm_num)), ?_⟩
  apply (claim_C7 (newList Int Int) 30).2.2.2.2
  rw [(claim_C7 (newList Int Int) 30).2.2.2.1 (by norm_num) (by norm_num)
    (by norm_num [newList, defaultMaxLevel])]

/-- Claim C8 (amended): the claimed precondition — head array and cache of
length `maxLevel`, all heights `≤ maxLevel` — does not rule out
out-of-bounds accesses (see the counterexample); under the full structural
invariant, however, the checked embeddings of `Get`, `Set` (at any height
`randLevel` can produce) and `Remove` never meet an out-of-bounds index:
they succeed and compute the unchecked operations. -/
theorem claim_C8 {s : SkipList K V} (hInv : Inv s) (key : K) :
    s.getChk key = some (s.get key) ∧
    (∀ v lvl, lvl ≤ s.maxLevel → s.setChk key v lvl = some (s.set key v lvl)) ∧
    s.removeChk key = some (s.remove key) :=
  ⟨getChk_eq hInv key, fun v _ hl2 => setChk_eq hInv key v hl2,
    removeChk_eq hInv key⟩

theorem claim_C8_witness :
    (newList Int Int).getChk 0 = some ((newList Int Int).get 0) ∧
    (∀ v lvl, lvl ≤ (newList Int Int).maxLevel →
      (newList Int Int).setChk 0 v lvl = some ((newList Int Int).set 0 v lvl)) ∧
    (newList Int Int).removeChk 0 = some ((newList Int Int).remove 0) :=
  claim_C8 (inv_newList Int Int) 0

/-- C8 as literally stated is false: `badBounds` satisfies the stated
precondition, yet `Get(10)` indexes a height-1 node's forward array at
level 1, out of bounds (the checked embedding reports the failure). -/
theorem claim_C8_counterexample :
    BoundsPre badBounds ∧ badBounds.getChk 10 = none := by
  refine ⟨⟨rfl, rfl, ?_⟩, rfl⟩
  intro nd hnd
  rw [List.mem_singleton.mp hnd]
  decide

/-- Claim C9 (amended): `SetProbability` performs no validation and cannot
fail: for every `p` — in range or not — it stores `p`, regenerates the
table of the current `maxLevel` (so the table keeps length `maxLevel`),
and changes nothing else. -/
theorem claim_C9 (s : SkipList K V) (p : ℚ) :
    (s.setProbability p).probability = p ∧
    (s.setProbability p).probTable = probabilityTable p s.maxLevel ∧
    (s.setProbability p).probTable.length = s.maxLevel ∧
    (s.setProbability p).next = s.next ∧
    (s.setProbability p).maxLevel = s.maxLevel ∧
    (s.setProbability p).length = s.length ∧
    (s.setProbability p).nodes = s.nodes ∧
    (s.setProbability p).prevNodesCache = s.prevNodesCache :=
  ⟨rfl, rfl, probabilityTable_length p s.maxLevel, rfl, rfl, rfl, rfl, rfl⟩

/-- C9 as stated is false: the code silently accepts the out-of-range
probability `2` and stores it, where the specified behaviour
(`setProbabilitySpec`) is an explicit InvalidArgument failure. -/
theorem claim_C9_counterexample :
    ((newList Int Int).setProbability 2).probability = 2 ∧
    setProbabilitySpec (newList Int Int) 2 = none := by
  refine ⟨rfl, ?_⟩
  rw [setProbabilitySpec, if_neg]
  intro h
  exact absurd h.2 (by norm_num)

end FastSkiplist
